import Mathlib

/-!
# gomcts: Monte Carlo Tree Search (`mcts.go`)

A shallow embedding of `mcts.go` and the properties its specification states.

* The search tree lives in a heap: a list of nodes, a pointer is an index into
  it, `nil` is `none`.  The root is the first node allocated (address `0`).
* `GameState`, `Action`, `RolloutPolicy` and `GameResult` are interfaces that
  the file only uses; they are parameters.
* `math.Log` and `math.Sqrt` are library functions outside the file: their
  values at ordinary arguments are a parameter, their special cases
  (`Log 0 = -Inf`, `Sqrt` of a negative number is `NaN`) are those the Go
  documentation lists.
* `crypto/rand` is an oracle: every call of `rand.Int` receives the drawn
  number as an argument.
* `n`, which the code only ever increments from zero, is a natural number.

The code is embedded twice.

* The first embedding serves the properties of the shape of the tree, of the
  visit counts, of the order of the calls, and of the selection as far as it
  does not depend on rounding.  In it `q` and the scores are
  exact rationals (`F64` without rounding), and a run of the body of a
  goroutine (rollout, then backpropagation under the lock) is one atomic step;
  a schedule says how many of the goroutines that are waiting run after each
  `go` statement.
* The second embedding, in the namespace `Binary64`, serves the properties of
  the values of `q` and of the scores, and of what a selection reads while a
  goroutine is at work.  In it every operation of `float64` rounds to the
  nearest `float64`, `q` can become an infinity or `NaN`, and a goroutine runs
  in steps (its rollout, taking the lock, each pass through the loop of
  `backpropagate`) between which the function itself goes on.
-/

namespace Gomcts

/-! ## float64 -/

/-- Values of type `float64`; finite values are kept exact. -/
inductive F64 where
  | NaN : F64
  | negInf : F64
  | fin (x : ℚ) : F64
  | posInf : F64
  deriving DecidableEq

namespace F64

/-- The operator `*` of `float64`. -/
def mul : F64 → F64 → F64
  | fin x, fin y => fin (x * y)
  | fin x, posInf => if x = 0 then NaN else if 0 < x then posInf else negInf
  | fin x, negInf => if x = 0 then NaN else if 0 < x then negInf else posInf
  | posInf, fin y => if y = 0 then NaN else if 0 < y then posInf else negInf
  | negInf, fin y => if y = 0 then NaN else if 0 < y then negInf else posInf
  | posInf, posInf => posInf
  | posInf, negInf => negInf
  | negInf, posInf => negInf
  | negInf, negInf => posInf
  | NaN, _ => NaN
  | _, NaN => NaN

/-- The operator `/` of `float64`. -/
def div : F64 → F64 → F64
  | fin x, fin y =>
    if y = 0 then (if x = 0 then NaN else if 0 < x then posInf else negInf) else fin (x / y)
  | fin _, posInf => fin 0
  | fin _, negInf => fin 0
  | posInf, fin y => if 0 ≤ y then posInf else negInf
  | negInf, fin y => if 0 ≤ y then negInf else posInf
  | posInf, posInf => NaN
  | posInf, negInf => NaN
  | negInf, posInf => NaN
  | negInf, negInf => NaN
  | NaN, _ => NaN
  | _, NaN => NaN

/-- The operator `+` of `float64`. -/
def add : F64 → F64 → F64
  | fin x, fin y => fin (x + y)
  | fin _, posInf => posInf
  | fin _, negInf => negInf
  | posInf, fin _ => posInf
  | negInf, fin _ => negInf
  | posInf, posInf => posInf
  | posInf, negInf => NaN
  | negInf, posInf => NaN
  | negInf, negInf => negInf
  | NaN, _ => NaN
  | _, NaN => NaN

/-- The comparison `a > b` of `float64`: false as soon as one side is `NaN`. -/
def gt : F64 → F64 → Bool
  | fin x, fin y => decide (y < x)
  | fin _, negInf => true
  | posInf, fin _ => true
  | posInf, negInf => true
  | _, _ => false

/-- The comparison `a == b` of `float64`: `NaN` equals nothing. -/
def eq : F64 → F64 → Bool
  | fin x, fin y => decide (x = y)
  | posInf, posInf => true
  | negInf, negInf => true
  | _, _ => false

end F64

/-- The constant `math.MaxFloat64`, `2^1023 * (2 - 2^-52)`. -/
def MaxFloat64 : ℚ := 2 ^ 1024 - 2 ^ 971

/-- The part of package `math` the file calls, at ordinary arguments: the
value `math.Log` returns at a positive number and the value `math.Sqrt`
returns at a number that is not negative. -/
structure GoMath where
  logPos : ℚ → ℚ
  sqrtNonneg : ℚ → ℚ
  logPos_nonneg : ∀ x : ℚ, 1 ≤ x → 0 ≤ logPos x
  sqrtNonneg_nonneg : ∀ x : ℚ, 0 ≤ x → 0 ≤ sqrtNonneg x

/-- The function `math.Log`: `Log(+Inf) = +Inf`, `Log(0) = -Inf`,
`Log(x < 0) = NaN`, `Log(NaN) = NaN`. -/
def GoMath.Log (m : GoMath) : F64 → F64
  | F64.fin x => if x < 0 then F64.NaN else if x = 0 then F64.negInf else F64.fin (m.logPos x)
  | F64.posInf => F64.posInf
  | F64.negInf => F64.NaN
  | F64.NaN => F64.NaN

/-- The function `math.Sqrt`: `Sqrt(+Inf) = +Inf`, `Sqrt(x < 0) = NaN`,
`Sqrt(NaN) = NaN`. -/
def GoMath.Sqrt (m : GoMath) : F64 → F64
  | F64.fin x => if x < 0 then F64.NaN else F64.fin (m.sqrtNonneg x)
  | F64.posInf => F64.posInf
  | F64.negInf => F64.NaN
  | F64.NaN => F64.NaN

/-! ## The interfaces the search consumes -/

/-- The methods of `GameState` and `Action` the file calls.  `GameResult` is
`ℚ`; `NextToMove` is an integer that `backpropagate` converts to `float64`. -/
structure Game (S A : Type) where
  GetLegalActions : S → List A
  ApplyTo : A → S → S
  Clone : S → S
  RandomizeUnknowns : S → S
  IsGameEnded : S → Bool
  EvaluateGame : S → ℚ × Bool
  NextToMove : S → ℤ

/-! ## Nodes and the heap -/

/-- The struct `monteCarloTreeSearchGameNode` (without its lock).  A pointer
to a node is its address in the heap, a natural number. -/
structure monteCarloTreeSearchGameNode (S A : Type) where
  parent : Option Nat
  children : List Nat
  value : S
  untriedActions : List A
  causingAction : Option A
  q : ℚ
  n : Nat
  deriving DecidableEq

/-- A short name for the node type. -/
abbrev Node (S A : Type) := monteCarloTreeSearchGameNode S A

/-- The nodes allocated so far, by address. -/
abbrev Heap (S A : Type) := List (Node S A)

/-- The ways a call can fail to return. -/
inductive Fault where
  | nilDeref : Fault
  | indexOutOfRange : Fault
  | randIntArg : Fault
  | outOfFuel : Fault
  deriving DecidableEq

section Ops

variable {S A : Type}

/-- Reading through a pointer. -/
def load (h : Heap S A) (p : Nat) : Except Fault (Node S A) :=
  match h[p]? with
  | some x => Except.ok x
  | none => Except.error Fault.nilDeref

/-- Writing through a pointer. -/
def store (h : Heap S A) (p : Nat) (x : Node S A) : Heap S A :=
  h.set p x

/-- The function `newMCTSNode`. -/
def newMCTSNode (g : Game S A) (parentNode : Option Nat) (state : S)
    (causingAction : Option A) : Node S A :=
  { parent := parentNode
    children := []
    value := state
    untriedActions := g.GetLegalActions state
    causingAction := causingAction
    q := 0
    n := 0 }

/-- Modelled from the spec: `isRoot` is not in `mcts.go`; the specification
gives it as "`is_root` (parent is null)". -/
def isRoot (x : Node S A) : Bool :=
  x.parent.isNone

/-- Modelled from the spec: `addChild` is not in `mcts.go`; the
specification has expansion append the child to `node.children`. -/
def addChild (x : Node S A) (child : Nat) : Node S A :=
  { x with children := x.children ++ [child] }

/-- The method `isTerminal`. -/
def isTerminal (g : Game S A) (x : Node S A) : Bool :=
  (g.EvaluateGame x.value).2

/-- The method `isFullyExpanded`. -/
def isFullyExpanded (x : Node S A) : Bool :=
  x.untriedActions.length == 0

/-- The method `popFirstUntriedAction`: the action and the node as it is left. -/
def popFirstUntriedAction (x : Node S A) : Except Fault (A × Node S A) :=
  match x.untriedActions with
  | [] => Except.error Fault.indexOutOfRange
  | action :: rest => Except.ok (action, { x with untriedActions := rest })

/-- The method `expand`: the heap after the call and the pointer returned. -/
def expand (g : Game S A) (h : Heap S A) (node : Nat) : Except Fault (Heap S A × Nat) := do
  let x ← load h node
  let (action, x1) ← popFirstUntriedAction x
  let expandedChild := newMCTSNode g (some node) (g.ApplyTo action x.value) (some action)
  let addr := h.length
  let h1 := store h node x1 ++ [expandedChild]
  let x2 ← load h1 node
  pure (store h1 node (addChild x2 addr), addr)

/-- The score `v` that `uctBestChild` gives one child, in exact arithmetic
(`Binary64.uctScore` is the score with every operation rounded). -/
def uctScore (m : GoMath) (c : ℚ) (nodeN : Nat) (child : Node S A) : F64 :=
  if child.n > 0 then
    F64.add (F64.div (F64.fin child.q) (F64.fin child.n))
      (F64.mul (F64.fin c)
        (m.Sqrt (F64.div (F64.mul (F64.fin 2) (m.Log (F64.fin nodeN))) (F64.fin child.n))))
  else F64.fin 100000000

/-- The loop of `uctBestChild` over `node.children`, from the current
`maxValue` and `bestChildren`. -/
def uctLoop (m : GoMath) (h : Heap S A) (c : ℚ) (nodeN : Nat) :
    List Nat → F64 × List Nat → Except Fault (F64 × List Nat)
  | [], acc => Except.ok acc
  | child :: rest, (maxValue, bestChildren) => do
    let ch ← load h child
    let v := uctScore m c nodeN ch
    if F64.gt v maxValue then
      uctLoop m h c nodeN rest (v, [child])
    else if F64.eq v maxValue then
      uctLoop m h c nodeN rest (maxValue, bestChildren ++ [child])
    else
      uctLoop m h c nodeN rest (maxValue, bestChildren)

/-- The method `uctBestChild`; `r` is the number `rand.Int` draws, reduced
to the range the call asks for. -/
def uctBestChild (m : GoMath) (h : Heap S A) (node : Nat) (c : ℚ) (r : Nat) :
    Except Fault Nat := do
  let x ← load h node
  let (_, bestChildren) ← uctLoop m h c x.n x.children (F64.fin (-MaxFloat64), [])
  let n := bestChildren.length
  if n ≤ 0 then
    Except.error Fault.randIntArg
  else
    match bestChildren[r % n]? with
    | some best => pure best
    | none => Except.error Fault.indexOutOfRange

/-- The loop of `rollout`; `none` when `fuel` turns of play do not end the game. -/
def rolloutLoop (g : Game S A) (policy : S → A) : Nat → S → Option ℚ
  | 0, _ => none
  | fuel + 1, currentState =>
    if g.IsGameEnded currentState then
      some (g.EvaluateGame currentState).1
    else
      rolloutLoop g policy fuel (g.ApplyTo (policy currentState) currentState)

/-- The method `rollout`. -/
def rollout (g : Game S A) (policy : S → A) (fuel : Nat) (x : Node S A) : Option ℚ :=
  rolloutLoop g policy fuel (g.RandomizeUnknowns (g.Clone x.value))

/-- The loop of `backpropagate` and the increment after it, with `q` added
to exactly (`Binary64.backpropagateLoop` adds in `float64`). -/
def backpropagateLoop (g : Game S A) (result : ℚ) : Nat → Heap S A → Nat → Except Fault (Heap S A)
  | 0, _, _ => Except.error Fault.outOfFuel
  | fuel + 1, h, node => do
    let x ← load h node
    if isRoot x then
      pure (store h node { x with n := x.n + 1 })
    else
      match x.parent with
      | none => Except.error Fault.nilDeref
      | some p => do
        let px ← load h p
        let h1 := store h node { x with q := x.q + result * (g.NextToMove px.value : ℚ), n := x.n + 1 }
        backpropagateLoop g result fuel h1 p

/-- The method `backpropagate`.  A walk up a tree of `h.length` nodes takes
at most `h.length` steps. -/
def backpropagate (g : Game S A) (h : Heap S A) (node : Nat) (result : ℚ) :
    Except Fault (Heap S A) :=
  backpropagateLoop g result h.length h node

/-- The loop of `treePolicy`; `rnd k` is the number drawn at the `k`-th
descent, and the constant `1.4` is the rational `14 / 10`. -/
def treePolicyLoop (g : Game S A) (m : GoMath) :
    Nat → (Nat → Nat) → Heap S A → Nat → Except Fault (Heap S A × Nat)
  | 0, _, _, _ => Except.error Fault.outOfFuel
  | fuel + 1, rnd, h, node => do
    let x ← load h node
    if isTerminal g x then
      pure (h, node)
    else if !isFullyExpanded x then
      expand g h node
    else do
      let next ← uctBestChild m h node (14 / 10) (rnd 0)
      treePolicyLoop g m fuel (fun k => rnd (k + 1)) h next

/-- The method `treePolicy`.  A descent through a tree of `h.length` nodes
visits at most `h.length` nodes. -/
def treePolicy (g : Game S A) (m : GoMath) (rnd : Nat → Nat) (h : Heap S A) (node : Nat) :
    Except Fault (Heap S A × Nat) :=
  treePolicyLoop g m h.length rnd h node

/-! ## The driver -/

/-- What `MonteCarloTreeSearch` is given besides its arguments: how many
turns of play a goroutine gets before it counts as still running
(`rolloutFuel`), how many waiting goroutines run after the `go` statement of
iteration `i` (`sched i`), the numbers `rand.Int` draws during the tree policy
of iteration `i` (`rnd i`) and the one it draws for the final choice. -/
structure Runtime where
  rolloutFuel : Nat
  sched : Nat → Nat
  rnd : Nat → Nat → Nat
  rndFinal : Nat

/-- The state of a call of `MonteCarloTreeSearch`: the heap, the variable
`leaf`, and two logs: the leaf each iteration assigned (`leaves`) and the
leaf each finished goroutine started from (`done`). -/
structure Search (S A : Type) where
  h : Heap S A
  leaf : Option Nat
  leaves : List Nat
  done : List Nat
  deriving DecidableEq

/-- The body of the goroutine, run in one piece: it reads the shared variable
`leaf` when it runs.  A rollout that has not ended leaves everything as it is.
(`Binary64.runEvent` runs the body in steps.) -/
def goroutine (g : Game S A) (rolloutPolicy : S → A) (rt : Runtime) (st : Search S A) :
    Except Fault (Search S A) :=
  match st.leaf with
  | none => Except.error Fault.nilDeref
  | some leaf => do
    let x ← load st.h leaf
    match rollout g rolloutPolicy rt.rolloutFuel x with
    | none => pure st
    | some result => do
      let h1 ← backpropagate g st.h leaf result
      pure { st with h := h1, done := st.done ++ [leaf] }

/-- Runs at most `k` of the goroutines that were started and have not finished. -/
def runGoroutines (g : Game S A) (rolloutPolicy : S → A) (rt : Runtime) :
    Nat → Search S A → Except Fault (Search S A)
  | 0, st => pure st
  | k + 1, st =>
    if st.done.length < st.leaves.length then do
      let st1 ← goroutine g rolloutPolicy rt st
      runGoroutines g rolloutPolicy rt k st1
    else pure st

/-- Iteration `i` of the loop of `MonteCarloTreeSearch`, followed by the
goroutines the schedule runs before the next iteration. -/
def iteration (g : Game S A) (m : GoMath) (rolloutPolicy : S → A) (rt : Runtime) (i : Nat)
    (st : Search S A) : Except Fault (Search S A) := do
  let (h1, leaf) ← treePolicy g m (rt.rnd i) st.h 0
  runGoroutines g rolloutPolicy rt (rt.sched i)
    { st with h := h1, leaf := some leaf, leaves := st.leaves ++ [leaf] }

/-- The state after the first `k` iterations of the loop of
`MonteCarloTreeSearch`; the root is the node at address `0`. -/
def searchLoop (g : Game S A) (m : GoMath) (state : S) (rolloutPolicy : S → A) (rt : Runtime) :
    Nat → Except Fault (Search S A)
  | 0 => pure { h := [newMCTSNode g none state none], leaf := none, leaves := [], done := [] }
  | k + 1 => do
    let st ← searchLoop g m state rolloutPolicy rt k
    iteration g m rolloutPolicy rt k st

/-- The function `MonteCarloTreeSearch`: the loop runs `simulations` times
(not at all when `simulations ≤ 0`) and the result is chosen at once, whatever
the goroutines have done by then. -/
def MonteCarloTreeSearch (g : Game S A) (m : GoMath) (rt : Runtime) (state : S)
    (rolloutPolicy : S → A) (simulations : ℤ) : Except Fault (Option A) := do
  let st ← searchLoop g m state rolloutPolicy rt simulations.toNat
  let best ← uctBestChild m st.h 0 0 rt.rndFinal
  let b ← load st.h best
  pure b.causingAction

/-- The schedule of a run without concurrency: the goroutine of every
iteration runs before the next iteration starts. -/
def sequential (rt : Runtime) : Prop :=
  ∀ i, rt.sched i = 1

/-- The nodes on which the loop of `treePolicy` calls `uctBestChild(1.4)`,
in order: the same loop as `treePolicyLoop`, keeping the receiver of each call. -/
def treePolicyCalls (g : Game S A) (m : GoMath) :
    Nat → (Nat → Nat) → Heap S A → Nat → List Nat
  | 0, _, _, _ => []
  | fuel + 1, rnd, h, node =>
    match load h node with
    | Except.error _ => []
    | Except.ok x =>
      if isTerminal g x then []
      else if !isFullyExpanded x then []
      else node ::
        (match uctBestChild m h node (14 / 10) (rnd 0) with
          | Except.ok next => treePolicyCalls g m fuel (fun k => rnd (k + 1)) h next
          | Except.error _ => [])

/-- The states a rollout from `x` plays through, as the specification
describes them: `s0 = RandomizeUnknowns(Clone(x.value))` and
`s(k+1) = policy(s(k)).ApplyTo(s(k))`. -/
def playSequence (g : Game S A) (policy : S → A) (x : Node S A) (k : Nat) : S :=
  (fun s => g.ApplyTo (policy s) s)^[k] (g.RandomizeUnknowns (g.Clone x.value))

end Ops

/-- Equality of results is decidable. -/
instance instDecidableEqExcept {ε α : Type} [DecidableEq ε] [DecidableEq α] :
    DecidableEq (Except ε α)
  | Except.ok a, Except.ok b =>
    if hab : a = b then isTrue (by rw [hab]) else isFalse (fun hh => hab (by cases hh; rfl))
  | Except.error a, Except.error b =>
    if hab : a = b then isTrue (by rw [hab]) else isFalse (fun hh => hab (by cases hh; rfl))
  | Except.ok _, Except.error _ => isFalse (fun hh => by cases hh)
  | Except.error _, Except.ok _ => isFalse (fun hh => by cases hh)

/-! ## The shape of the tree -/

section Shape

variable {S A : Type}

/-- The parent pointer of the node at address `i` (`none` for `nil` and for
an address that holds no node). -/
def parentOf (h : Heap S A) (i : Nat) : Option Nat :=
  (h[i]?).bind (fun x => x.parent)

/-- The path from a node up to the root: `OnPath par a node` says that `a`
is `node` itself or is reached from `node` along parent pointers. -/
inductive OnPath (par : Nat → Option Nat) : Nat → Nat → Prop
  | self (node : Nat) : OnPath par node node
  | up {a node p : Nat} : par node = some p → OnPath par a p → OnPath par a node

/-- Every node was allocated after its parent. -/
def ParentsBelow (h : Heap S A) : Prop :=
  ∀ i p, parentOf h i = some p → p < i

/-- The children of the node at address `p`. -/
def childrenOf (h : Heap S A) (p : Nat) : List Nat :=
  match h[p]? with
  | some y => y.children
  | none => []

/-- The causing action of the node at address `c`. -/
def causingOf (h : Heap S A) (c : Nat) : Option A :=
  (h[c]?).bind (fun y => y.causingAction)

/-- The visit count `n` of the node at address `c`. -/
def visitsOf (h : Heap S A) (c : Nat) : Nat :=
  match h[c]? with
  | some y => y.n
  | none => 0

/-- The heap holds one tree: the node at address `0` is its root, the only
node without a parent; parent pointers lead to nodes allocated earlier; the
parent of a node lists it among its children, once, and the children of a node
have that node as their parent. -/
structure WellFormed (h : Heap S A) : Prop where
  root : 0 < h.length ∧ parentOf h 0 = none
  parents_below : ParentsBelow h
  only_root : ∀ i, i < h.length → parentOf h i = none → i = 0
  parent_child : ∀ i p, parentOf h i = some p → i ∈ childrenOf h p
  child_parent : ∀ p c, c ∈ childrenOf h p → parentOf h c = some p
  children_nodup : ∀ p, (childrenOf h p).Nodup

/-- The causing actions of the children of a node, in order, followed by its
untried actions, are the legal actions of its state. -/
def Partitioned (g : Game S A) (h : Heap S A) : Prop :=
  ∀ (i : Nat) (x : Node S A), h[i]? = some x →
    x.children.map (causingOf h) ++ x.untriedActions.map some
      = (g.GetLegalActions x.value).map some

/-- The visit count of every node is the sum of the visit counts of its
children plus the number of backpropagations that started at the node, `ends`
being the list of the nodes the backpropagations started from. -/
def Conserved (h : Heap S A) (ends : List Nat) : Prop :=
  ∀ (i : Nat) (x : Node S A), h[i]? = some x →
    x.n = (x.children.map (visitsOf h)).sum + ends.count i

/-- The heaps that calls of `treePolicy`, `expand` and `backpropagate` build
from the root node of `state`. -/
inductive Reachable (g : Game S A) (m : GoMath) (state : S) : Heap S A → Prop
  | root : Reachable g m state [newMCTSNode g none state none]
  | treePolicy {h h' : Heap S A} {rnd : Nat → Nat} {node leaf : Nat} :
      Reachable g m state h → node < h.length →
      treePolicy g m rnd h node = Except.ok (h', leaf) → Reachable g m state h'
  | expand {h h' : Heap S A} {node child : Nat} :
      Reachable g m state h → expand g h node = Except.ok (h', child) →
      Reachable g m state h'
  | backpropagate {h h' : Heap S A} {node : Nat} {result : ℚ} :
      Reachable g m state h → node < h.length →
      backpropagate g h node result = Except.ok h' → Reachable g m state h'

/-- What `expand` makes of the heap `h` when the node at `node` is `x` with
untried actions `a :: rest`. -/
structure Expanded (g : Game S A) (h : Heap S A) (node : Nat) (x : Node S A) (a : A)
    (rest : List A) (h' : Heap S A) : Prop where
  node_lt : node < h.length
  length_eq : h'.length = h.length + 1
  child : h'[h.length]? = some (newMCTSNode g (some node) (g.ApplyTo a x.value) (some a))
  node_eq : h'[node]? = some
    { x with untriedActions := rest, children := x.children ++ [h.length] }
  other : ∀ i, i ≠ node → i < h.length → h'[i]? = h[i]?

/-- The two heaps hold the same tree: they differ at most in `q` and `n`. -/
def SameTree (h h' : Heap S A) : Prop :=
  h'.length = h.length ∧
  ∀ (i : Nat) (x : Node S A), h[i]? = some x → ∃ y, h'[i]? = some y ∧ y.parent = x.parent ∧
    y.children = x.children ∧ y.value = x.value ∧ y.untriedActions = x.untriedActions ∧
    y.causingAction = x.causingAction

/-- The score `uctBestChild` gives the child at address `d` of a node with
visit count `nodeN` (`NaN` for an address that holds no node). -/
def scoreOf (m : GoMath) (h : Heap S A) (c : ℚ) (nodeN : Nat) (d : Nat) : F64 :=
  match h[d]? with
  | some y => uctScore m c nodeN y
  | none => F64.NaN

/-- What one step of the loop of `backpropagate` adds to the `q` of the
node `x`: nothing at the root, the result times `NextToMove` of the state of
the parent elsewhere. -/
def backpropagatedTerm (g : Game S A) (h : Heap S A) (result : ℚ) (x : Node S A) : ℚ :=
  match x.parent with
  | none => 0
  | some p =>
    match h[p]? with
    | some px => result * (g.NextToMove px.value : ℚ)
    | none => 0

/-- What holds of the state of a call of `MonteCarloTreeSearch` at every
moment: the heap holds one tree, partitioned and with conserved visit counts;
the variable `leaf` is the leaf of the latest iteration; the root has been
visited once for each goroutine that finished. -/
structure SearchInv (g : Game S A) (st : Search S A) : Prop where
  wf : WellFormed st.h
  part : Partitioned g st.h
  cons : Conserved st.h st.done
  leaf_last : st.leaf = st.leaves.getLast?
  leaves_valid : ∀ l ∈ st.leaves, l < st.h.length
  done_valid : ∀ e ∈ st.done, e < st.h.length
  root_visits : visitsOf st.h 0 = st.done.length

end Shape

/-! ## A small game to run the definitions on -/

/-- A stand-in for package `math`: crude but computable values. -/
def sampleMath : GoMath where
  logPos := fun x => x - 1
  sqrtNonneg := fun x => x
  logPos_nonneg := fun x hx => by simpa using hx
  sqrtNonneg_nonneg := fun _ hx => hx

/-- The game of counting down: a state is the number of tokens left, a move
takes one or two of them, the game ends on zero, the players alternate with
the parity of the count, and the result of an ended game is `1`. -/
def countdown : Game Nat Nat where
  GetLegalActions := fun s => if s = 0 then [] else if s = 1 then [1] else [1, 2]
  ApplyTo := fun a s => s - a
  Clone := fun s => s
  RandomizeUnknowns := fun s => s
  IsGameEnded := fun s => s == 0
  EvaluateGame := fun s => (1, s == 0)
  NextToMove := fun s => if s % 2 = 0 then 1 else -1

/-- A game of two states with one legal move per turn: from the state
`false` the only move, `7`, leads to the state `true`, where the game has ended
with result `1`. -/
def twoState : Game Bool Nat where
  GetLegalActions := fun _ => [7]
  ApplyTo := fun _ _ => true
  Clone := fun s => s
  RandomizeUnknowns := fun s => s
  IsGameEnded := fun s => s
  EvaluateGame := fun s => (1, s)
  NextToMove := fun s => if s then -1 else 1

/-- The rollout policy that always takes one token. -/
def takeOne : Nat → Nat := fun _ => 1

/-- A run in which every goroutine finishes before the next iteration. -/
def lockstep : Runtime where
  rolloutFuel := 10
  sched := fun _ => 1
  rnd := fun i k => i + k
  rndFinal := 0

/-- A run in which no goroutine gets to run before the function returns. -/
def detached : Runtime where
  rolloutFuel := 10
  sched := fun _ => 0
  rnd := fun i k => i + k
  rndFinal := 0

/-- A tree of the countdown game from three tokens: the root, its two
children, and a child of the first child. -/
def sampleTree : Heap Nat Nat :=
  [ { parent := none, children := [1, 2], value := 3, untriedActions := [],
      causingAction := none, q := 0, n := 3 },
    { parent := some 0, children := [3], value := 2, untriedActions := [2],
      causingAction := some 1, q := -2, n := 2 },
    { parent := some 0, children := [], value := 1, untriedActions := [1],
      causingAction := some 2, q := -1, n := 1 },
    { parent := some 1, children := [], value := 1, untriedActions := [1],
      causingAction := some 1, q := 1, n := 1 } ]

/-- The root of the countdown game from three tokens after one expansion. -/
def expandedRoot : Node Nat Nat :=
  { parent := none, children := [1], value := 3, untriedActions := [2],
    causingAction := none, q := 0, n := 0 }

/-- The heap of the countdown game from three tokens after one expansion. -/
def expandedOnce : Heap Nat Nat :=
  [ expandedRoot,
    { parent := some 0, children := [], value := 2, untriedActions := [1, 2],
      causingAction := some 1, q := 0, n := 0 } ]

/-- The state of the search of the countdown game from three tokens after
four iterations of a run without concurrency. -/
def lockstepRun : Search Nat Nat :=
  { h :=
      [ { parent := none, children := [1, 2], value := 3, untriedActions := [],
          causingAction := none, q := 0, n := 4 },
        { parent := some 0, children := [3], value := 2, untriedActions := [2],
          causingAction := some 1, q := -2, n := 2 },
        { parent := some 0, children := [4], value := 1, untriedActions := [],
          causingAction := some 2, q := -2, n := 2 },
        { parent := some 1, children := [], value := 1, untriedActions := [1],
          causingAction := some 1, q := 1, n := 1 },
        { parent := some 2, children := [], value := 0, untriedActions := [],
          causingAction := some 1, q := -1, n := 1 } ]
    leaf := some 4
    leaves := [1, 2, 3, 4]
    done := [1, 2, 3, 4] }

/-- The state of the search of the countdown game from three tokens after
four iterations of a run in which no goroutine has run yet. -/
def detachedRun : Search Nat Nat :=
  { h :=
      [ { parent := none, children := [1, 2], value := 3, untriedActions := [],
          causingAction := none, q := 0, n := 0 },
        { parent := some 0, children := [3], value := 2, untriedActions := [2],
          causingAction := some 1, q := 0, n := 0 },
        { parent := some 0, children := [4], value := 1, untriedActions := [],
          causingAction := some 2, q := 0, n := 0 },
        { parent := some 1, children := [], value := 1, untriedActions := [1],
          causingAction := some 1, q := 0, n := 0 },
        { parent := some 2, children := [], value := 0, untriedActions := [],
          causingAction := some 1, q := 0, n := 0 } ]
    leaf := some 4
    leaves := [1, 2, 3, 4]
    done := [] }

/-- A game whose states have no legal action and are never terminal. -/
def deadEnd : Game Nat Nat where
  GetLegalActions := fun _ => []
  ApplyTo := fun _ s => s
  Clone := fun s => s
  RandomizeUnknowns := fun s => s
  IsGameEnded := fun _ => false
  EvaluateGame := fun _ => (0, false)
  NextToMove := fun _ => 1

/-- The root of `lockstepRun`. -/
def lockstepRoot : Node Nat Nat :=
  { parent := none, children := [1, 2], value := 3, untriedActions := [],
    causingAction := none, q := 0, n := 4 }

namespace F64

/-- The integer nearest to `x`; of two integers that are equally near, the
even one. -/
def roundHalfEven (x : ℚ) : ℤ :=
  if x - ⌊x⌋ < 1 / 2 then ⌊x⌋
  else if 1 / 2 < x - ⌊x⌋ then ⌊x⌋ + 1
  else if ⌊x⌋ % 2 = 0 then ⌊x⌋ else ⌊x⌋ + 1

/-- The binary exponent of `x ≥ 1`: how often `x` can be halved before it is
below `2` (at most `fuel` times). -/
def exponentUp : Nat → ℚ → ℤ
  | 0, _ => 0
  | fuel + 1, x => if x < 2 then 0 else exponentUp fuel (x / 2) + 1

/-- The binary exponent of `0 ≤ x < 1`, not below `-fuel`: minus the number
of doublings that bring `x` to `1` or above (at most `fuel` of them). -/
def exponentDown : Nat → ℚ → ℤ
  | 0, _ => 0
  | fuel + 1, x => if 1 ≤ x then 0 else exponentDown fuel (2 * x) - 1

/-- The exponent `float64` gives `x`: the `e` with `2^e ≤ |x| < 2^(e+1)` for a
normal number, and `-1022`, the least exponent, for a smaller number
(subnormal, or zero). -/
def exponent (x : ℚ) : ℤ :=
  if 1 ≤ |x| then exponentUp 1024 |x| else exponentDown 1022 |x|

/-- The multiple of `2^(e-52)` nearest to `x`, `e` being the exponent of `x`:
the significand of a `float64` has 53 binary digits, and ties go to the even
significand. -/
def nearest (x : ℚ) : ℚ :=
  roundHalfEven (x / 2 ^ (exponent x - 52)) * 2 ^ (exponent x - 52)

/-- The `float64` a real number is rounded to (IEEE 754, round to nearest,
ties to even): the nearest number with a significand of 53 digits, and an
infinity when that number is beyond `MaxFloat64`.  The two zeros of `float64`
are not told apart: the file only divides by `child.n > 0` and compares. -/
def round (x : ℚ) : F64 :=
  if 2 ^ 1024 ≤ |x| ∨ MaxFloat64 < |nearest x| then (if 0 < x then posInf else negInf)
  else fin (nearest x)

/-- Rounding of the exact result of an operation. -/
def rounded : F64 → F64
  | fin x => round x
  | a => a

end F64

/-! ## The code with float64 arithmetic and with backpropagation in steps

The definitions of this part follow `mcts.go` once more, closer to the machine:
every operation on `float64` rounds its result (each operation on its own, as
the compiler does on amd64), `q` can be an infinity or `NaN`, and a goroutine
runs in steps between which the function itself can read the tree. -/

namespace Binary64

/-- The operator `+` of `float64`. -/
def add (a b : F64) : F64 :=
  F64.rounded (F64.add a b)

/-- The operator `*` of `float64`. -/
def mul (a b : F64) : F64 :=
  F64.rounded (F64.mul a b)

/-- The operator `/` of `float64`. -/
def div (a b : F64) : F64 :=
  F64.rounded (F64.div a b)

/-- The comparison `a >= b` of `float64`. -/
def ge (a b : F64) : Bool :=
  F64.gt a b || F64.eq a b

/-- The part of package `math` the file calls: the real numbers of which
`math.Log`, at a positive number, and `math.Sqrt`, at a number that is not
negative, return the rounding.  No `float64` has a logarithm above `709.8`, and
a square root is at most one more than its argument. -/
structure GoMath where
  logPos : ℚ → ℚ
  sqrtNonneg : ℚ → ℚ
  logPos_nonneg : ∀ x : ℚ, 1 ≤ x → 0 ≤ logPos x
  logPos_le : ∀ x : ℚ, logPos x ≤ 1024
  sqrtNonneg_nonneg : ∀ x : ℚ, 0 ≤ x → 0 ≤ sqrtNonneg x
  sqrtNonneg_le : ∀ x : ℚ, 0 ≤ x → sqrtNonneg x ≤ x + 1

/-- The function `math.Log`: `Log(+Inf) = +Inf`, `Log(0) = -Inf`,
`Log(x < 0) = NaN`, `Log(NaN) = NaN`. -/
def GoMath.Log (m : GoMath) : F64 → F64
  | F64.fin x =>
    if x < 0 then F64.NaN else if x = 0 then F64.negInf else F64.round (m.logPos x)
  | F64.posInf => F64.posInf
  | F64.negInf => F64.NaN
  | F64.NaN => F64.NaN

/-- The function `math.Sqrt`: `Sqrt(+Inf) = +Inf`, `Sqrt(x < 0) = NaN`,
`Sqrt(NaN) = NaN`. -/
def GoMath.Sqrt (m : GoMath) : F64 → F64
  | F64.fin x => if x < 0 then F64.NaN else F64.round (m.sqrtNonneg x)
  | F64.posInf => F64.posInf
  | F64.negInf => F64.NaN
  | F64.NaN => F64.NaN

/-- The methods of `GameState` and `Action` the file calls.  `GameResult` is
a `float64`; `NextToMove` is an integer that `backpropagate` converts to
`float64`. -/
structure Game (S A : Type) where
  GetLegalActions : S → List A
  ApplyTo : A → S → S
  Clone : S → S
  RandomizeUnknowns : S → S
  IsGameEnded : S → Bool
  EvaluateGame : S → F64 × Bool
  NextToMove : S → ℤ

/-- The struct `monteCarloTreeSearchGameNode` (without its lock).  The field
`q` is a `float64`; `n`, which the code only ever increments from zero, is a
natural number (`float64` counts exactly up to `2^53`). -/
structure monteCarloTreeSearchGameNode (S A : Type) where
  parent : Option Nat
  children : List Nat
  value : S
  untriedActions : List A
  causingAction : Option A
  q : F64
  n : Nat
  deriving DecidableEq

/-- A short name for the node type. -/
abbrev Node (S A : Type) := monteCarloTreeSearchGameNode S A

/-- The nodes allocated so far, by address. -/
abbrev Heap (S A : Type) := List (Node S A)

section Ops

variable {S A : Type}

/-- Reading through a pointer. -/
def load (h : Heap S A) (p : Nat) : Except Fault (Node S A) :=
  match h[p]? with
  | some x => Except.ok x
  | none => Except.error Fault.nilDeref

/-- Writing through a pointer. -/
def store (h : Heap S A) (p : Nat) (x : Node S A) : Heap S A :=
  h.set p x

/-- The function `newMCTSNode`. -/
def newMCTSNode (g : Game S A) (parentNode : Option Nat) (state : S)
    (causingAction : Option A) : Node S A :=
  { parent := parentNode
    children := []
    value := state
    untriedActions := g.GetLegalActions state
    causingAction := causingAction
    q := F64.fin 0
    n := 0 }

/-- Modelled from the spec: `isRoot` is not in `mcts.go`; the specification
gives it as "`is_root` (parent is null)". -/
def isRoot (x : Node S A) : Bool :=
  x.parent.isNone

/-- Modelled from the spec: `addChild` is not in `mcts.go`; the
specification has expansion append the child to `node.children`. -/
def addChild (x : Node S A) (child : Nat) : Node S A :=
  { x with children := x.children ++ [child] }

/-- The method `isTerminal`. -/
def isTerminal (g : Game S A) (x : Node S A) : Bool :=
  (g.EvaluateGame x.value).2

/-- The method `isFullyExpanded`. -/
def isFullyExpanded (x : Node S A) : Bool :=
  x.untriedActions.length == 0

/-- The method `popFirstUntriedAction`: the action and the node as it is left. -/
def popFirstUntriedAction (x : Node S A) : Except Fault (A × Node S A) :=
  match x.untriedActions with
  | [] => Except.error Fault.indexOutOfRange
  | action :: rest => Except.ok (action, { x with untriedActions := rest })

/-- The method `expand`: the heap after the call and the pointer returned. -/
def expand (g : Game S A) (h : Heap S A) (node : Nat) : Except Fault (Heap S A × Nat) := do
  let x ← load h node
  let (action, x1) ← popFirstUntriedAction x
  let expandedChild := newMCTSNode g (some node) (g.ApplyTo action x.value) (some action)
  let addr := h.length
  let h1 := store h node x1 ++ [expandedChild]
  let x2 ← load h1 node
  pure (store h1 node (addChild x2 addr), addr)

/-- The score `v` that `uctBestChild` gives one child:
`(child.q / child.n) + c*math.Sqrt(2*math.Log(node.n)/child.n)`, every operation
rounded, or `100000000.0`. -/
def uctScore (m : GoMath) (c : F64) (nodeN : Nat) (child : Node S A) : F64 :=
  if child.n > 0 then
    add (div child.q (F64.fin child.n))
      (mul c (m.Sqrt (div (mul (F64.fin 2) (m.Log (F64.fin nodeN))) (F64.fin child.n))))
  else F64.fin 100000000

/-- The loop of `uctBestChild` over `node.children`, from the current
`maxValue` and `bestChildren`. -/
def uctLoop (m : GoMath) (h : Heap S A) (c : F64) (nodeN : Nat) :
    List Nat → F64 × List Nat → Except Fault (F64 × List Nat)
  | [], acc => Except.ok acc
  | child :: rest, (maxValue, bestChildren) => do
    let ch ← load h child
    let v := uctScore m c nodeN ch
    if F64.gt v maxValue then
      uctLoop m h c nodeN rest (v, [child])
    else if F64.eq v maxValue then
      uctLoop m h c nodeN rest (maxValue, bestChildren ++ [child])
    else
      uctLoop m h c nodeN rest (maxValue, bestChildren)

/-- The method `uctBestChild`; `r` is the number `rand.Int` draws, reduced
to the range the call asks for. -/
def uctBestChild (m : GoMath) (h : Heap S A) (node : Nat) (c : F64) (r : Nat) :
    Except Fault Nat := do
  let x ← load h node
  let (_, bestChildren) ← uctLoop m h c x.n x.children (F64.fin (-MaxFloat64), [])
  let n := bestChildren.length
  if n ≤ 0 then
    Except.error Fault.randIntArg
  else
    match bestChildren[r % n]? with
    | some best => pure best
    | none => Except.error Fault.indexOutOfRange

/-- The loop of `rollout`; `none` when `fuel` turns of play do not end the game. -/
def rolloutLoop (g : Game S A) (policy : S → A) : Nat → S → Option F64
  | 0, _ => none
  | fuel + 1, currentState =>
    if g.IsGameEnded currentState then
      some (g.EvaluateGame currentState).1
    else
      rolloutLoop g policy fuel (g.ApplyTo (policy currentState) currentState)

/-- The method `rollout`. -/
def rollout (g : Game S A) (policy : S → A) (fuel : Nat) (x : Node S A) : Option F64 :=
  rolloutLoop g policy fuel (g.RandomizeUnknowns (g.Clone x.value))

/-- One pass through the loop of `backpropagate` at `node`, or, when `node`
is the root, the increment after the loop: the heap it leaves and the node the
loop goes on with (`none` when the method returns). -/
def backpropagateStep (g : Game S A) (result : F64) (h : Heap S A) (node : Nat) :
    Except Fault (Heap S A × Option Nat) := do
  let x ← load h node
  if isRoot x then
    pure (store h node { x with n := x.n + 1 }, none)
  else
    match x.parent with
    | none => Except.error Fault.nilDeref
    | some p => do
      let px ← load h p
      pure (store h node
        { x with q := add x.q (mul result (F64.round (g.NextToMove px.value : ℚ))),
                 n := x.n + 1 }, some p)

/-- The loop of `backpropagate` and the increment after it. -/
def backpropagateLoop (g : Game S A) (result : F64) :
    Nat → Heap S A → Nat → Except Fault (Heap S A)
  | 0, _, _ => Except.error Fault.outOfFuel
  | fuel + 1, h, node => do
    let (h1, next) ← backpropagateStep g result h node
    match next with
    | none => pure h1
    | some p => backpropagateLoop g result fuel h1 p

/-- The method `backpropagate`.  A walk up a tree of `h.length` nodes takes
at most `h.length` steps. -/
def backpropagate (g : Game S A) (h : Heap S A) (node : Nat) (result : F64) :
    Except Fault (Heap S A) :=
  backpropagateLoop g result h.length h node

/-- The loop of `treePolicy`; `rnd k` is the number drawn at the `k`-th
descent, and the constant `1.4` is the `float64` nearest to `14 / 10`. -/
def treePolicyLoop (g : Game S A) (m : GoMath) :
    Nat → (Nat → Nat) → Heap S A → Nat → Except Fault (Heap S A × Nat)
  | 0, _, _, _ => Except.error Fault.outOfFuel
  | fuel + 1, rnd, h, node => do
    let x ← load h node
    if isTerminal g x then
      pure (h, node)
    else if !isFullyExpanded x then
      expand g h node
    else do
      let next ← uctBestChild m h node (F64.round (14 / 10)) (rnd 0)
      treePolicyLoop g m fuel (fun k => rnd (k + 1)) h next

/-- The method `treePolicy`.  A descent through a tree of `h.length` nodes
visits at most `h.length` nodes. -/
def treePolicy (g : Game S A) (m : GoMath) (rnd : Nat → Nat) (h : Heap S A) (node : Nat) :
    Except Fault (Heap S A × Nat) :=
  treePolicyLoop g m h.length rnd h node

/-- What the scheduler lets happen between two steps of
`MonteCarloTreeSearch`: a goroutine that was started evaluates
`leaf.rollout(rolloutPolicy)`; the `k`-th of the goroutines whose rollout has
returned gets `root.lock` and enters `leaf.backpropagate(result)`; the
goroutine that holds the lock takes one pass through the loop of
`backpropagate`, or does the last increment and unlocks. -/
inductive Event where
  | rollout : Event
  | lock (k : Nat) : Event
  | pass : Event
  deriving DecidableEq

/-- What `MonteCarloTreeSearch` is given besides its arguments: how many
turns of play a rollout gets (`rolloutFuel`), what the goroutines do after the
`go` statement of iteration `i` and before the next step of the function
(`sched i`), the numbers `rand.Int` draws during the tree policy of iteration
`i` (`rnd i`) and the one it draws for the final choice. -/
structure Runtime where
  rolloutFuel : Nat
  sched : Nat → List Event
  rnd : Nat → Nat → Nat
  rndFinal : Nat

/-- The state of a call of `MonteCarloTreeSearch`: the heap, the variable
`leaf`, the leaves assigned so far, the number of goroutines that were started
and have not evaluated their rollout, the results of the goroutines that wait
for the lock, the goroutine that holds the lock (the node its loop is at and
its result), and the number of goroutines that have finished. -/
structure Search (S A : Type) where
  h : Heap S A
  leaf : Option Nat
  leaves : List Nat
  started : Nat
  waiting : List F64
  running : Option (Nat × F64)
  finished : Nat
  deriving DecidableEq

/-- One step of a goroutine.  The goroutine reads the shared variable `leaf`
when it evaluates `leaf.rollout` and again when it evaluates
`leaf.backpropagate`; an event that cannot happen changes nothing; a goroutine
whose play does not end takes no further step. -/
def runEvent (g : Game S A) (rolloutPolicy : S → A) (rt : Runtime) (st : Search S A) :
    Event → Except Fault (Search S A)
  | Event.rollout =>
    if st.started = 0 then pure st
    else
      match st.leaf with
      | none => Except.error Fault.nilDeref
      | some leaf => do
        let x ← load st.h leaf
        match rollout g rolloutPolicy rt.rolloutFuel x with
        | none => pure { st with started := st.started - 1 }
        | some result =>
          pure { st with started := st.started - 1, waiting := st.waiting ++ [result] }
  | Event.lock k =>
    match st.running, st.waiting[k]? with
    | none, some result =>
      match st.leaf with
      | none => Except.error Fault.nilDeref
      | some leaf =>
        pure { st with waiting := st.waiting.eraseIdx k, running := some (leaf, result) }
    | _, _ => pure st
  | Event.pass =>
    match st.running with
    | none => pure st
    | some (node, result) => do
      let (h1, next) ← backpropagateStep g result st.h node
      match next with
      | none => pure { st with h := h1, running := none, finished := st.finished + 1 }
      | some p => pure { st with h := h1, running := some (p, result) }

/-- The steps of the goroutines between two steps of the function. -/
def runEvents (g : Game S A) (rolloutPolicy : S → A) (rt : Runtime) :
    List Event → Search S A → Except Fault (Search S A)
  | [], st => pure st
  | e :: rest, st => do
    let st1 ← runEvent g rolloutPolicy rt st e
    runEvents g rolloutPolicy rt rest st1

/-- Iteration `i` of the loop of `MonteCarloTreeSearch`, followed by the
steps the goroutines take before the next step of the function.  A call of
`treePolicy`, and the final call of `uctBestChild`, is one step of the
function. -/
def iteration (g : Game S A) (m : GoMath) (rolloutPolicy : S → A) (rt : Runtime) (i : Nat)
    (st : Search S A) : Except Fault (Search S A) := do
  let (h1, leaf) ← treePolicy g m (rt.rnd i) st.h 0
  runEvents g rolloutPolicy rt (rt.sched i)
    { st with h := h1, leaf := some leaf, leaves := st.leaves ++ [leaf],
              started := st.started + 1 }

/-- The state after the first `k` iterations of the loop of
`MonteCarloTreeSearch`; the root is the node at address `0`. -/
def searchLoop (g : Game S A) (m : GoMath) (state : S) (rolloutPolicy : S → A) (rt : Runtime) :
    Nat → Except Fault (Search S A)
  | 0 => pure { h := [newMCTSNode g none state none], leaf := none, leaves := [], started := 0,
                waiting := [], running := none, finished := 0 }
  | k + 1 => do
    let st ← searchLoop g m state rolloutPolicy rt k
    iteration g m rolloutPolicy rt k st

/-- The function `MonteCarloTreeSearch`: the loop runs `simulations` times
(not at all when `simulations ≤ 0`) and the result is chosen at once, without
the lock, whatever the goroutines have done by then. -/
def MonteCarloTreeSearch (g : Game S A) (m : GoMath) (rt : Runtime) (state : S)
    (rolloutPolicy : S → A) (simulations : ℤ) : Except Fault (Option A) := do
  let st ← searchLoop g m state rolloutPolicy rt simulations.toNat
  let best ← uctBestChild m st.h 0 (F64.fin 0) rt.rndFinal
  let b ← load st.h best
  pure b.causingAction

end Ops

section Shape

variable {S A : Type}

/-- The parent pointer of the node at address `i` (`none` for `nil` and for
an address that holds no node). -/
def parentOf (h : Heap S A) (i : Nat) : Option Nat :=
  (h[i]?).bind (fun x => x.parent)

/-- Every node was allocated after its parent. -/
def ParentsBelow (h : Heap S A) : Prop :=
  ∀ i p, parentOf h i = some p → p < i

/-- The children of the node at address `p`. -/
def childrenOf (h : Heap S A) (p : Nat) : List Nat :=
  match h[p]? with
  | some y => y.children
  | none => []

/-- The score `uctBestChild` gives the child at address `d` of a node with
visit count `nodeN` (`NaN` for an address that holds no node). -/
def scoreOf (m : GoMath) (h : Heap S A) (c : F64) (nodeN : Nat) (d : Nat) : F64 :=
  match h[d]? with
  | some y => uctScore m c nodeN y
  | none => F64.NaN

/-- The heap holds one tree: the node at address `0` is its root, the only
node without a parent; parent pointers lead to nodes allocated earlier; the
parent of a node lists it among its children, once, and the children of a node
have that node as their parent. -/
structure WellFormed (h : Heap S A) : Prop where
  root : 0 < h.length ∧ parentOf h 0 = none
  parents_below : ParentsBelow h
  only_root : ∀ i, i < h.length → parentOf h i = none → i = 0
  parent_child : ∀ i p, parentOf h i = some p → i ∈ childrenOf h p
  child_parent : ∀ p c, c ∈ childrenOf h p → parentOf h c = some p
  children_nodup : ∀ p, (childrenOf h p).Nodup

end Shape

/-- A stand-in for package `math`: crude but computable values. -/
def sampleMath : GoMath where
  logPos := fun x => min (max (x - 1) 0) 1024
  sqrtNonneg := fun x => max x 0
  logPos_nonneg := fun x _ => le_min (le_max_right _ _) (by norm_num)
  logPos_le := fun x => min_le_right _ _
  sqrtNonneg_nonneg := fun x _ => le_max_right _ _
  sqrtNonneg_le := fun x hx => by
    show max x 0 ≤ x + 1
    rw [max_eq_left hx]
    linarith

/-- The game of counting down: a state is the number of tokens left, a move
takes one or two of them, the game ends on zero, the players alternate with
the parity of the count, and the result of an ended game is `1`. -/
def countdown : Game Nat Nat where
  GetLegalActions := fun s => if s = 0 then [] else if s = 1 then [1] else [1, 2]
  ApplyTo := fun a s => s - a
  Clone := fun s => s
  RandomizeUnknowns := fun s => s
  IsGameEnded := fun s => s == 0
  EvaluateGame := fun s => (F64.fin 1, s == 0)
  NextToMove := fun s => if s % 2 = 0 then 1 else -1

/-- A game of two states with one legal move per turn: from the state
`false` the only move, `7`, leads to the state `true`, where the game has ended
with result `1`. -/
def twoState : Game Bool Nat where
  GetLegalActions := fun _ => [7]
  ApplyTo := fun _ _ => true
  Clone := fun s => s
  RandomizeUnknowns := fun s => s
  IsGameEnded := fun s => s
  EvaluateGame := fun s => (F64.fin 1, s)
  NextToMove := fun s => if s then -1 else 1

/-- A tree of the countdown game from three tokens: the root, its two
children, and a child of the first child. -/
def sampleTree : Heap Nat Nat :=
  [ { parent := none, children := [1, 2], value := 3, untriedActions := [],
      causingAction := none, q := F64.fin 0, n := 3 },
    { parent := some 0, children := [3], value := 2, untriedActions := [2],
      causingAction := some 1, q := F64.fin (-2), n := 2 },
    { parent := some 0, children := [], value := 1, untriedActions := [1],
      causingAction := some 2, q := F64.fin (-1), n := 1 },
    { parent := some 1, children := [], value := 1, untriedActions := [1],
      causingAction := some 1, q := F64.fin 1, n := 1 } ]

/-- A tree of the countdown game from two tokens whose only child has
accumulated the outcome `10000000000000000` in one visit. -/
def heavyTree : Heap Nat Nat :=
  [ { parent := none, children := [1], value := 2, untriedActions := [2],
      causingAction := none, q := F64.fin 0, n := 1 },
    { parent := some 0, children := [], value := 1, untriedActions := [1],
      causingAction := some 1, q := F64.fin 10000000000000000, n := 1 } ]

/-- A tree no run without concurrency builds: the child has been visited
and the root has not.  The function reads such a tree when it selects while a
goroutine is between the increment of the child and that of the root. -/
def racedTree : Heap Nat Nat :=
  [ { parent := none, children := [1], value := 3, untriedActions := [2],
      causingAction := none, q := F64.fin 0, n := 0 },
    { parent := some 0, children := [], value := 2, untriedActions := [1, 2],
      causingAction := some 1, q := F64.fin (-1), n := 1 } ]

/-- The root of `tieTree`. -/
def tieRoot : Node Nat Nat :=
  { parent := none, children := [1, 2], value := 3, untriedActions := [],
    causingAction := none, q := F64.fin 0, n := 4 }

/-- A tree whose root has two children: the first has `q = 1` after three
visits, the second has as `q`, after one visit, the `float64` nearest to `1/3`,
which is less than `1/3`. -/
def tieTree : Heap Nat Nat :=
  [ tieRoot,
    { parent := some 0, children := [], value := 2, untriedActions := [1, 2],
      causingAction := some 1, q := F64.fin 1, n := 3 },
    { parent := some 0, children := [], value := 1, untriedActions := [1],
      causingAction := some 2, q := F64.fin (6004799503160661 / 18014398509481984), n := 1 } ]

/-- A tree of the countdown game from three tokens after four simulations:
the root and its two children, both visited twice, and one grandchild under
each of them. -/
def grownTree : Heap Nat Nat :=
  [ { parent := none, children := [1, 2], value := 3, untriedActions := [],
      causingAction := none, q := F64.fin 0, n := 4 },
    { parent := some 0, children := [3], value := 2, untriedActions := [2],
      causingAction := some 1, q := F64.fin (-2), n := 2 },
    { parent := some 0, children := [4], value := 1, untriedActions := [],
      causingAction := some 2, q := F64.fin (-2), n := 2 },
    { parent := some 1, children := [], value := 1, untriedActions := [1],
      causingAction := some 1, q := F64.fin 1, n := 1 },
    { parent := some 2, children := [], value := 0, untriedActions := [],
      causingAction := some 1, q := F64.fin (-1), n := 1 } ]

/-- A tree of the countdown game from one token in which the child has been
visited and the root has not: the root is not terminal, is fully expanded and
has a child. -/
def stalledTree : Heap Nat Nat :=
  [ { parent := none, children := [1], value := 1, untriedActions := [],
      causingAction := none, q := F64.fin 0, n := 0 },
    { parent := some 0, children := [], value := 0, untriedActions := [],
      causingAction := some 1, q := F64.fin (-1), n := 1 } ]

/-- A run in which the goroutine of each iteration evaluates its rollout,
gets the lock and takes the first pass through the loop of `backpropagate`
before the function goes on: the goroutine is then at the root, which it has
not incremented yet. -/
def preempted : Runtime where
  rolloutFuel := 10
  sched := fun _ => [Event.rollout, Event.lock 0, Event.pass]
  rnd := fun i k => i + k
  rndFinal := 0

/-- A run in which the goroutine of each iteration finishes a
backpropagation of two steps before the function goes on. -/
def completed : Runtime where
  rolloutFuel := 10
  sched := fun _ => [Event.rollout, Event.lock 0, Event.pass, Event.pass]
  rnd := fun i k => i + k
  rndFinal := 0

/-- The state of the search of the game of two states after one iteration
of the run `preempted`: the child has been incremented, the root has not, and
the goroutine holds the lock. -/
def preemptedRun : Search Bool Nat :=
  { h :=
      [ { parent := none, children := [1], value := false, untriedActions := [],
          causingAction := none, q := F64.fin 0, n := 0 },
        { parent := some 0, children := [], value := true, untriedActions := [7],
          causingAction := some 7, q := F64.fin 1, n := 1 } ]
    leaf := some 1
    leaves := [1]
    started := 0
    waiting := []
    running := some (0, F64.fin 1)
    finished := 0 }

end Binary64

/-! ## Basic facts about the heap -/

section Basic

variable {S A : Type}

theorem load_ok_iff {h : Heap S A} {p : Nat} {x : Node S A} :
    load h p = Except.ok x ↔ h[p]? = some x := by
  unfold load
  cases hp : h[p]? <;> simp

theorem load_of_get {h : Heap S A} {p : Nat} {x : Node S A} (hx : h[p]? = some x) :
    load h p = Except.ok x :=
  load_ok_iff.mpr hx

theorem load_none {h : Heap S A} {p : Nat} (hx : h[p]? = none) :
    load h p = Except.error Fault.nilDeref := by
  unfold load
  rw [hx]

theorem store_length (h : Heap S A) (p : Nat) (x : Node S A) :
    (store h p x).length = h.length := by
  simp [store]

theorem store_get_same {h : Heap S A} {p : Nat} (x : Node S A) (hp : p < h.length) :
    (store h p x)[p]? = some x := by
  simp [store, List.getElem?_set, hp]

theorem store_get_other {h : Heap S A} {p i : Nat} (x : Node S A) (hpi : i ≠ p) :
    (store h p x)[i]? = h[i]? := by
  simp [store, List.getElem?_set, Ne.symm hpi]

theorem get_lt {h : Heap S A} {p : Nat} {x : Node S A} (hx : h[p]? = some x) :
    p < h.length :=
  (List.getElem?_eq_some.mp hx).1

theorem get_of_lt {h : Heap S A} {p : Nat} (hp : p < h.length) : ∃ x, h[p]? = some x :=
  ⟨h[p], List.getElem?_eq_getElem hp⟩

end Basic

/-! ## Expansion -/

section Expand

variable {S A : Type}

theorem expand_eq (g : Game S A) {h : Heap S A} {node : Nat} {x : Node S A} {a : A}
    {rest : List A} (hx : h[node]? = some x) (hu : x.untriedActions = a :: rest) :
    expand g h node = Except.ok
      (store h node { x with untriedActions := rest, children := x.children ++ [h.length] }
        ++ [newMCTSNode g (some node) (g.ApplyTo a x.value) (some a)], h.length) := by
  have hlt := get_lt hx
  have h1 : (store h node { x with untriedActions := rest }
      ++ [newMCTSNode g (some node) (g.ApplyTo a x.value) (some a)])[node]?
      = some { x with untriedActions := rest } := by
    rw [List.getElem?_append_left (by rw [store_length]; exact hlt)]
    exact store_get_same _ hlt
  simp only [expand, load_of_get hx, popFirstUntriedAction, hu, bind, Except.bind, pure,
    Except.pure, load_of_get h1, addChild]
  congr 2
  simp [store, List.set_append, hlt]

/-- C6: on a node whose untried actions are `a :: rest`, `expand` returns a
pointer to a new node, allocated at the end of the heap, whose state is
`a.ApplyTo(node.value)`, whose parent is the node, whose causing action is `a`,
whose `q` and `n` are zero, whose children are none and whose untried actions
are the legal actions of its state; the node gets this child as the last of
its children and `rest` as its untried actions, and no other node changes. -/
theorem expand_pops_head_and_appends_child (g : Game S A) (h : Heap S A) (node : Nat)
    (x : Node S A) (a : A) (rest : List A) (hx : h[node]? = some x)
    (hu : x.untriedActions = a :: rest) :
    ∃ h', expand g h node = Except.ok (h', h.length) ∧
      h'.length = h.length + 1 ∧
      h'[h.length]? = some
        { parent := some node
          children := []
          value := g.ApplyTo a x.value
          untriedActions := g.GetLegalActions (g.ApplyTo a x.value)
          causingAction := some a
          q := 0
          n := 0 } ∧
      h'[node]? = some { x with untriedActions := rest, children := x.children ++ [h.length] } ∧
      ∀ i, i ≠ node → i < h.length → h'[i]? = h[i]? := by
  have hlt := get_lt hx
  refine ⟨_, expand_eq g hx hu, ?_, ?_, ?_, ?_⟩
  · simp [store_length]
  · rw [List.getElem?_append_right (by rw [store_length])]
    simp [store_length, newMCTSNode]
  · rw [List.getElem?_append_left (by rw [store_length]; exact hlt)]
    exact store_get_same _ hlt
  · intro i hi hil
    rw [List.getElem?_append_left (by rw [store_length]; exact hil)]
    exact store_get_other _ hi

/-- C6 at the root of the countdown game from three tokens. -/
theorem expand_pops_head_and_appends_child_witness :
    ([newMCTSNode countdown none 3 none] : Heap Nat Nat)[0]? = some (newMCTSNode countdown none 3 none) ∧
    (newMCTSNode countdown none 3 none).untriedActions = 1 :: [2] ∧
    ∃ h', expand countdown [newMCTSNode countdown none 3 none] 0 = Except.ok (h', 1) ∧
      h'.length = 2 ∧
      h'[1]? = some
        { parent := some 0
          children := []
          value := 2
          untriedActions := [1, 2]
          causingAction := some 1
          q := 0
          n := 0 } ∧
      h'[0]? = some { newMCTSNode countdown none 3 none with
        untriedActions := [2], children := [1] } ∧
      ∀ i, i ≠ 0 → i < 1 → h'[i]? = ([newMCTSNode countdown none 3 none] : Heap Nat Nat)[i]? :=
  ⟨rfl, rfl, expand_pops_head_and_appends_child countdown [newMCTSNode countdown none 3 none] 0
    (newMCTSNode countdown none 3 none) 1 [2] rfl rfl⟩

end Expand

/-! ## Expansion keeps the tree in shape -/

section ExpandShape

variable {S A : Type}

theorem expand_expanded (g : Game S A) {h : Heap S A} {node : Nat} {x : Node S A} {a : A}
    {rest : List A} (hx : h[node]? = some x) (hu : x.untriedActions = a :: rest) :
    ∃ h', expand g h node = Except.ok (h', h.length) ∧ Expanded g h node x a rest h' := by
  have hlt := get_lt hx
  refine ⟨_, expand_eq g hx hu, hlt, ?_, ?_, ?_, ?_⟩
  · simp [store_length]
  · rw [List.getElem?_append_right (by rw [store_length])]
    simp [store_length]
  · rw [List.getElem?_append_left (by rw [store_length]; exact hlt)]
    exact store_get_same _ hlt
  · intro i hi hil
    rw [List.getElem?_append_left (by rw [store_length]; exact hil)]
    exact store_get_other _ hi

theorem expand_ok_inv (g : Game S A) {h h' : Heap S A} {node child : Nat}
    (he : expand g h node = Except.ok (h', child)) :
    ∃ x a rest, h[node]? = some x ∧ x.untriedActions = a :: rest ∧ child = h.length ∧
      Expanded g h node x a rest h' := by
  cases hx : h[node]? with
  | none => simp [expand, load_none hx, bind, Except.bind] at he
  | some x =>
    cases hu : x.untriedActions with
    | nil => simp [expand, load_of_get hx, popFirstUntriedAction, hu, bind, Except.bind] at he
    | cons a rest =>
      obtain ⟨h'', he', hex⟩ := expand_expanded g hx hu
      rw [he] at he'
      cases he'
      exact ⟨x, a, rest, rfl, hu, rfl, hex⟩

theorem get_none_of_le {h : Heap S A} {i : Nat} (hi : h.length ≤ i) : h[i]? = none :=
  List.getElem?_eq_none hi

theorem Expanded.get_old {g : Game S A} {h h' : Heap S A} {node : Nat} {x : Node S A} {a : A}
    {rest : List A} (he : Expanded g h node x a rest h') (hx : h[node]? = some x) {i : Nat}
    {y : Node S A} (hy : h[i]? = some y) :
    ∃ y', h'[i]? = some y' ∧ y'.parent = y.parent ∧ y'.value = y.value ∧
      y'.causingAction = y.causingAction ∧ y'.q = y.q ∧ y'.n = y.n ∧
      (i ≠ node → y' = y) ∧
      (i = node → y'.children = y.children ++ [h.length] ∧ y'.untriedActions = rest) := by
  by_cases hi : i = node
  · subst hi
    rw [hx] at hy
    cases hy
    exact ⟨_, he.node_eq, rfl, rfl, rfl, rfl, rfl, fun hne => absurd rfl hne, fun _ => ⟨rfl, rfl⟩⟩
  · refine ⟨y, ?_, rfl, rfl, rfl, rfl, rfl, fun _ => rfl, fun heq => absurd heq hi⟩
    rw [he.other i hi (get_lt hy), hy]

theorem Expanded.cases {g : Game S A} {h h' : Heap S A} {node : Nat} {x : Node S A} {a : A}
    {rest : List A} (he : Expanded g h node x a rest h') {i : Nat} {y' : Node S A}
    (hy' : h'[i]? = some y') :
    (i = h.length ∧ y' = newMCTSNode g (some node) (g.ApplyTo a x.value) (some a)) ∨
    (i = node ∧ y' = { x with untriedActions := rest, children := x.children ++ [h.length] }) ∨
    (i ≠ node ∧ i < h.length ∧ h[i]? = some y') := by
  have hlt : i < h.length + 1 := by rw [← he.length_eq]; exact get_lt hy'
  by_cases hL : i = h.length
  · left
    subst hL
    rw [he.child] at hy'
    cases hy'
    exact ⟨rfl, rfl⟩
  · right
    by_cases hi : i = node
    · left
      subst hi
      rw [he.node_eq] at hy'
      cases hy'
      exact ⟨rfl, rfl⟩
    · right
      have hil : i < h.length := by omega
      refine ⟨hi, hil, ?_⟩
      rw [← he.other i hi hil]
      exact hy'

theorem Expanded.parentOf_expanded {g : Game S A} {h h' : Heap S A} {node : Nat} {x : Node S A}
    {a : A} {rest : List A} (he : Expanded g h node x a rest h') (hx : h[node]? = some x)
    (i : Nat) : parentOf h' i = if i = h.length then some node else parentOf h i := by
  by_cases hL : i = h.length
  · subst hL
    simp [parentOf, he.child, newMCTSNode]
  · rw [if_neg hL]
    by_cases hi : i = node
    · subst hi
      simp [parentOf, he.node_eq, hx]
    · by_cases hil : i < h.length
      · simp [parentOf, he.other i hi hil]
      · have h1 : h'[i]? = none := get_none_of_le (by rw [he.length_eq]; omega)
        have h2 : h[i]? = none := get_none_of_le (by omega)
        simp [parentOf, h1, h2]

theorem Expanded.childrenOf_expanded {g : Game S A} {h h' : Heap S A} {node : Nat} {x : Node S A}
    {a : A} {rest : List A} (he : Expanded g h node x a rest h') (hx : h[node]? = some x)
    (i : Nat) :
    childrenOf h' i = if i = node then childrenOf h i ++ [h.length] else childrenOf h i := by
  have hnode := he.node_lt
  by_cases hi : i = node
  · subst hi
    simp [childrenOf, he.node_eq, hx]
  · rw [if_neg hi]
    by_cases hL : i = h.length
    · subst hL
      have h2 : h[h.length]? = none := get_none_of_le (Nat.le_refl _)
      simp [childrenOf, he.child, newMCTSNode, h2]
    · by_cases hil : i < h.length
      · simp [childrenOf, he.other i hi hil]
      · have h1 : h'[i]? = none := get_none_of_le (by rw [he.length_eq]; omega)
        have h2 : h[i]? = none := get_none_of_le (by omega)
        simp [childrenOf, h1, h2]

theorem parentOf_lt_length {h : Heap S A} {i p : Nat} (hp : parentOf h i = some p) :
    i < h.length := by
  cases hi : h[i]? with
  | none => simp [parentOf, hi] at hp
  | some x => exact get_lt hi

theorem WellFormed.child_lt {h : Heap S A} (hw : WellFormed h) {p c : Nat}
    (hc : c ∈ childrenOf h p) : c < h.length :=
  parentOf_lt_length (hw.child_parent p c hc)

theorem childrenOf_eq {h : Heap S A} {i : Nat} {x : Node S A} (hx : h[i]? = some x) :
    childrenOf h i = x.children := by
  simp [childrenOf, hx]

theorem Expanded.keeps_wellFormed {g : Game S A} {h h' : Heap S A} {node : Nat} {x : Node S A}
    {a : A} {rest : List A} (he : Expanded g h node x a rest h') (hx : h[node]? = some x)
    (hw : WellFormed h) : WellFormed h' := by
  have hnode := he.node_lt
  have hpar := he.parentOf_expanded hx
  have hch := he.childrenOf_expanded hx
  refine ⟨⟨by rw [he.length_eq]; omega, ?_⟩, ?_, ?_, ?_, ?_, ?_⟩
  · rw [hpar, if_neg (by omega)]
    exact hw.root.2
  · intro i p hp
    rw [hpar] at hp
    by_cases hL : i = h.length
    · rw [if_pos hL] at hp
      cases hp
      omega
    · rw [if_neg hL] at hp
      exact hw.parents_below i p hp
  · intro i hi hp
    rw [hpar] at hp
    by_cases hL : i = h.length
    · rw [if_pos hL] at hp
      cases hp
    · rw [if_neg hL] at hp
      rw [he.length_eq] at hi
      exact hw.only_root i (by omega) hp
  · intro i p hp
    rw [hpar] at hp
    rw [hch]
    by_cases hL : i = h.length
    · rw [if_pos hL] at hp
      cases hp
      rw [if_pos rfl, hL]
      simp
    · rw [if_neg hL] at hp
      have hmem := hw.parent_child i p hp
      by_cases hpn : p = node
      · rw [if_pos hpn]
        exact List.mem_append_left _ hmem
      · rw [if_neg hpn]
        exact hmem
  · intro p c hc
    rw [hch] at hc
    rw [hpar]
    by_cases hpn : p = node
    · rw [if_pos hpn] at hc
      rcases List.mem_append.mp hc with hc | hc
      · have hlt := hw.child_lt hc
        rw [if_neg (by omega)]
        exact hw.child_parent p c hc
      · simp only [List.mem_singleton] at hc
        rw [if_pos hc, hpn]
    · rw [if_neg hpn] at hc
      have hlt := hw.child_lt hc
      rw [if_neg (by omega)]
      exact hw.child_parent p c hc
  · intro p
    rw [hch]
    by_cases hpn : p = node
    · rw [if_pos hpn]
      refine List.Nodup.append (hw.children_nodup p) (List.nodup_singleton _) ?_
      intro c hc hc'
      simp only [List.mem_singleton] at hc'
      have hlt := hw.child_lt hc
      omega
    · rw [if_neg hpn]
      exact hw.children_nodup p

theorem Expanded.causingOf_old {g : Game S A} {h h' : Heap S A} {node : Nat} {x : Node S A}
    {a : A} {rest : List A} (he : Expanded g h node x a rest h') (hx : h[node]? = some x)
    {c : Nat} (hc : c < h.length) : causingOf h' c = causingOf h c := by
  obtain ⟨y, hy⟩ := get_of_lt hc
  obtain ⟨y', hy', _, _, hca, _⟩ := he.get_old hx hy
  simp [causingOf, hy, hy', hca]

theorem Expanded.visitsOf_old {g : Game S A} {h h' : Heap S A} {node : Nat} {x : Node S A}
    {a : A} {rest : List A} (he : Expanded g h node x a rest h') (hx : h[node]? = some x)
    {c : Nat} (hc : c < h.length) : visitsOf h' c = visitsOf h c := by
  obtain ⟨y, hy⟩ := get_of_lt hc
  obtain ⟨y', hy', _, _, _, _, hn, _⟩ := he.get_old hx hy
  simp [visitsOf, hy, hy', hn]

theorem Expanded.keeps_partitioned {g : Game S A} {h h' : Heap S A} {node : Nat} {x : Node S A}
    {a : A} {rest : List A} (he : Expanded g h node x a rest h') (hx : h[node]? = some x)
    (hu : x.untriedActions = a :: rest) (hw : WellFormed h) (hp : Partitioned g h) :
    Partitioned g h' := by
  intro i y' hy'
  have hold : ∀ (j : Nat) (y : Node S A), h[j]? = some y →
      y.children.map (causingOf h') = y.children.map (causingOf h) := by
    intro j y hy
    apply List.map_congr_left
    intro c hc
    exact he.causingOf_old hx (hw.child_lt (by rw [Gomcts.childrenOf_eq hy]; exact hc))
  rcases he.cases hy' with ⟨_, rfl⟩ | ⟨_, rfl⟩ | ⟨_, _, hy⟩
  · simp [newMCTSNode]
  · have hpx := hp node x hx
    rw [hu] at hpx
    have hnew : causingOf h' h.length = some a := by
      simp [causingOf, he.child, newMCTSNode]
    simp only [List.map_append, List.map_cons, List.map_nil, hold node x hx, hnew]
    rw [← hpx]
    simp
  · rw [hold i y' hy]
    exact hp i y' hy

theorem Expanded.keeps_conserved {g : Game S A} {h h' : Heap S A} {node : Nat} {x : Node S A}
    {a : A} {rest : List A} (he : Expanded g h node x a rest h') (hx : h[node]? = some x)
    (hw : WellFormed h) {ends : List Nat} (hends : ∀ e ∈ ends, e < h.length)
    (hc : Conserved h ends) : Conserved h' ends := by
  intro i y' hy'
  have hold : ∀ (j : Nat) (y : Node S A), h[j]? = some y →
      y.children.map (visitsOf h') = y.children.map (visitsOf h) := by
    intro j y hy
    apply List.map_congr_left
    intro c hc
    exact he.visitsOf_old hx (hw.child_lt (by rw [Gomcts.childrenOf_eq hy]; exact hc))
  rcases he.cases hy' with ⟨rfl, rfl⟩ | ⟨rfl, rfl⟩ | ⟨_, _, hy⟩
  · have hcount : ends.count h.length = 0 := by
      apply List.count_eq_zero_of_not_mem
      intro hmem
      exact absurd (hends _ hmem) (Nat.lt_irrefl _)
    simp [newMCTSNode, hcount]
  · have hnew : visitsOf h' h.length = 0 := by
      simp [visitsOf, he.child, newMCTSNode]
    simp only [List.map_append, List.map_cons, List.map_nil, hold i x hx, hnew, List.sum_append,
      List.sum_cons, List.sum_nil, Nat.add_zero]
    exact hc i x hx
  · rw [hold i y' hy]
    exact hc i y' hy

end ExpandShape

/-! ## Heaps that hold the same tree -/

section Same

variable {S A : Type}

theorem SameTree.refl (h : Heap S A) : SameTree h h :=
  ⟨rfl, fun _ x hx => ⟨x, hx, rfl, rfl, rfl, rfl, rfl⟩⟩

theorem SameTree.trans {h1 h2 h3 : Heap S A} (h12 : SameTree h1 h2) (h23 : SameTree h2 h3) :
    SameTree h1 h3 := by
  refine ⟨by rw [h23.1, h12.1], ?_⟩
  intro i x hx
  obtain ⟨y, hy, e1, e2, e3, e4, e5⟩ := h12.2 i x hx
  obtain ⟨z, hz, f1, f2, f3, f4, f5⟩ := h23.2 i y hy
  exact ⟨z, hz, by rw [f1, e1], by rw [f2, e2], by rw [f3, e3], by rw [f4, e4], by rw [f5, e5]⟩

theorem SameTree.back {h h' : Heap S A} (hs : SameTree h h') {i : Nat} {y : Node S A}
    (hy : h'[i]? = some y) : ∃ x, h[i]? = some x ∧ y.parent = x.parent ∧
      y.children = x.children ∧ y.value = x.value ∧ y.untriedActions = x.untriedActions ∧
      y.causingAction = x.causingAction := by
  have hlt : i < h.length := by rw [← hs.1]; exact get_lt hy
  obtain ⟨x, hx⟩ := get_of_lt hlt
  obtain ⟨y', hy', hrest⟩ := hs.2 i x hx
  rw [hy] at hy'
  cases hy'
  exact ⟨x, hx, hrest⟩

theorem SameTree.parentOf_same {h h' : Heap S A} (hs : SameTree h h') :
    parentOf h' = parentOf h := by
  funext i
  by_cases hi : i < h.length
  · obtain ⟨x, hx⟩ := get_of_lt hi
    obtain ⟨y, hy, hp, _⟩ := hs.2 i x hx
    simp [parentOf, hx, hy, hp]
  · have h1 : h[i]? = none := get_none_of_le (by omega)
    have h2 : h'[i]? = none := get_none_of_le (by rw [hs.1]; omega)
    simp [parentOf, h1, h2]

theorem SameTree.childrenOf_same {h h' : Heap S A} (hs : SameTree h h') :
    childrenOf h' = childrenOf h := by
  funext i
  by_cases hi : i < h.length
  · obtain ⟨x, hx⟩ := get_of_lt hi
    obtain ⟨y, hy, _, hc, _⟩ := hs.2 i x hx
    simp [childrenOf, hx, hy, hc]
  · have h1 : h[i]? = none := get_none_of_le (by omega)
    have h2 : h'[i]? = none := get_none_of_le (by rw [hs.1]; omega)
    simp [childrenOf, h1, h2]

theorem SameTree.causingOf_same {h h' : Heap S A} (hs : SameTree h h') :
    causingOf h' = causingOf h := by
  funext i
  by_cases hi : i < h.length
  · obtain ⟨x, hx⟩ := get_of_lt hi
    obtain ⟨y, hy, _, _, _, _, hc⟩ := hs.2 i x hx
    simp [causingOf, hx, hy, hc]
  · have h1 : h[i]? = none := get_none_of_le (by omega)
    have h2 : h'[i]? = none := get_none_of_le (by rw [hs.1]; omega)
    simp [causingOf, h1, h2]

theorem SameTree.wellFormed_same {h h' : Heap S A} (hs : SameTree h h') (hw : WellFormed h) :
    WellFormed h' := by
  obtain ⟨h1, h2, h3, h4, h5, h6⟩ := hw
  refine ⟨?_, ?_, ?_, ?_, ?_, ?_⟩
  · rw [hs.parentOf_same, hs.1]; exact h1
  · unfold ParentsBelow; rw [hs.parentOf_same]; exact h2
  · rw [hs.parentOf_same, hs.1]; exact h3
  · rw [hs.parentOf_same, hs.childrenOf_same]; exact h4
  · rw [hs.parentOf_same, hs.childrenOf_same]; exact h5
  · rw [hs.childrenOf_same]; exact h6

theorem SameTree.partitioned_same {g : Game S A} {h h' : Heap S A} (hs : SameTree h h')
    (hp : Partitioned g h) : Partitioned g h' := by
  intro i y hy
  obtain ⟨x, hx, _, e2, e3, e4, _⟩ := hs.back hy
  rw [hs.causingOf_same, e2, e3, e4]
  exact hp i x hx

end Same

/-! ## Rollout -/

section Rollout

variable {S A : Type}

theorem rolloutLoop_first_ended (g : Game S A) (policy : S → A) :
    ∀ (k fuel : Nat) (s : S), k < fuel →
      g.IsGameEnded ((fun t => g.ApplyTo (policy t) t)^[k] s) = true →
      (∀ j, j < k → g.IsGameEnded ((fun t => g.ApplyTo (policy t) t)^[j] s) = false) →
      rolloutLoop g policy fuel s
        = some (g.EvaluateGame ((fun t => g.ApplyTo (policy t) t)^[k] s)).1 := by
  intro k
  induction k with
  | zero =>
    intro fuel s hk hend _
    obtain ⟨f, rfl⟩ : ∃ f, fuel = f + 1 := ⟨fuel - 1, by omega⟩
    simp only [Function.iterate_zero, id_eq] at hend
    simp [rolloutLoop, hend]
  | succ k ih =>
    intro fuel s hk hend hfirst
    obtain ⟨f, rfl⟩ : ∃ f, fuel = f + 1 := ⟨fuel - 1, by omega⟩
    have h0 : g.IsGameEnded s = false := by simpa using hfirst 0 (by omega)
    simp only [Function.iterate_succ, Function.comp_apply] at hend
    have hstep := ih f (g.ApplyTo (policy s) s) (by omega) hend (by
      intro j hj
      have hj1 := hfirst (j + 1) (by omega)
      simpa only [Function.iterate_succ, Function.comp_apply] using hj1)
    simp only [rolloutLoop, h0, Function.iterate_succ, Function.comp_apply]
    simpa using hstep

theorem rolloutLoop_policy_congr (g : Game S A) (policy policy' : S → A)
    (hagree : ∀ s, g.IsGameEnded s = false → policy' s = policy s) :
    ∀ (fuel : Nat) (s : S), rolloutLoop g policy' fuel s = rolloutLoop g policy fuel s := by
  intro fuel
  induction fuel with
  | zero => intro s; rfl
  | succ f ih =>
    intro s
    cases hs : g.IsGameEnded s with
    | true => simp [rolloutLoop, hs]
    | false => simp [rolloutLoop, hs, hagree s hs, ih]

/-- C10: when the play from `RandomizeUnknowns(Clone(node.value))` under the
policy first reaches an ended state after `k` moves, `rollout` (given more than
`k` turns) returns the result `EvaluateGame` gives that state; and the value is
the same for every policy that agrees with this one on the states that are not
ended, so what a policy would answer on an ended state is never asked for.
The rollout takes the node and returns a number: nothing of the tree is
written. -/
theorem rollout_returns_first_ended_state (g : Game S A) (policy : S → A) (x : Node S A)
    (k fuel : Nat) (hend : g.IsGameEnded (playSequence g policy x k) = true)
    (hfirst : ∀ j, j < k → g.IsGameEnded (playSequence g policy x j) = false)
    (hfuel : k < fuel) :
    rollout g policy fuel x = some (g.EvaluateGame (playSequence g policy x k)).1 ∧
    ∀ policy' : S → A, (∀ s, g.IsGameEnded s = false → policy' s = policy s) →
      rollout g policy' fuel x = rollout g policy fuel x :=
  ⟨rolloutLoop_first_ended g policy k fuel _ hfuel hend hfirst,
    fun policy' hagree => rolloutLoop_policy_congr g policy policy' hagree fuel _⟩

/-- C10 on the countdown game from three tokens: the play ends after three
moves. -/
theorem rollout_returns_first_ended_state_witness :
    countdown.IsGameEnded (playSequence countdown takeOne (newMCTSNode countdown none 3 none) 3)
      = true ∧
    (∀ j, j < 3 → countdown.IsGameEnded
      (playSequence countdown takeOne (newMCTSNode countdown none 3 none) j) = false) ∧
    rollout countdown takeOne 4 (newMCTSNode countdown none 3 none) = some 1 ∧
    ∀ policy' : Nat → Nat, (∀ s, countdown.IsGameEnded s = false → policy' s = takeOne s) →
      rollout countdown policy' 4 (newMCTSNode countdown none 3 none)
        = rollout countdown takeOne 4 (newMCTSNode countdown none 3 none) :=
  ⟨by decide, by decide,
    rollout_returns_first_ended_state countdown takeOne (newMCTSNode countdown none 3 none) 3 4
      (by decide) (by decide) (by decide)⟩

end Rollout

/-! ## Backpropagation -/

section Backpropagate

variable {S A : Type}

theorem parentOf_eq {h : Heap S A} {i : Nat} {x : Node S A} (hx : h[i]? = some x) :
    parentOf h i = x.parent := by
  simp [parentOf, hx]

theorem parentOf_store {h : Heap S A} {node : Nat} {x y : Node S A} (hx : h[node]? = some x)
    (hp : y.parent = x.parent) : parentOf (store h node y) = parentOf h := by
  funext i
  by_cases hi : i = node
  · subst hi
    rw [parentOf_eq (store_get_same y (get_lt hx)), parentOf_eq hx, hp]
  · simp [parentOf, store_get_other y hi]

theorem OnPath.le {par : Nat → Option Nat} (hpar : ∀ i p, par i = some p → p < i)
    {a node : Nat} (hp : OnPath par a node) : a ≤ node := by
  induction hp with
  | self => exact Nat.le_refl _
  | up hn _ ih => exact Nat.le_trans ih (Nat.le_of_lt (hpar _ _ hn))

theorem OnPath.of_root {par : Nat → Option Nat} {a node : Nat} (hp : OnPath par a node)
    (hroot : par node = none) : a = node := by
  cases hp with
  | self => rfl
  | up hn _ => rw [hroot] at hn; cases hn

theorem OnPath.step_iff {par : Nat → Option Nat} {a node p : Nat} (hn : par node = some p)
    (hne : a ≠ node) : OnPath par a node ↔ OnPath par a p := by
  constructor
  · intro hp
    cases hp with
    | self => exact absurd rfl hne
    | up hn' hp' =>
      rw [hn] at hn'
      cases hn'
      exact hp'
  · exact OnPath.up hn

theorem backpropagateLoop_spec (g : Game S A) (result : ℚ) :
    ∀ (fuel : Nat) (h : Heap S A) (node : Nat), ParentsBelow h → node < h.length →
      node < fuel →
      ∃ h', backpropagateLoop g result fuel h node = Except.ok h' ∧ h'.length = h.length ∧
        ∀ i x, h[i]? = some x →
          (OnPath (parentOf h) i node →
            (x.parent = none → h'[i]? = some { x with n := x.n + 1 }) ∧
            (∀ p px, x.parent = some p → h[p]? = some px →
              h'[i]? = some { x with q := x.q + result * (g.NextToMove px.value : ℚ),
                                     n := x.n + 1 })) ∧
          (¬ OnPath (parentOf h) i node → h'[i]? = some x) := by
  intro fuel
  induction fuel with
  | zero => intro h node _ _ hf; omega
  | succ f ih =>
    intro h node hpb hnode hfuel
    obtain ⟨x, hx⟩ := get_of_lt hnode
    cases hpar : x.parent with
    | none =>
      refine ⟨store h node { x with n := x.n + 1 }, ?_, store_length _ _ _, ?_⟩
      · simp [backpropagateLoop, load_of_get hx, isRoot, hpar, bind, Except.bind, pure,
          Except.pure]
      · intro i y hy
        have hroot : parentOf h node = none := by rw [parentOf_eq hx, hpar]
        by_cases hi : i = node
        · subst hi
          rw [hx] at hy
          cases hy
          refine ⟨fun _ => ⟨fun _ => store_get_same _ hnode, ?_⟩, fun hno => ?_⟩
          · intro p px hp _
            rw [hpar] at hp
            cases hp
          · exact absurd (OnPath.self _) hno
        · refine ⟨fun hon => absurd (hon.of_root hroot) hi, fun _ => ?_⟩
          rw [store_get_other _ hi, hy]
    | some p =>
      have hpn : parentOf h node = some p := by rw [parentOf_eq hx, hpar]
      have hplt : p < node := hpb node p hpn
      obtain ⟨px, hpx⟩ := get_of_lt (Nat.lt_trans hplt hnode)
      have hloop : backpropagateLoop g result (f + 1) h node = backpropagateLoop g result f
          (store h node { x with q := x.q + result * (g.NextToMove px.value : ℚ), n := x.n + 1 })
          p := by
        simp [backpropagateLoop, load_of_get hx, isRoot, hpar, load_of_get hpx, bind,
          Except.bind]
      obtain ⟨x', hx'⟩ : ∃ x' : Node S A,
          x' = { x with q := x.q + result * (g.NextToMove px.value : ℚ), n := x.n + 1 } :=
        ⟨_, rfl⟩
      rw [← hx'] at hloop
      have hx'par : x'.parent = x.parent := by rw [hx']
      have hx'val : x'.value = x.value := by rw [hx']
      have hshape : parentOf (store h node x') = parentOf h := parentOf_store hx hx'par
      obtain ⟨h', hrun, hlen, hspec⟩ := ih (store h node x') p
        (by intro i q hq; rw [hshape] at hq; exact hpb i q hq)
        (by rw [store_length]; exact Nat.lt_trans hplt hnode) (by omega)
      rw [hshape] at hspec
      refine ⟨h', by rw [hloop]; exact hrun, by rw [hlen, store_length], ?_⟩
      intro i y hy
      by_cases hi : i = node
      · subst hi
        rw [hx] at hy
        cases hy
        have hoff : ¬ OnPath (parentOf h) i p := fun hon =>
          absurd (hon.le hpb) (by omega)
        have hkeep := (hspec i _ (store_get_same x' hnode)).2 hoff
        refine ⟨fun _ => ⟨fun hnone => ?_, ?_⟩, fun hno => absurd (OnPath.self _) hno⟩
        · rw [hpar] at hnone
          cases hnone
        · intro p' px' hp' hpx'
          rw [hpar] at hp'
          cases hp'
          rw [hpx] at hpx'
          cases hpx'
          rw [hkeep, hx']
      · have hy1 := hy
        rw [← store_get_other x' hi] at hy1
        obtain ⟨hon, hoff⟩ := hspec i y hy1
        rw [OnPath.step_iff hpn hi]
        refine ⟨fun hp => ⟨(hon hp).1, ?_⟩, hoff⟩
        intro p' px' hp' hpx'
        by_cases hpnode : p' = node
        · subst hpnode
          rw [hx] at hpx'
          cases hpx'
          have hthis := (hon hp).2 p' x' hp' (store_get_same x' hnode)
          rw [hx'val] at hthis
          exact hthis
        · exact (hon hp).2 p' px' hp' (by rw [store_get_other x' hpnode]; exact hpx')

theorem sampleTree_parentsBelow : ParentsBelow sampleTree := by
  intro i p hp
  rcases i with _ | _ | _ | _ | i <;> simp [parentOf, sampleTree] at hp <;> omega

end Backpropagate

/-! ## Backpropagation keeps the tree, the tree policy expands at most once -/

section Steps

variable {S A : Type}

theorem backpropagate_cases (g : Game S A) {h h' : Heap S A} {node : Nat} {result : ℚ}
    (hpb : ParentsBelow h) (hnode : node < h.length)
    (hb : backpropagate g h node result = Except.ok h') :
    h'.length = h.length ∧
    ∀ (i : Nat) (x : Node S A), h[i]? = some x → ∃ y, h'[i]? = some y ∧ y.parent = x.parent ∧
      y.children = x.children ∧ y.value = x.value ∧ y.untriedActions = x.untriedActions ∧
      y.causingAction = x.causingAction ∧
      ((OnPath (parentOf h) i node ∧ y.n = x.n + 1 ∧ (x.parent = none → y.q = x.q) ∧
          (∀ p px, x.parent = some p → h[p]? = some px →
            y.q = x.q + result * (g.NextToMove px.value : ℚ))) ∨
        (¬ OnPath (parentOf h) i node ∧ y = x)) := by
  obtain ⟨h'', hrun, hlen, hspec⟩ := backpropagateLoop_spec g result h.length h node hpb hnode hnode
  unfold backpropagate at hb
  rw [hb] at hrun
  cases hrun
  refine ⟨hlen, ?_⟩
  intro i x hx
  obtain ⟨hon, hoff⟩ := hspec i x hx
  by_cases hp : OnPath (parentOf h) i node
  · obtain ⟨hroot, hinner⟩ := hon hp
    cases hpar : x.parent with
    | none =>
      refine ⟨_, hroot hpar, hpar.symm ▸ rfl, rfl, rfl, rfl, rfl, Or.inl ⟨hp, rfl, fun _ => rfl, ?_⟩⟩
      intro p px hp' _
      cases hp'
    | some p =>
      have hplt : p < i := hpb i p (by rw [Gomcts.parentOf_eq hx, hpar])
      obtain ⟨px, hpx⟩ := get_of_lt (Nat.lt_trans hplt (get_lt hx))
      refine ⟨_, hinner p px hpar hpx, hpar.symm ▸ rfl, rfl, rfl, rfl, rfl,
        Or.inl ⟨hp, rfl, fun hnone => (by cases hnone), ?_⟩⟩
      intro p' px' hp' hpx'
      cases hp'
      rw [hpx] at hpx'
      cases hpx'
      rfl
  · exact ⟨x, hoff hp, rfl, rfl, rfl, rfl, rfl, Or.inr ⟨hp, rfl⟩⟩

theorem backpropagate_ok (g : Game S A) {h : Heap S A} {node : Nat} (result : ℚ)
    (hpb : ParentsBelow h) (hnode : node < h.length) :
    ∃ h', backpropagate g h node result = Except.ok h' := by
  obtain ⟨h', hrun, _⟩ := backpropagateLoop_spec g result h.length h node hpb hnode hnode
  exact ⟨h', hrun⟩

theorem backpropagate_sameTree (g : Game S A) {h h' : Heap S A} {node : Nat} {result : ℚ}
    (hpb : ParentsBelow h) (hnode : node < h.length)
    (hb : backpropagate g h node result = Except.ok h') : SameTree h h' := by
  obtain ⟨hlen, hall⟩ := backpropagate_cases g hpb hnode hb
  refine ⟨hlen, ?_⟩
  intro i x hx
  obtain ⟨y, hy, e1, e2, e3, e4, e5, _⟩ := hall i x hx
  exact ⟨y, hy, e1, e2, e3, e4, e5⟩

theorem treePolicyLoop_result (g : Game S A) (m : GoMath) :
    ∀ (fuel : Nat) (rnd : Nat → Nat) (h : Heap S A) (node : Nat) (h' : Heap S A) (leaf : Nat),
      treePolicyLoop g m fuel rnd h node = Except.ok (h', leaf) →
      (h' = h ∧ ∃ y, h[leaf]? = some y ∧ isTerminal g y = true) ∨
      (∃ node' y, h[node']? = some y ∧ isTerminal g y = false ∧
        expand g h node' = Except.ok (h', leaf)) := by
  intro fuel
  induction fuel with
  | zero => intro rnd h node h' leaf ht; simp [treePolicyLoop] at ht
  | succ f ih =>
    intro rnd h node h' leaf ht
    cases hx : h[node]? with
    | none => simp [treePolicyLoop, load_none hx, bind, Except.bind] at ht
    | some x =>
      cases hterm : isTerminal g x with
      | true =>
        simp [treePolicyLoop, load_of_get hx, hterm, bind, Except.bind, pure, Except.pure] at ht
        obtain ⟨rfl, rfl⟩ := ht
        exact Or.inl ⟨rfl, x, hx, hterm⟩
      | false =>
        cases hfull : isFullyExpanded x with
        | false =>
          simp [treePolicyLoop, load_of_get hx, hterm, hfull, bind, Except.bind] at ht
          exact Or.inr ⟨node, x, hx, hterm, ht⟩
        | true =>
          cases hbest : uctBestChild m h node (14 / 10) (rnd 0) with
          | error e =>
            simp [treePolicyLoop, load_of_get hx, hterm, hfull, hbest, bind, Except.bind] at ht
          | ok next =>
            simp only [treePolicyLoop, load_of_get hx, hterm, hfull, hbest, bind, Except.bind]
              at ht
            exact ih _ h next h' leaf (by simpa using ht)

theorem wellFormed_root (g : Game S A) (state : S) :
    WellFormed ([newMCTSNode g none state none] : Heap S A) := by
  have hnone : ∀ i, parentOf ([newMCTSNode g none state none] : Heap S A) i = none := by
    intro i
    rcases i with _ | i <;> simp [parentOf, newMCTSNode]
  have hch : ∀ i, childrenOf ([newMCTSNode g none state none] : Heap S A) i = [] := by
    intro i
    rcases i with _ | i <;> simp [childrenOf, newMCTSNode]
  refine ⟨⟨by simp, hnone 0⟩, ?_, ?_, ?_, ?_, ?_⟩
  · intro i p hp
    rw [hnone] at hp
    cases hp
  · intro i hi _
    simpa using hi
  · intro i p hp
    rw [hnone] at hp
    cases hp
  · intro p c hc
    rw [hch] at hc
    cases hc
  · intro p
    rw [hch]
    exact List.nodup_nil

theorem partitioned_root (g : Game S A) (state : S) :
    Partitioned g ([newMCTSNode g none state none] : Heap S A) := by
  intro i x hx
  rcases i with _ | i
  · simp at hx
    subst hx
    simp [newMCTSNode]
  · simp at hx

theorem expand_preserves (g : Game S A) {h h' : Heap S A} {node child : Nat}
    (he : expand g h node = Except.ok (h', child)) (hw : WellFormed h)
    (hp : Partitioned g h) : WellFormed h' ∧ Partitioned g h' := by
  obtain ⟨x, a, rest, hx, hu, _, hex⟩ := expand_ok_inv g he
  exact ⟨hex.keeps_wellFormed hx hw, hex.keeps_partitioned hx hu hw hp⟩

theorem treePolicy_preserves (g : Game S A) (m : GoMath) {rnd : Nat → Nat} {h h' : Heap S A}
    {node leaf : Nat} (ht : treePolicy g m rnd h node = Except.ok (h', leaf))
    (hw : WellFormed h) (hp : Partitioned g h) : WellFormed h' ∧ Partitioned g h' := by
  rcases treePolicyLoop_result g m _ _ _ _ _ _ ht with ⟨rfl, _⟩ | ⟨node', _, _, _, he⟩
  · exact ⟨hw, hp⟩
  · exact expand_preserves g he hw hp

theorem reachable_invariant (g : Game S A) (m : GoMath) (state : S) {h : Heap S A}
    (hr : Reachable g m state h) : WellFormed h ∧ Partitioned g h := by
  induction hr with
  | root => exact ⟨wellFormed_root g state, partitioned_root g state⟩
  | treePolicy _ _ ht ih => exact treePolicy_preserves g m ht ih.1 ih.2
  | expand _ he ih => exact expand_preserves g he ih.1 ih.2
  | backpropagate _ hnode hb ih =>
    have hs := backpropagate_sameTree g ih.1.parents_below hnode hb
    exact ⟨hs.wellFormed_same ih.1, hs.partitioned_same ih.2⟩

/-- C7: in every heap that calls of `treePolicy`, `expand` and
`backpropagate` build from a root node, for every node: the causing actions of
its children, in order, followed by its untried actions, are the legal actions
of its state; and when those legal actions are pairwise distinct, no causing
action of a child is among the untried actions. -/
theorem children_and_untried_partition_legal_actions (g : Game S A) (m : GoMath) (state : S)
    (h : Heap S A) (hr : Reachable g m state h) (i : Nat) (x : Node S A)
    (hx : h[i]? = some x) :
    x.children.map (causingOf h) ++ x.untriedActions.map some
      = (g.GetLegalActions x.value).map some ∧
    ((g.GetLegalActions x.value).Nodup →
      ∀ a, some a ∈ x.children.map (causingOf h) → a ∉ x.untriedActions) := by
  have hpart := (reachable_invariant g m state hr).2 i x hx
  refine ⟨hpart, ?_⟩
  intro hnd a ha hau
  have hnd' : (x.children.map (causingOf h) ++ x.untriedActions.map some).Nodup := by
    rw [hpart]
    exact hnd.map (Option.some_injective A)
  exact (List.nodup_append.mp hnd').2.2 ha (List.mem_map_of_mem some hau)

theorem expandedOnce_reachable : Reachable countdown sampleMath 3 expandedOnce :=
  @Reachable.expand Nat Nat countdown sampleMath 3 _ expandedOnce 0 1 Reachable.root (by decide)

/-- C7 at the root of the countdown game after one expansion: the action
of the child, `1`, then the untried action `2`, are the legal actions `[1, 2]`. -/
theorem children_and_untried_partition_legal_actions_witness :
    Reachable countdown sampleMath 3 expandedOnce ∧ expandedOnce[0]? = some expandedRoot ∧
    expandedRoot.children.map (causingOf expandedOnce) ++ expandedRoot.untriedActions.map some
      = (countdown.GetLegalActions expandedRoot.value).map some ∧
    ((countdown.GetLegalActions expandedRoot.value).Nodup →
      ∀ a, some a ∈ expandedRoot.children.map (causingOf expandedOnce) →
        a ∉ expandedRoot.untriedActions) :=
  ⟨expandedOnce_reachable, rfl,
    children_and_untried_partition_legal_actions countdown sampleMath 3 expandedOnce
      expandedOnce_reachable 0 expandedRoot rfl⟩

theorem OnPath.parent_on {par : Nat → Option Nat} {c leaf i : Nat} (hc : OnPath par c leaf)
    (hpar : par c = some i) : OnPath par i leaf := by
  induction hc with
  | self => exact OnPath.up hpar (OnPath.self i)
  | up hn _ ih => exact OnPath.up hn ih

theorem OnPath.child_exists {par : Nat → Option Nat} {i leaf : Nat} (hi : OnPath par i leaf)
    (hne : i ≠ leaf) : ∃ c, par c = some i ∧ OnPath par c leaf := by
  induction hi with
  | self => exact absurd rfl hne
  | @up node p hn hp ih =>
    by_cases hap : i = p
    · subst hap
      exact ⟨node, hn, OnPath.self node⟩
    · obtain ⟨c, hc, hcp⟩ := ih hap
      exact ⟨c, hc, OnPath.up hn hcp⟩

theorem OnPath.chain {par : Nat → Option Nat} {a b node : Nat} (ha : OnPath par a node)
    (hb : OnPath par b node) : OnPath par a b ∨ OnPath par b a := by
  induction hb with
  | self => exact Or.inl ha
  | @up node p hn hb' ih =>
    cases ha with
    | self => exact Or.inr (OnPath.up hn hb')
    | up hn' ha' =>
      rw [hn] at hn'
      cases hn'
      exact ih ha'

theorem OnPath.child_unique {par : Nat → Option Nat}
    (hbelow : ∀ i p, par i = some p → p < i) {c1 c2 i leaf : Nat} (h1 : par c1 = some i)
    (h2 : par c2 = some i) (hp1 : OnPath par c1 leaf) (hp2 : OnPath par c2 leaf) : c1 = c2 := by
  by_contra hne
  have hlt1 := hbelow c1 i h1
  have hlt2 := hbelow c2 i h2
  rcases hp1.chain hp2 with h12 | h21
  · have hle := ((OnPath.step_iff h2 hne).mp h12).le hbelow
    omega
  · have hle := ((OnPath.step_iff h1 (Ne.symm hne)).mp h21).le hbelow
    omega

theorem sum_map_eq_zero (l : List Nat) (δ : Nat → Nat) (h0 : ∀ c ∈ l, δ c = 0) :
    (l.map δ).sum = 0 := by
  induction l with
  | nil => rfl
  | cons c l ih =>
    simp only [List.map_cons, List.sum_cons]
    rw [h0 c (List.mem_cons_self _ _), ih (fun d hd => h0 d (List.mem_cons_of_mem _ hd))]

theorem sum_map_eq_one (l : List Nat) (δ : Nat → Nat) (hnd : l.Nodup) (c0 : Nat) (hc0 : c0 ∈ l)
    (h1 : δ c0 = 1) (h0 : ∀ c ∈ l, c ≠ c0 → δ c = 0) : (l.map δ).sum = 1 := by
  induction l with
  | nil => cases hc0
  | cons c l ih =>
    simp only [List.map_cons, List.sum_cons]
    rw [List.nodup_cons] at hnd
    rcases List.mem_cons.mp hc0 with rfl | hmem
    · rw [h1, sum_map_eq_zero l δ (fun d hd => h0 d (List.mem_cons_of_mem _ hd)
        (fun hdc => hnd.1 (hdc ▸ hd)))]
    · have hc : δ c = 0 := h0 c (List.mem_cons_self _ _) (fun hcc => hnd.1 (hcc ▸ hmem))
      rw [hc, ih hnd.2 hmem (fun d hd => h0 d (List.mem_cons_of_mem _ hd))]

theorem path_children_count {h : Heap S A} (hw : WellFormed h) {leaf i : Nat} {x : Node S A}
    (hx : h[i]? = some x) (δ : Nat → Nat) (hon : ∀ c, OnPath (parentOf h) c leaf → δ c = 1)
    (hoff : ∀ c, ¬ OnPath (parentOf h) c leaf → δ c = 0) :
    (x.children.map δ).sum + (if leaf = i then 1 else 0) = δ i := by
  have hch : childrenOf h i = x.children := Gomcts.childrenOf_eq hx
  have hchild : ∀ c ∈ x.children, parentOf h c = some i := fun c hc =>
    hw.child_parent i c (by rw [hch]; exact hc)
  by_cases hli : leaf = i
  · subst hli
    rw [if_pos rfl, hon leaf (OnPath.self leaf), sum_map_eq_zero]
    intro c hc
    apply hoff
    intro hp
    have h1 := hp.le hw.parents_below
    have h2 := hw.parents_below c leaf (hchild c hc)
    omega
  · rw [if_neg hli, Nat.add_zero]
    by_cases hp : OnPath (parentOf h) i leaf
    · rw [hon i hp]
      obtain ⟨c0, hc0, hpc0⟩ := hp.child_exists (Ne.symm hli)
      have hmem : c0 ∈ x.children := by
        rw [← hch]
        exact hw.parent_child c0 i hc0
      refine sum_map_eq_one _ δ (by rw [← hch]; exact hw.children_nodup i) c0 hmem
        (hon c0 hpc0) ?_
      intro c hc hne
      apply hoff
      intro hpc
      exact hne (OnPath.child_unique hw.parents_below (hchild c hc) hc0 hpc hpc0)
    · rw [hoff i hp, sum_map_eq_zero]
      intro c hc
      apply hoff
      intro hpc
      exact hp (hpc.parent_on (hchild c hc))

theorem backpropagate_conserved (g : Game S A) {h h' : Heap S A} {leaf : Nat} {result : ℚ}
    (hw : WellFormed h) (hleaf : leaf < h.length)
    (hb : backpropagate g h leaf result = Except.ok h') {ends : List Nat}
    (hc : Conserved h ends) : Conserved h' (ends ++ [leaf]) := by
  obtain ⟨hlen, hall⟩ := backpropagate_cases g hw.parents_below hleaf hb
  have hvis : ∀ c, visitsOf h' c = visitsOf h c + (visitsOf h' c - visitsOf h c) ∧
      (OnPath (parentOf h) c leaf → visitsOf h' c - visitsOf h c = 1) ∧
      (¬ OnPath (parentOf h) c leaf → visitsOf h' c - visitsOf h c = 0) := by
    intro c
    by_cases hcl : c < h.length
    · obtain ⟨x, hx⟩ := get_of_lt hcl
      obtain ⟨y, hy, _, _, _, _, _, hcase⟩ := hall c x hx
      have e1 : visitsOf h c = x.n := by simp [visitsOf, hx]
      have e2 : visitsOf h' c = y.n := by simp [visitsOf, hy]
      rw [e1, e2]
      rcases hcase with ⟨hp, hn, _⟩ | ⟨hp, rfl⟩
      · exact ⟨by omega, fun _ => by omega, fun hno => absurd hp hno⟩
      · exact ⟨by omega, fun hyes => absurd hyes hp, fun _ => by omega⟩
    · have h1 : h[c]? = none := get_none_of_le (by omega)
      have h2 : h'[c]? = none := get_none_of_le (by omega)
      have e1 : visitsOf h c = 0 := by simp [visitsOf, h1]
      have e2 : visitsOf h' c = 0 := by simp [visitsOf, h2]
      rw [e1, e2]
      refine ⟨rfl, fun hp => ?_, fun _ => rfl⟩
      have := hp.le hw.parents_below
      omega
  intro i y hy
  have hil : i < h.length := by rw [← hlen]; exact get_lt hy
  obtain ⟨x, hx⟩ := get_of_lt hil
  obtain ⟨y', hy', _, hchildren, _, _, _, _⟩ := hall i x hx
  rw [hy] at hy'
  cases hy'
  have hcount : (x.children.map (fun c => visitsOf h' c - visitsOf h c)).sum
      + (if leaf = i then 1 else 0) = visitsOf h' i - visitsOf h i :=
    path_children_count hw hx (fun c => visitsOf h' c - visitsOf h c)
      (fun c => (hvis c).2.1) (fun c => (hvis c).2.2)
  have hsum : (y.children.map (visitsOf h')).sum
      = (x.children.map (visitsOf h)).sum
        + (x.children.map (fun c => visitsOf h' c - visitsOf h c)).sum := by
    rw [hchildren, ← List.sum_map_add]
    apply congrArg
    apply List.map_congr_left
    intro c _
    exact (hvis c).1
  have hn : y.n = x.n + (visitsOf h' i - visitsOf h i) := by
    have := (hvis i).1
    simpa [visitsOf, hx, hy] using this
  have hsingle : List.count i [leaf] = if leaf = i then 1 else 0 := by
    by_cases hli : leaf = i
    · subst hli
      simp
    · rw [if_neg hli]
      exact List.count_eq_zero_of_not_mem (by simpa using Ne.symm hli)
  rw [hn, hsum, List.count_append, hsingle, hc i x hx, ← hcount]
  ring

end Steps

/-! ## The loop of the driver -/

section Loop

variable {S A : Type}

theorem onPath_root {h : Heap S A} (hw : WellFormed h) :
    ∀ node, node < h.length → OnPath (parentOf h) 0 node := by
  intro node
  induction node using Nat.strong_induction_on with
  | _ node ih =>
    intro hnode
    cases hp : parentOf h node with
    | none =>
      rw [hw.only_root node hnode hp]
      exact OnPath.self 0
    | some p =>
      have hlt := hw.parents_below node p hp
      exact OnPath.up hp (ih p hlt (Nat.lt_trans hlt hnode))

theorem backpropagate_root_visits (g : Game S A) {h h' : Heap S A} {leaf : Nat} {result : ℚ}
    (hw : WellFormed h) (hleaf : leaf < h.length)
    (hb : backpropagate g h leaf result = Except.ok h') :
    visitsOf h' 0 = visitsOf h 0 + 1 := by
  obtain ⟨_, hall⟩ := backpropagate_cases g hw.parents_below hleaf hb
  obtain ⟨x, hx⟩ := get_of_lt hw.root.1
  obtain ⟨y, hy, _, _, _, _, _, hcase⟩ := hall 0 x hx
  rcases hcase with ⟨_, hn, _⟩ | ⟨hno, _⟩
  · simp [visitsOf, hx, hy, hn]
  · exact absurd (onPath_root hw leaf hleaf) hno

theorem getLast?_mem_valid {l : List Nat} {x : Option Nat} {n : Nat} (hx : x = l.getLast?)
    (hl : ∀ e ∈ l, e < n) {leaf : Nat} (hleaf : x = some leaf) : leaf < n := by
  rw [hx] at hleaf
  exact hl leaf (List.mem_of_getLast?_eq_some hleaf)

theorem goroutine_spec (g : Game S A) (rolloutPolicy : S → A) (rt : Runtime) {st : Search S A}
    (hinv : SearchInv g st) (hpending : st.leaves ≠ []) :
    ∃ st', goroutine g rolloutPolicy rt st = Except.ok st' ∧ SearchInv g st' ∧
      SameTree st.h st'.h ∧ st'.leaves = st.leaves ∧ st'.leaf = st.leaf ∧
      (st'.done = st.done ∨ ∃ l, st.leaf = some l ∧ st'.done = st.done ++ [l]) := by
  obtain ⟨leaf, hleaf⟩ : ∃ leaf, st.leaf = some leaf := by
    rw [hinv.leaf_last]
    cases hl : st.leaves.getLast? with
    | none => exact absurd (List.getLast?_eq_none_iff.mp hl) hpending
    | some l => exact ⟨l, rfl⟩
  have hvalid : leaf < st.h.length := getLast?_mem_valid hinv.leaf_last hinv.leaves_valid hleaf
  obtain ⟨x, hx⟩ := get_of_lt hvalid
  cases hroll : rollout g rolloutPolicy rt.rolloutFuel x with
  | none =>
    refine ⟨st, ?_, hinv, SameTree.refl _, rfl, rfl, Or.inl rfl⟩
    simp [goroutine, hleaf, load_of_get hx, hroll, bind, Except.bind, pure, Except.pure]
  | some result =>
    obtain ⟨h1, hb⟩ := backpropagate_ok g result hinv.wf.parents_below hvalid
    have hsame := backpropagate_sameTree g hinv.wf.parents_below hvalid hb
    refine ⟨{ st with h := h1, done := st.done ++ [leaf] }, ?_, ?_, hsame, rfl, rfl,
      Or.inr ⟨leaf, hleaf, rfl⟩⟩
    · simp [goroutine, hleaf, load_of_get hx, hroll, hb, bind, Except.bind, pure, Except.pure]
    · refine ⟨hsame.wellFormed_same hinv.wf, hsame.partitioned_same hinv.part,
        backpropagate_conserved g hinv.wf hvalid hb hinv.cons, hinv.leaf_last, ?_, ?_, ?_⟩
      · intro l hl
        show l < h1.length
        rw [hsame.1]
        exact hinv.leaves_valid l hl
      · intro e he
        show e < h1.length
        rw [hsame.1]
        rcases List.mem_append.mp he with he | he
        · exact hinv.done_valid e he
        · simp only [List.mem_singleton] at he
          rw [he]
          exact hvalid
      · show visitsOf h1 0 = (st.done ++ [leaf]).length
        rw [backpropagate_root_visits g hinv.wf hvalid hb, hinv.root_visits]
        simp

theorem runGoroutines_spec (g : Game S A) (rolloutPolicy : S → A) (rt : Runtime) :
    ∀ (k : Nat) (st : Search S A), SearchInv g st →
      ∃ st', runGoroutines g rolloutPolicy rt k st = Except.ok st' ∧ SearchInv g st' ∧
        SameTree st.h st'.h ∧ st'.leaves = st.leaves ∧ st'.leaf = st.leaf ∧
        ∃ extra, st'.done = st.done ++ extra ∧ extra.length ≤ k ∧
          ∀ e ∈ extra, st.leaf = some e := by
  intro k
  induction k with
  | zero =>
    intro st hinv
    exact ⟨st, rfl, hinv, SameTree.refl _, rfl, rfl, [], by simp, by simp, by simp⟩
  | succ k ih =>
    intro st hinv
    by_cases hpend : st.done.length < st.leaves.length
    · have hne : st.leaves ≠ [] := by
        intro hnil
        rw [hnil] at hpend
        simp at hpend
      obtain ⟨st1, hg, hinv1, hsame1, hl1, hleaf1, hdone1⟩ :=
        goroutine_spec g rolloutPolicy rt hinv hne
      obtain ⟨st2, hr, hinv2, hsame2, hl2, hleaf2, extra, hdone2, hlen2, hall2⟩ := ih st1 hinv1
      refine ⟨st2, ?_, hinv2, hsame1.trans hsame2, by rw [hl2, hl1], by rw [hleaf2, hleaf1], ?_⟩
      · simp [runGoroutines, hpend, hg, hr, bind, Except.bind]
      · rcases hdone1 with hd | ⟨l, hl, hd⟩
        · refine ⟨extra, by rw [hdone2, hd], by omega, ?_⟩
          intro e he
          rw [← hleaf1]
          exact hall2 e he
        · refine ⟨l :: extra, by rw [hdone2, hd]; simp, by simp; omega, ?_⟩
          intro e he
          rcases List.mem_cons.mp he with rfl | he
          · exact hl
          · rw [← hleaf1]
            exact hall2 e he
    · refine ⟨st, ?_, hinv, SameTree.refl _, rfl, rfl, [], by simp, by simp, by simp⟩
      simp [runGoroutines, hpend, pure, Except.pure]

theorem Expanded.visitsOf_root {g : Game S A} {h h' : Heap S A} {node : Nat} {x : Node S A}
    {a : A} {rest : List A} (he : Expanded g h node x a rest h') (hx : h[node]? = some x) :
    visitsOf h' 0 = visitsOf h 0 :=
  he.visitsOf_old hx (Nat.lt_of_le_of_lt (Nat.zero_le _) he.node_lt)

theorem treePolicy_searchInv (g : Game S A) (m : GoMath) {rnd : Nat → Nat} {st : Search S A}
    {h1 : Heap S A} {leaf : Nat} (hinv : SearchInv g st)
    (ht : treePolicy g m rnd st.h 0 = Except.ok (h1, leaf)) :
    SearchInv g { st with h := h1, leaf := some leaf, leaves := st.leaves ++ [leaf] } := by
  have hlast : some leaf = (st.leaves ++ [leaf]).getLast? := by simp
  rcases treePolicyLoop_result g m _ _ _ _ _ _ ht with ⟨rfl, y, hy, _⟩ | ⟨node', y, hy, _, he⟩
  · refine ⟨hinv.wf, hinv.part, hinv.cons, hlast, ?_, hinv.done_valid, hinv.root_visits⟩
    intro l hl
    rcases List.mem_append.mp hl with hl | hl
    · exact hinv.leaves_valid l hl
    · simp only [List.mem_singleton] at hl
      rw [hl]
      exact get_lt hy
  · obtain ⟨x, a, rest, hx, hu, hchild, hex⟩ := expand_ok_inv g he
    have hlen : h1.length = st.h.length + 1 := hex.length_eq
    refine ⟨hex.keeps_wellFormed hx hinv.wf, hex.keeps_partitioned hx hu hinv.wf hinv.part,
      hex.keeps_conserved hx hinv.wf hinv.done_valid hinv.cons, hlast, ?_, ?_, ?_⟩
    · intro l hl
      show l < h1.length
      rcases List.mem_append.mp hl with hl | hl
      · have := hinv.leaves_valid l hl
        omega
      · simp only [List.mem_singleton] at hl
        omega
    · intro e hmem
      show e < h1.length
      have := hinv.done_valid e hmem
      omega
    · show visitsOf h1 0 = st.done.length
      rw [hex.visitsOf_root hx]
      exact hinv.root_visits

theorem iteration_ok_inv (g : Game S A) (m : GoMath) (rolloutPolicy : S → A) (rt : Runtime)
    {i : Nat} {st st' : Search S A} (hi : iteration g m rolloutPolicy rt i st = Except.ok st') :
    ∃ h1 leaf, treePolicy g m (rt.rnd i) st.h 0 = Except.ok (h1, leaf) ∧
      runGoroutines g rolloutPolicy rt (rt.sched i)
        { st with h := h1, leaf := some leaf, leaves := st.leaves ++ [leaf] } = Except.ok st' := by
  cases ht : treePolicy g m (rt.rnd i) st.h 0 with
  | error e => simp [iteration, ht, bind, Except.bind] at hi
  | ok r =>
    obtain ⟨h1, leaf⟩ := r
    refine ⟨h1, leaf, rfl, ?_⟩
    simpa [iteration, ht, bind, Except.bind] using hi

theorem searchLoop_succ_inv (g : Game S A) (m : GoMath) (state : S) (rolloutPolicy : S → A)
    (rt : Runtime) {k : Nat} {st' : Search S A}
    (hk : searchLoop g m state rolloutPolicy rt (k + 1) = Except.ok st') :
    ∃ st, searchLoop g m state rolloutPolicy rt k = Except.ok st ∧
      iteration g m rolloutPolicy rt k st = Except.ok st' := by
  cases hs : searchLoop g m state rolloutPolicy rt k with
  | error e => simp [searchLoop, hs, bind, Except.bind] at hk
  | ok st =>
    refine ⟨st, rfl, ?_⟩
    simpa [searchLoop, hs, bind, Except.bind] using hk

theorem searchInv_start (g : Game S A) (state : S) :
    SearchInv g { h := [newMCTSNode g none state none], leaf := none, leaves := [], done := [] } := by
  refine ⟨wellFormed_root g state, partitioned_root g state, ?_, rfl, ?_, ?_, ?_⟩
  · intro i x hx
    rcases i with _ | i
    · simp at hx
      subst hx
      simp [newMCTSNode]
    · simp at hx
  · intro l hl
    cases hl
  · intro e he
    cases he
  · simp [visitsOf, newMCTSNode]

theorem searchLoop_inv (g : Game S A) (m : GoMath) (state : S) (rolloutPolicy : S → A)
    (rt : Runtime) :
    ∀ (k : Nat) (st : Search S A), searchLoop g m state rolloutPolicy rt k = Except.ok st →
      SearchInv g st ∧ st.leaves.length = k := by
  intro k
  induction k with
  | zero =>
    intro st hs
    simp only [searchLoop, pure, Except.pure] at hs
    cases hs
    exact ⟨searchInv_start g state, rfl⟩
  | succ k ih =>
    intro st' hs
    obtain ⟨st, hk, hi⟩ := searchLoop_succ_inv g m state rolloutPolicy rt hs
    obtain ⟨hinv, hlen⟩ := ih st hk
    obtain ⟨h1, leaf, ht, hr⟩ := iteration_ok_inv g m rolloutPolicy rt hi
    obtain ⟨st2, hr2, hinv2, _, hl2, _⟩ :=
      runGoroutines_spec g rolloutPolicy rt (rt.sched k) _ (treePolicy_searchInv g m hinv ht)
    rw [hr] at hr2
    cases hr2
    refine ⟨hinv2, ?_⟩
    rw [hl2]
    simp [hlen]

theorem lockstepRun_eq :
    searchLoop countdown sampleMath 3 takeOne lockstep 4 = Except.ok lockstepRun := by
  decide!

/-- C3: take the state after the `N` iterations of the loop and after any
number of the waiting goroutines have run since; if by then every goroutine
that was started has finished its backpropagation, `N` leaves have been
assigned and the root's `n` is `N` (each backpropagation adds one to it). -/
theorem root_visits_equal_simulations (g : Game S A) (m : GoMath) (state : S)
    (rolloutPolicy : S → A) (rt : Runtime) (N k : Nat) (st0 st : Search S A)
    (hloop : searchLoop g m state rolloutPolicy rt N = Except.ok st0)
    (hrest : runGoroutines g rolloutPolicy rt k st0 = Except.ok st)
    (hall : st.done.length = st.leaves.length) :
    st.leaves.length = N ∧ ∃ root, st.h[0]? = some root ∧ root.n = N := by
  obtain ⟨hinv0, hlen0⟩ := searchLoop_inv g m state rolloutPolicy rt N st0 hloop
  obtain ⟨st', hr, hinv, _, hl, _⟩ := runGoroutines_spec g rolloutPolicy rt k st0 hinv0
  rw [hrest] at hr
  cases hr
  have hN : st.leaves.length = N := by rw [hl, hlen0]
  refine ⟨hN, ?_⟩
  obtain ⟨root, hroot⟩ := get_of_lt hinv.wf.root.1
  refine ⟨root, hroot, ?_⟩
  have hv := hinv.root_visits
  simp only [visitsOf, hroot] at hv
  rw [hv, hall, hN]

/-- C3 on the countdown game: four iterations without concurrency leave the
root with `n = 4`. -/
theorem root_visits_equal_simulations_witness :
    searchLoop countdown sampleMath 3 takeOne lockstep 4 = Except.ok lockstepRun ∧
    runGoroutines countdown takeOne lockstep 0 lockstepRun = Except.ok lockstepRun ∧
    lockstepRun.done.length = lockstepRun.leaves.length ∧
    lockstepRun.leaves.length = 4 ∧ ∃ root, lockstepRun.h[0]? = some root ∧ root.n = 4 :=
  ⟨lockstepRun_eq, rfl, rfl,
    root_visits_equal_simulations countdown sampleMath 3 takeOne lockstep 4 0 lockstepRun
      lockstepRun lockstepRun_eq rfl rfl⟩

theorem sequential_done (g : Game S A) (m : GoMath) (state : S) (rolloutPolicy : S → A)
    (rt : Runtime) (hseq : sequential rt) :
    ∀ (k : Nat) (st : Search S A), searchLoop g m state rolloutPolicy rt k = Except.ok st →
      st.done = st.leaves ∨ st.done.length < st.leaves.length := by
  intro k
  induction k with
  | zero =>
    intro st hs
    simp only [searchLoop, pure, Except.pure] at hs
    cases hs
    exact Or.inl rfl
  | succ k ih =>
    intro st' hs
    obtain ⟨st, hk, hi⟩ := searchLoop_succ_inv g m state rolloutPolicy rt hs
    obtain ⟨hinv, _⟩ := searchLoop_inv g m state rolloutPolicy rt k st hk
    obtain ⟨h1, leaf, ht, hr⟩ := iteration_ok_inv g m rolloutPolicy rt hi
    obtain ⟨st2, hr2, _, _, hl2, _, extra, hd2, hlen2, hall2⟩ :=
      runGoroutines_spec g rolloutPolicy rt (rt.sched k) _ (treePolicy_searchInv g m hinv ht)
    rw [hr] at hr2
    cases hr2
    rw [hseq k] at hlen2
    rw [hl2, hd2]
    simp only [List.length_append, List.length_singleton]
    rcases extra with _ | ⟨e, rest⟩
    · right
      rcases ih st hk with heq | hlt
      · rw [heq]
        simp
      · simp
        omega
    · have hrest : rest = [] := by
        simpa using hlen2
      subst hrest
      have he : e = leaf := by
        have := hall2 e (List.mem_cons_self _ _)
        simpa using this.symm
      subst he
      rcases ih st hk with heq | hlt
      · left
        rw [heq]
      · right
        simp
        omega

/-- C8: in a run without concurrency, after any number of iterations of the
loop, each followed by its finished backpropagation, the `n` of every node is
the sum of the `n` of its children plus the number of iterations whose
`treePolicy` returned that node. -/
theorem visits_conserved_in_sequential_run (g : Game S A) (m : GoMath) (state : S)
    (rolloutPolicy : S → A) (rt : Runtime) (N : Nat) (st : Search S A) (hseq : sequential rt)
    (hloop : searchLoop g m state rolloutPolicy rt N = Except.ok st)
    (hall : st.done.length = st.leaves.length) (i : Nat) (x : Node S A)
    (hx : st.h[i]? = some x) :
    x.n = (x.children.map (visitsOf st.h)).sum + st.leaves.count i := by
  obtain ⟨hinv, _⟩ := searchLoop_inv g m state rolloutPolicy rt N st hloop
  rcases sequential_done g m state rolloutPolicy rt hseq N st hloop with heq | hlt
  · rw [← heq]
    exact hinv.cons i x hx
  · omega

/-- C8 on the countdown game after four iterations without concurrency, at
the first child of the root: `2 = 1 + 1`. -/
theorem visits_conserved_in_sequential_run_witness :
    sequential lockstep ∧
    searchLoop countdown sampleMath 3 takeOne lockstep 4 = Except.ok lockstepRun ∧
    lockstepRun.done.length = lockstepRun.leaves.length ∧
    lockstepRun.h[1]? = some
      { parent := some 0, children := [3], value := 2, untriedActions := [2],
        causingAction := some 1, q := -2, n := 2 } ∧
    2 = ([3].map (visitsOf lockstepRun.h)).sum + lockstepRun.leaves.count 1 :=
  ⟨fun _ => rfl, lockstepRun_eq, rfl, rfl,
    visits_conserved_in_sequential_run countdown sampleMath 3 takeOne lockstep 4 lockstepRun
      (fun _ => rfl) lockstepRun_eq rfl 1 _ rfl⟩

theorem treePolicy_expand_root (g : Game S A) (m : GoMath) (rnd : Nat → Nat) {h : Heap S A}
    {root : Node S A} {a : A} {rest : List A} (hroot : h[0]? = some root)
    (hterm : isTerminal g root = false) (hu : root.untriedActions = a :: rest) :
    treePolicy g m rnd h 0 = expand g h 0 := by
  have hlen : h.length = (h.length - 1) + 1 := by
    have := get_lt hroot
    omega
  unfold treePolicy
  rw [hlen]
  simp [treePolicyLoop, load_of_get hroot, hterm, isFullyExpanded, hu, bind, Except.bind]

/-- C9: when the root state is not terminal and has `M` legal actions, then
for every `k ≤ M` the first `k` iterations of the loop return, whatever the
goroutines do in between, and each of their `treePolicy` calls expanded the
root: the leaves they returned are the `k` new nodes `1, ..., k`, which are
the children of the root in this order; the `j`-th of them is the node for the
`j`-th legal action, a child of the root without children of its own; the
root's untried actions are the legal actions after the first `k`.  For `k = M`
the root is fully expanded. -/
theorem treePolicy_expands_root_first (g : Game S A) (m : GoMath) (state : S)
    (rolloutPolicy : S → A) (rt : Runtime) (hroot : (g.EvaluateGame state).2 = false)
    (k : Nat) (hk : k ≤ (g.GetLegalActions state).length) :
    ∃ st root, searchLoop g m state rolloutPolicy rt k = Except.ok st ∧
      st.h[0]? = some root ∧ root.value = state ∧
      root.untriedActions = (g.GetLegalActions state).drop k ∧
      root.children = st.leaves ∧ st.leaves = List.range' 1 k ∧ st.h.length = k + 1 ∧
      (k = (g.GetLegalActions state).length → isFullyExpanded root = true) ∧
      ∀ j, j < k → ∃ a child, (g.GetLegalActions state)[j]? = some a ∧
        st.h[j + 1]? = some child ∧ child.parent = some 0 ∧ child.causingAction = some a ∧
        child.value = g.ApplyTo a state ∧ child.children = [] ∧
        child.untriedActions = g.GetLegalActions (g.ApplyTo a state) := by
  induction k with
  | zero =>
    refine ⟨_, newMCTSNode g none state none, rfl, rfl, rfl, rfl, rfl, rfl, rfl, ?_, ?_⟩
    · intro h0
      simp [isFullyExpanded, newMCTSNode, ← h0]
    · intro j hj
      omega
  | succ k ih =>
    obtain ⟨st, root, hs, hr, hval, hunt, hch, hleaves, hlen, _, hnodes⟩ := ih (by omega)
    obtain ⟨hinv, _⟩ := searchLoop_inv g m state rolloutPolicy rt k st hs
    have hklt : k < (g.GetLegalActions state).length := by omega
    have hu : root.untriedActions
        = (g.GetLegalActions state)[k] :: (g.GetLegalActions state).drop (k + 1) := by
      rw [hunt]
      exact List.drop_eq_getElem_cons hklt
    have hterm : isTerminal g root = false := by
      simp [isTerminal, hval, hroot]
    obtain ⟨h1, he, hex⟩ := expand_expanded g hr hu
    have ht : treePolicy g m (rt.rnd k) st.h 0 = Except.ok (h1, st.h.length) := by
      rw [treePolicy_expand_root g m (rt.rnd k) hr hterm hu]
      exact he
    obtain ⟨st2, hr2, _, hsame, hl2, _⟩ :=
      runGoroutines_spec g rolloutPolicy rt (rt.sched k) _ (treePolicy_searchInv g m hinv ht)
    have hloop : searchLoop g m state rolloutPolicy rt (k + 1) = Except.ok st2 := by
      simp only [searchLoop, hs, iteration, ht, bind, Except.bind]
      exact hr2
    obtain ⟨root2, hroot2, _, e2, e3, e4, _⟩ := hsame.2 0 _ hex.node_eq
    have hleaves2 : st2.leaves = List.range' 1 (k + 1) := by
      rw [hl2, List.range'_concat]
      show st.leaves ++ [st.h.length] = _
      rw [hleaves, hlen]
      simp [Nat.add_comm]
    refine ⟨st2, root2, hloop, hroot2, by rw [e3]; exact hval, by rw [e4], ?_, hleaves2, ?_, ?_,
      ?_⟩
    · rw [e2, hl2]
      show root.children ++ [st.h.length] = st.leaves ++ [st.h.length]
      rw [hch]
    · rw [hsame.1, hex.length_eq, hlen]
    · intro hM
      rw [isFullyExpanded, e4]
      simp [hM]
    · intro j hj
      by_cases hjk : j < k
      · obtain ⟨a, child, ha, hc, c1, c2, c3, c4, c5⟩ := hnodes j hjk
        have hc1 : h1[j + 1]? = some child := by
          rw [hex.other (j + 1) (by omega) (get_lt hc)]
          exact hc
        obtain ⟨child2, hchild2, f1, f2, f3, f4, f5⟩ := hsame.2 (j + 1) child hc1
        exact ⟨a, child2, ha, hchild2, by rw [f1, c1], by rw [f5, c2], by rw [f3, c3],
          by rw [f2, c4], by rw [f4, c5]⟩
      · have hjeq : j = k := by omega
        subst hjeq
        have hc1 : h1[j + 1]? = some (newMCTSNode g (some 0) (g.ApplyTo
            (g.GetLegalActions state)[j] root.value) (some (g.GetLegalActions state)[j])) := by
          rw [← hlen]
          exact hex.child
        obtain ⟨child2, hchild2, f1, f2, f3, f4, f5⟩ := hsame.2 (j + 1) _ hc1
        rw [hval] at f3 f4
        exact ⟨_, child2, List.getElem?_eq_getElem hklt, hchild2, f1, f5, f3, f2, f4⟩

/-- C9 on the countdown game from three tokens, whose root has the two
legal actions `1` and `2`, in a run in which no goroutine gets to run. -/
theorem treePolicy_expands_root_first_witness :
    (countdown.EvaluateGame 3).2 = false ∧ 2 ≤ (countdown.GetLegalActions 3).length ∧
    ∃ st root, searchLoop countdown sampleMath 3 takeOne detached 2 = Except.ok st ∧
      st.h[0]? = some root ∧ root.value = 3 ∧
      root.untriedActions = (countdown.GetLegalActions 3).drop 2 ∧
      root.children = st.leaves ∧ st.leaves = List.range' 1 2 ∧ st.h.length = 2 + 1 ∧
      (2 = (countdown.GetLegalActions 3).length → isFullyExpanded root = true) ∧
      ∀ j, j < 2 → ∃ a child, (countdown.GetLegalActions 3)[j]? = some a ∧
        st.h[j + 1]? = some child ∧ child.parent = some 0 ∧ child.causingAction = some a ∧
        child.value = countdown.ApplyTo a 3 ∧ child.children = [] ∧
        child.untriedActions = countdown.GetLegalActions (countdown.ApplyTo a 3) :=
  ⟨rfl, by decide,
    treePolicy_expands_root_first countdown sampleMath 3 takeOne detached rfl 2 (by decide)⟩

end Loop

/-! ## Selection -/

section Selection

variable {S A : Type}

theorem uctScore_visited (m : GoMath) (c : ℚ) {nodeN : Nat} {child : Node S A}
    (hn : 0 < child.n) (hN : 0 < nodeN) :
    uctScore m c nodeN child = F64.fin (child.q / child.n
      + c * m.sqrtNonneg (2 * m.logPos nodeN / child.n)) ∧
    0 ≤ m.sqrtNonneg (2 * m.logPos nodeN / child.n) := by
  have hN' : (0 : ℚ) < nodeN := by exact_mod_cast hN
  have hn' : (0 : ℚ) < child.n := by exact_mod_cast hn
  have hlog : 0 ≤ m.logPos nodeN := m.logPos_nonneg _ (by exact_mod_cast hN)
  have harg : 0 ≤ 2 * m.logPos nodeN / child.n := by positivity
  refine ⟨?_, m.sqrtNonneg_nonneg _ harg⟩
  simp [uctScore, hn, GoMath.Log, GoMath.Sqrt, F64.mul, F64.div, F64.add, not_lt.mpr hN'.le,
    hN'.ne', hn'.ne', not_lt.mpr harg]

end Selection

/-! ## The bound of float64 -/

section Bound

end Bound

/-! ## The degenerate call -/

section Degenerate

variable {S A : Type}

/-- C4: with `simulations ≤ 0` the loop does not run, the root has no child,
the list of best children is empty and `rand.Int` is called with `0`: the call
of `MonteCarloTreeSearch` does not return an action, it stops on that fault. -/
theorem MonteCarloTreeSearch_fails_without_simulations (g : Game S A) (m : GoMath)
    (rt : Runtime) (state : S) (rolloutPolicy : S → A) (simulations : ℤ)
    (hs : simulations ≤ 0) :
    MonteCarloTreeSearch g m rt state rolloutPolicy simulations
      = Except.error Fault.randIntArg := by
  have h0 : simulations.toNat = 0 := Int.toNat_eq_zero.mpr hs
  simp [MonteCarloTreeSearch, h0, searchLoop, uctBestChild, load, newMCTSNode, uctLoop, bind,
    Except.bind, pure, Except.pure]

/-- C4 on the countdown game, for `simulations = -2`. -/
theorem MonteCarloTreeSearch_fails_without_simulations_witness :
    (-2 : ℤ) ≤ 0 ∧
    MonteCarloTreeSearch countdown sampleMath detached 3 takeOne (-2)
      = Except.error Fault.randIntArg :=
  ⟨by decide, MonteCarloTreeSearch_fails_without_simulations countdown sampleMath detached 3
    takeOne (-2) (by decide)⟩

end Degenerate

/-! ## The tree policy at terminal nodes and at dead ends -/

section Halting

variable {S A : Type}

theorem treePolicy_terminal (g : Game S A) (m : GoMath) (rnd : Nat → Nat) {h : Heap S A}
    {node : Nat} {x : Node S A} (hx : h[node]? = some x) (hterm : isTerminal g x = true) :
    treePolicy g m rnd h node = Except.ok (h, node) := by
  have hlen : h.length = (h.length - 1) + 1 := by
    have := get_lt hx
    omega
  unfold treePolicy
  rw [hlen]
  simp [treePolicyLoop, load_of_get hx, hterm, bind, Except.bind, pure, Except.pure]

/-- C14: on a node whose state `EvaluateGame` reports as ended, `treePolicy`
returns that node and the heap as it was, whatever the untried actions and the
children of the node are. -/
theorem treePolicy_halts_at_terminal_node (g : Game S A) (m : GoMath) (rnd : Nat → Nat)
    (h : Heap S A) (node : Nat) (x : Node S A) (hx : h[node]? = some x)
    (hended : (g.EvaluateGame x.value).2 = true) :
    treePolicy g m rnd h node = Except.ok (h, node) := by
  have hlen : h.length = (h.length - 1) + 1 := by
    have := get_lt hx
    omega
  have hterm : isTerminal g x = true := by
    rw [isTerminal]
    exact hended
  unfold treePolicy
  rw [hlen]
  simp [treePolicyLoop, load_of_get hx, hterm, bind, Except.bind, pure, Except.pure]

/-- C14 on the game of two states, at a root that is ended and still has
the untried action `7`. -/
theorem treePolicy_halts_at_terminal_node_witness :
    ([newMCTSNode twoState none true none] : Heap Bool Nat)[0]?
      = some (newMCTSNode twoState none true none) ∧
    (twoState.EvaluateGame (newMCTSNode twoState none true none).value).2 = true ∧
    (newMCTSNode twoState none true none).untriedActions = [7] ∧
    treePolicy twoState sampleMath (fun k => k) [newMCTSNode twoState none true none] 0
      = Except.ok ([newMCTSNode twoState none true none], 0) :=
  ⟨rfl, rfl, rfl,
    treePolicy_halts_at_terminal_node twoState sampleMath (fun k => k)
      [newMCTSNode twoState none true none] 0 (newMCTSNode twoState none true none) rfl rfl⟩

/-- C13: in a heap built by `treePolicy`, `expand` and `backpropagate` calls,
a node that is not terminal and whose state has no legal action has no untried
action and no child, and `treePolicy` on it does not return: the list of best
children is empty and the call stops on the fault of `rand.Int`. -/
theorem treePolicy_fails_without_legal_actions (g : Game S A) (m : GoMath) (state : S)
    (h : Heap S A) (hr : Reachable g m state h) (rnd : Nat → Nat) (node : Nat) (x : Node S A)
    (hx : h[node]? = some x) (hterm : (g.EvaluateGame x.value).2 = false)
    (hlegal : g.GetLegalActions x.value = []) :
    x.untriedActions = [] ∧ x.children = [] ∧
    treePolicy g m rnd h node = Except.error Fault.randIntArg := by
  have hpart := (reachable_invariant g m state hr).2 node x hx
  rw [hlegal] at hpart
  simp only [List.map_nil, List.append_eq_nil, List.map_eq_nil_iff] at hpart
  obtain ⟨hch, hu⟩ := hpart
  refine ⟨hu, hch, ?_⟩
  have hlen : h.length = (h.length - 1) + 1 := by
    have := get_lt hx
    omega
  unfold treePolicy
  rw [hlen]
  simp [treePolicyLoop, load_of_get hx, isTerminal, hterm, isFullyExpanded, hu, uctBestChild,
    hch, uctLoop, bind, Except.bind, pure, Except.pure]

/-- C13 at the root of a game without legal actions. -/
theorem treePolicy_fails_without_legal_actions_witness :
    Reachable deadEnd sampleMath 5 [newMCTSNode deadEnd none 5 none] ∧
    (deadEnd.EvaluateGame (newMCTSNode deadEnd none 5 none).value).2 = false ∧
    deadEnd.GetLegalActions (newMCTSNode deadEnd none 5 none).value = [] ∧
    (newMCTSNode deadEnd none 5 none).untriedActions = [] ∧
    (newMCTSNode deadEnd none 5 none).children = [] ∧
    treePolicy deadEnd sampleMath (fun k => k) [newMCTSNode deadEnd none 5 none] 0
      = Except.error Fault.randIntArg :=
  ⟨Reachable.root, rfl, rfl,
    treePolicy_fails_without_legal_actions deadEnd sampleMath 5 [newMCTSNode deadEnd none 5 none]
      Reachable.root (fun k => k) 0 (newMCTSNode deadEnd none 5 none) rfl rfl rfl⟩

/-- C19: when `EvaluateGame` reports the root state as ended, every
iteration of the loop returns the root as its leaf, the heap stays the root
alone and the root stays without children, whatever the goroutines do; and
`MonteCarloTreeSearch` returns no action for any simulation count: the final
`uctBestChild` finds no candidate and stops on the fault of `rand.Int`. -/
theorem MonteCarloTreeSearch_fails_on_ended_root (g : Game S A) (m : GoMath) (rt : Runtime)
    (state : S) (rolloutPolicy : S → A) (simulations : ℤ)
    (hended : (g.EvaluateGame state).2 = true) :
    (∀ k, ∃ st root, searchLoop g m state rolloutPolicy rt k = Except.ok st ∧
      st.leaves = List.replicate k 0 ∧ st.h.length = 1 ∧ st.h[0]? = some root ∧
      root.value = state ∧ root.children = []) ∧
    MonteCarloTreeSearch g m rt state rolloutPolicy simulations
      = Except.error Fault.randIntArg := by
  have hloop : ∀ k, ∃ st root, searchLoop g m state rolloutPolicy rt k = Except.ok st ∧
      st.leaves = List.replicate k 0 ∧ st.h.length = 1 ∧ st.h[0]? = some root ∧
      root.value = state ∧ root.children = [] := by
    intro k
    induction k with
    | zero => exact ⟨_, newMCTSNode g none state none, rfl, rfl, rfl, rfl, rfl, rfl⟩
    | succ k ih =>
      obtain ⟨st, root, hs, hleaves, hlen, hr, hval, hch⟩ := ih
      obtain ⟨hinv, _⟩ := searchLoop_inv g m state rolloutPolicy rt k st hs
      have ht : treePolicy g m (rt.rnd k) st.h 0 = Except.ok (st.h, 0) :=
        treePolicy_terminal g m (rt.rnd k) hr (by simp [isTerminal, hval, hended])
      obtain ⟨st2, hr2, _, hsame, hl2, _⟩ :=
        runGoroutines_spec g rolloutPolicy rt (rt.sched k) _ (treePolicy_searchInv g m hinv ht)
      obtain ⟨root2, hroot2, _, e2, e3, _⟩ := hsame.2 0 root hr
      refine ⟨st2, root2, ?_, ?_, by rw [hsame.1]; exact hlen, hroot2, by rw [e3, hval],
        by rw [e2, hch]⟩
      · simp only [searchLoop, hs, iteration, ht, bind, Except.bind]
        exact hr2
      · rw [hl2]
        show st.leaves ++ [0] = _
        rw [hleaves, List.replicate_succ']
  refine ⟨hloop, ?_⟩
  obtain ⟨st, root, hs, _, _, hr, _, hch⟩ := hloop simulations.toNat
  simp [MonteCarloTreeSearch, hs, uctBestChild, load_of_get hr, hch, uctLoop, bind, Except.bind,
    pure, Except.pure]

/-- C19 on the countdown game from zero tokens, which has ended, with four
simulations. -/
theorem MonteCarloTreeSearch_fails_on_ended_root_witness :
    (countdown.EvaluateGame 0).2 = true ∧
    (∀ k, ∃ st root, searchLoop countdown sampleMath 0 takeOne lockstep k = Except.ok st ∧
      st.leaves = List.replicate k 0 ∧ st.h.length = 1 ∧ st.h[0]? = some root ∧
      root.value = 0 ∧ root.children = []) ∧
    MonteCarloTreeSearch countdown sampleMath lockstep 0 takeOne 4
      = Except.error Fault.randIntArg :=
  ⟨rfl, MonteCarloTreeSearch_fails_on_ended_root countdown sampleMath lockstep 0 takeOne 4 rfl⟩

end Halting

/-! ## What the operations leave alone -/

section Frame

variable {S A : Type}

theorem expand_frame (g : Game S A) {h h' : Heap S A} {node child : Nat}
    (he : expand g h node = Except.ok (h', child)) (i : Nat) (x : Node S A)
    (hx : h[i]? = some x) :
    ∃ y, h'[i]? = some y ∧ y.value = x.value ∧ y.causingAction = x.causingAction ∧
      y.parent = x.parent ∧ y.q = x.q ∧ y.n = x.n ∧
      (∃ extra, y.children = x.children ++ extra) ∧ (i ≠ node → y = x) := by
  obtain ⟨z, a, rest, hz, _, _, hex⟩ := expand_ok_inv g he
  obtain ⟨y, hy, e1, e2, e3, e4, e5, hne, heq⟩ := hex.get_old hz hx
  refine ⟨y, hy, e2, e3, e1, e4, e5, ?_, hne⟩
  by_cases hi : i = node
  · exact ⟨[h.length], (heq hi).1⟩
  · exact ⟨[], by rw [hne hi]; simp⟩

/-- C18: in a tree whose nodes were allocated after their parents,
`backpropagate` keeps the state, the causing action, the parent, the children
and the untried actions of every node, and leaves every node off the path from
its argument to the root exactly as it was; `expand` keeps the state, the
causing action, the parent, `q` and `n` of every node, only appends to lists
of children, and leaves every node but the expanded one exactly as it was; and
`treePolicy`, which at most expands once, keeps the state, the causing action,
the parent, `q` and `n` of every node and only appends to lists of children. -/
theorem nodes_keep_identity_fields (g : Game S A) (m : GoMath) (h : Heap S A)
    (hpb : ParentsBelow h) :
    (∀ (node : Nat) (result : ℚ) (h' : Heap S A), node < h.length →
      backpropagate g h node result = Except.ok h' →
      h'.length = h.length ∧
      ∀ (i : Nat) (x : Node S A), h[i]? = some x → ∃ y, h'[i]? = some y ∧
        y.value = x.value ∧ y.causingAction = x.causingAction ∧ y.parent = x.parent ∧
        y.children = x.children ∧ y.untriedActions = x.untriedActions ∧
        (¬ OnPath (parentOf h) i node → y = x)) ∧
    (∀ (node child : Nat) (h' : Heap S A), expand g h node = Except.ok (h', child) →
      ∀ (i : Nat) (x : Node S A), h[i]? = some x → ∃ y, h'[i]? = some y ∧
        y.value = x.value ∧ y.causingAction = x.causingAction ∧ y.parent = x.parent ∧
        y.q = x.q ∧ y.n = x.n ∧ (∃ extra, y.children = x.children ++ extra) ∧
        (i ≠ node → y = x)) ∧
    (∀ (rnd : Nat → Nat) (node leaf : Nat) (h' : Heap S A),
      treePolicy g m rnd h node = Except.ok (h', leaf) →
      ∀ (i : Nat) (x : Node S A), h[i]? = some x → ∃ y, h'[i]? = some y ∧
        y.value = x.value ∧ y.causingAction = x.causingAction ∧ y.parent = x.parent ∧
        y.q = x.q ∧ y.n = x.n ∧ ∃ extra, y.children = x.children ++ extra) := by
  refine ⟨?_, ?_, ?_⟩
  · intro node result h' hnode hb
    obtain ⟨hlen, hall⟩ := backpropagate_cases g hpb hnode hb
    refine ⟨hlen, ?_⟩
    intro i x hx
    obtain ⟨y, hy, e1, e2, e3, e4, e5, hcase⟩ := hall i x hx
    refine ⟨y, hy, e3, e5, e1, e2, e4, ?_⟩
    intro hoff
    rcases hcase with ⟨hon, _⟩ | ⟨_, heq⟩
    · exact absurd hon hoff
    · exact heq
  · intro node child h' he i x hx
    exact expand_frame g he i x hx
  · intro rnd node leaf h' ht i x hx
    rcases treePolicyLoop_result g m _ _ _ _ _ _ ht with ⟨rfl, _⟩ | ⟨node', _, _, _, he⟩
    · exact ⟨x, hx, rfl, rfl, rfl, rfl, rfl, [], by simp⟩
    · obtain ⟨y, hy, e1, e2, e3, e4, e5, e6, _⟩ := expand_frame g he i x hx
      exact ⟨y, hy, e1, e2, e3, e4, e5, e6⟩

/-- C18 on the sample tree. -/
theorem nodes_keep_identity_fields_witness :
    ParentsBelow sampleTree ∧
    ((∀ (node : Nat) (result : ℚ) (h' : Heap Nat Nat), node < sampleTree.length →
      backpropagate countdown sampleTree node result = Except.ok h' →
      h'.length = sampleTree.length ∧
      ∀ (i : Nat) (x : Node Nat Nat), sampleTree[i]? = some x → ∃ y, h'[i]? = some y ∧
        y.value = x.value ∧ y.causingAction = x.causingAction ∧ y.parent = x.parent ∧
        y.children = x.children ∧ y.untriedActions = x.untriedActions ∧
        (¬ OnPath (parentOf sampleTree) i node → y = x)) ∧
    (∀ (node child : Nat) (h' : Heap Nat Nat),
      expand countdown sampleTree node = Except.ok (h', child) →
      ∀ (i : Nat) (x : Node Nat Nat), sampleTree[i]? = some x → ∃ y, h'[i]? = some y ∧
        y.value = x.value ∧ y.causingAction = x.causingAction ∧ y.parent = x.parent ∧
        y.q = x.q ∧ y.n = x.n ∧ (∃ extra, y.children = x.children ++ extra) ∧
        (i ≠ node → y = x)) ∧
    (∀ (rnd : Nat → Nat) (node leaf : Nat) (h' : Heap Nat Nat),
      treePolicy countdown sampleMath rnd sampleTree node = Except.ok (h', leaf) →
      ∀ (i : Nat) (x : Node Nat Nat), sampleTree[i]? = some x → ∃ y, h'[i]? = some y ∧
        y.value = x.value ∧ y.causingAction = x.causingAction ∧ y.parent = x.parent ∧
        y.q = x.q ∧ y.n = x.n ∧ ∃ extra, y.children = x.children ++ extra)) :=
  ⟨sampleTree_parentsBelow,
    nodes_keep_identity_fields countdown sampleMath sampleTree sampleTree_parentsBelow⟩

end Frame

/-! ## Backpropagations commute -/

section Commute

variable {S A : Type}

theorem backpropagate_node (g : Game S A) {h h' : Heap S A} {node : Nat} {result : ℚ}
    (hpb : ParentsBelow h) (hnode : node < h.length)
    (hb : backpropagate g h node result = Except.ok h') (i : Nat) (x : Node S A)
    (hx : h[i]? = some x) :
    ∃ y, h'[i]? = some y ∧ y.parent = x.parent ∧ y.children = x.children ∧
      y.value = x.value ∧ y.untriedActions = x.untriedActions ∧
      y.causingAction = x.causingAction ∧
      ((OnPath (parentOf h) i node ∧ y.n = x.n + 1 ∧
          y.q = x.q + backpropagatedTerm g h result x) ∨
        (¬ OnPath (parentOf h) i node ∧ y.n = x.n ∧ y.q = x.q)) := by
  obtain ⟨_, hall⟩ := backpropagate_cases g hpb hnode hb
  obtain ⟨y, hy, e1, e2, e3, e4, e5, hcase⟩ := hall i x hx
  refine ⟨y, hy, e1, e2, e3, e4, e5, ?_⟩
  rcases hcase with ⟨hon, hn, hroot, hinner⟩ | ⟨hoff, heq⟩
  · left
    refine ⟨hon, hn, ?_⟩
    cases hpar : x.parent with
    | none => simp [backpropagatedTerm, hpar, hroot hpar]
    | some p =>
      have hplt : p < i := hpb i p (by rw [Gomcts.parentOf_eq hx, hpar])
      obtain ⟨px, hpx⟩ := get_of_lt (Nat.lt_trans hplt (get_lt hx))
      simp [backpropagatedTerm, hpar, hpx, hinner p px hpar hpx]
  · right
    exact ⟨hoff, by rw [heq], by rw [heq]⟩

theorem backpropagatedTerm_same (g : Game S A) {h h' : Heap S A} (hs : SameTree h h')
    (result : ℚ) {x y : Node S A} (hp : y.parent = x.parent) :
    backpropagatedTerm g h' result y = backpropagatedTerm g h result x := by
  unfold backpropagatedTerm
  rw [hp]
  cases x.parent with
  | none => rfl
  | some p =>
    by_cases hpl : p < h.length
    · obtain ⟨px, hpx⟩ := get_of_lt hpl
      obtain ⟨py, hpy, _, _, hv, _⟩ := hs.2 p px hpx
      simp [hpx, hpy, hv]
    · have h1 : h[p]? = none := get_none_of_le (by omega)
      have h2 : h'[p]? = none := get_none_of_le (by rw [hs.1]; omega)
      simp [h1, h2]

theorem node_ext {x y : Node S A} (h1 : x.parent = y.parent) (h2 : x.children = y.children)
    (h3 : x.value = y.value) (h4 : x.untriedActions = y.untriedActions)
    (h5 : x.causingAction = y.causingAction) (h6 : x.q = y.q) (h7 : x.n = y.n) : x = y := by
  cases x
  cases y
  simp only [monteCarloTreeSearchGameNode.mk.injEq]
  exact ⟨h1, h2, h3, h4, h5, h6, h7⟩

theorem parentsBelow_same {h h' : Heap S A} (hs : SameTree h h') (hpb : ParentsBelow h) :
    ParentsBelow h' := by
  unfold ParentsBelow
  rw [hs.parentOf_same]
  exact hpb

/-- C20: in a tree whose nodes were allocated after their parents, for two
nodes `a` and `b` and two results, both orders of the two backpropagations
return, and they return the same heap: every node ends with the same `q` and
`n` (and the same other fields). -/
theorem backpropagations_commute (g : Game S A) (h : Heap S A) (a b : Nat) (r1 r2 : ℚ)
    (hpb : ParentsBelow h) (ha : a < h.length) (hb : b < h.length) :
    ∃ h1 h2 hab hba, backpropagate g h a r1 = Except.ok h1 ∧
      backpropagate g h1 b r2 = Except.ok hab ∧ backpropagate g h b r2 = Except.ok h2 ∧
      backpropagate g h2 a r1 = Except.ok hba ∧ hab = hba := by
  obtain ⟨h1, hr1⟩ := backpropagate_ok g r1 hpb ha
  obtain ⟨h2, hr2⟩ := backpropagate_ok g r2 hpb hb
  have hs1 := backpropagate_sameTree g hpb ha hr1
  have hs2 := backpropagate_sameTree g hpb hb hr2
  have hpb1 := parentsBelow_same hs1 hpb
  have hpb2 := parentsBelow_same hs2 hpb
  have hb1 : b < h1.length := by rw [hs1.1]; exact hb
  have ha2 : a < h2.length := by rw [hs2.1]; exact ha
  obtain ⟨hab, hrab⟩ := backpropagate_ok g r2 hpb1 hb1
  obtain ⟨hba, hrba⟩ := backpropagate_ok g r1 hpb2 ha2
  have hsab := backpropagate_sameTree g hpb1 hb1 hrab
  have hsba := backpropagate_sameTree g hpb2 ha2 hrba
  refine ⟨h1, h2, hab, hba, hr1, hrab, hr2, hrba, ?_⟩
  apply List.ext_getElem?
  intro i
  by_cases hi : i < h.length
  · obtain ⟨x, hx⟩ := get_of_lt hi
    obtain ⟨y1, hy1, p1, c1, v1, u1, a1, k1⟩ := backpropagate_node g hpb ha hr1 i x hx
    obtain ⟨yab, hyab, p2, c2, v2, u2, a2, k2⟩ := backpropagate_node g hpb1 hb1 hrab i y1 hy1
    obtain ⟨y2, hy2, p3, c3, v3, u3, a3, k3⟩ := backpropagate_node g hpb hb hr2 i x hx
    obtain ⟨yba, hyba, p4, c4, v4, u4, a4, k4⟩ := backpropagate_node g hpb2 ha2 hrba i y2 hy2
    rw [hs1.parentOf_same, backpropagatedTerm_same g hs1 r2 p1] at k2
    rw [hs2.parentOf_same, backpropagatedTerm_same g hs2 r1 p3] at k4
    rw [hyab, hyba]
    refine congrArg some (node_ext (by rw [p2, p1, p4, p3]) (by rw [c2, c1, c4, c3])
      (by rw [v2, v1, v4, v3]) (by rw [u2, u1, u4, u3]) (by rw [a2, a1, a4, a3]) ?_ ?_)
    · rcases k1 with ⟨o1, n1, q1⟩ | ⟨o1, n1, q1⟩ <;>
        rcases k2 with ⟨o2, n2, q2⟩ | ⟨o2, n2, q2⟩ <;>
        rcases k3 with ⟨o3, n3, q3⟩ | ⟨o3, n3, q3⟩ <;>
        rcases k4 with ⟨o4, n4, q4⟩ | ⟨o4, n4, q4⟩ <;>
        first
          | exact absurd o1 o4
          | exact absurd o4 o1
          | exact absurd o2 o3
          | exact absurd o3 o2
          | linarith
    · rcases k1 with ⟨o1, n1, q1⟩ | ⟨o1, n1, q1⟩ <;>
        rcases k2 with ⟨o2, n2, q2⟩ | ⟨o2, n2, q2⟩ <;>
        rcases k3 with ⟨o3, n3, q3⟩ | ⟨o3, n3, q3⟩ <;>
        rcases k4 with ⟨o4, n4, q4⟩ | ⟨o4, n4, q4⟩ <;>
        first
          | exact absurd o1 o4
          | exact absurd o4 o1
          | exact absurd o2 o3
          | exact absurd o3 o2
          | omega
  · have e1 : hab[i]? = none := get_none_of_le (by rw [hsab.1, hs1.1]; omega)
    have e2 : hba[i]? = none := get_none_of_le (by rw [hsba.1, hs2.1]; omega)
    rw [e1, e2]

/-- C20 on the sample tree, for the backpropagations from the nodes `3`
and `2` with the results `1` and `-1`. -/
theorem backpropagations_commute_witness :
    ParentsBelow sampleTree ∧ 3 < sampleTree.length ∧ 2 < sampleTree.length ∧
    ∃ h1 h2 hab hba, backpropagate countdown sampleTree 3 1 = Except.ok h1 ∧
      backpropagate countdown h1 2 (-1) = Except.ok hab ∧
      backpropagate countdown sampleTree 2 (-1) = Except.ok h2 ∧
      backpropagate countdown h2 3 1 = Except.ok hba ∧ hab = hba :=
  ⟨sampleTree_parentsBelow, by decide, by decide,
    backpropagations_commute countdown sampleTree 3 2 1 (-1) sampleTree_parentsBelow
      (by decide) (by decide)⟩

end Commute

/-! ## The candidates of a selection -/

section Candidates

variable {S A : Type}

end Candidates

/-! ## The missing barrier -/

section Barrier

/-- C12: the code has no barrier.  In the run of the countdown game with
four simulations in which no goroutine gets to run before the loop ends, the
four leaves have been assigned, no backpropagation has finished, the root has
`n = 0`, and `MonteCarloTreeSearch` evaluates the final `uctBestChild` on that
heap and returns its action. -/
theorem MonteCarloTreeSearch_decides_before_backpropagations :
    searchLoop countdown sampleMath 3 takeOne detached 4 = Except.ok detachedRun ∧
    detachedRun.leaves.length = 4 ∧ detachedRun.done = [] ∧ visitsOf detachedRun.h 0 = 0 ∧
    uctBestChild sampleMath detachedRun.h 0 0 detached.rndFinal = Except.ok 1 ∧
    MonteCarloTreeSearch countdown sampleMath detached 3 takeOne 4 = Except.ok (some 1) :=
  ⟨by decide!, rfl, rfl, rfl, by decide!, by decide!⟩

end Barrier

/-! ## Children are allocated after their parent -/

section Descent

variable {S A : Type}

theorem child_below {h : Heap S A} (hw : WellFormed h) {node c : Nat} {x : Node S A}
    (hx : h[node]? = some x) (hc : c ∈ x.children) :
    parentOf h c = some node ∧ node < c ∧ c < h.length := by
  have hmem : c ∈ childrenOf h node := by rw [Gomcts.childrenOf_eq hx]; exact hc
  have hp := hw.child_parent node c hmem
  exact ⟨hp, hw.parents_below c node hp, hw.child_lt hmem⟩

end Descent

/-! ## Selection in a run without concurrency -/

section SequentialSelection

variable {S A : Type}

theorem treePolicyCalls_mem (g : Game S A) (m : GoMath) (h : Heap S A) :
    ∀ (fuel : Nat) (rnd : Nat → Nat) (node called : Nat),
      called ∈ treePolicyCalls g m fuel rnd h node →
      ∃ x, h[called]? = some x ∧ isTerminal g x = false ∧ isFullyExpanded x = true := by
  intro fuel
  induction fuel with
  | zero => intro rnd node called hc; simp [treePolicyCalls] at hc
  | succ f ih =>
    intro rnd node called hc
    cases hx : h[node]? with
    | none => simp [treePolicyCalls, load_none hx] at hc
    | some x =>
      cases hterm : isTerminal g x with
      | true => simp [treePolicyCalls, load_of_get hx, hterm] at hc
      | false =>
        cases hfull : isFullyExpanded x with
        | false => simp [treePolicyCalls, load_of_get hx, hterm, hfull] at hc
        | true =>
          simp only [treePolicyCalls, load_of_get hx, hterm, hfull, Bool.not_true,
            Bool.false_eq_true, if_false, List.mem_cons] at hc
          rcases hc with rfl | hc
          · exact ⟨x, hx, hterm, hfull⟩
          · cases hbest : uctBestChild m h node (14 / 10) (rnd 0) with
            | error e => simp [hbest] at hc
            | ok next =>
              rw [hbest] at hc
              exact ih _ next called hc

theorem searchLoop_leaves (g : Game S A) (m : GoMath) (state : S) (rolloutPolicy : S → A)
    (rt : Runtime) :
    ∀ (k : Nat) (st : Search S A), searchLoop g m state rolloutPolicy rt k = Except.ok st →
      ∀ i, 0 < i → i < st.h.length → i ∈ st.leaves := by
  intro k
  induction k with
  | zero =>
    intro st hs i hi hlt
    simp only [searchLoop, pure, Except.pure] at hs
    cases hs
    simp at hlt
    omega
  | succ k ih =>
    intro st' hs i hi hlt
    obtain ⟨st, hk, hit⟩ := searchLoop_succ_inv g m state rolloutPolicy rt hs
    obtain ⟨hinv, _⟩ := searchLoop_inv g m state rolloutPolicy rt k st hk
    obtain ⟨h1, leaf, ht, hr⟩ := iteration_ok_inv g m rolloutPolicy rt hit
    obtain ⟨st2, hr2, _, hsame, hl2, _⟩ :=
      runGoroutines_spec g rolloutPolicy rt (rt.sched k) _ (treePolicy_searchInv g m hinv ht)
    rw [hr] at hr2
    cases hr2
    rw [hl2]
    have hlt1 : i < h1.length := by
      have := hsame.1
      simp only at this
      omega
    show i ∈ st.leaves ++ [leaf]
    rcases treePolicyLoop_result g m _ _ _ _ _ _ ht with ⟨rfl, _⟩ | ⟨node', _, _, _, he⟩
    · exact List.mem_append_left _ (ih st hk i hi hlt1)
    · obtain ⟨x, a, rest, _, _, hleaf, hex⟩ := expand_ok_inv g he
      have hlen := hex.length_eq
      by_cases hil : i < st.h.length
      · exact List.mem_append_left _ (ih st hk i hi hil)
      · have : i = leaf := by omega
        rw [this]
        simp

/-- C17 as stated fails: in the game without legal actions the root is not
terminal and has no untried action, so the first `treePolicy` of a run without
concurrency calls `uctBestChild(1.4)` on the root, whose `n` is still `0`. -/
theorem treePolicy_selects_at_unvisited_root :
    sequential lockstep ∧
    searchLoop deadEnd sampleMath 5 takeOne lockstep 0 = Except.ok
      { h := [newMCTSNode deadEnd none 5 none], leaf := none, leaves := [], done := [] } ∧
    treePolicyCalls deadEnd sampleMath 1 (lockstep.rnd 0) [newMCTSNode deadEnd none 5 none] 0
      = [0] ∧
    visitsOf [newMCTSNode deadEnd none 5 none] 0 = 0 :=
  ⟨fun _ => rfl, rfl, by decide!, rfl⟩

/-- C17, amended: in a run without concurrency in which every started
backpropagation has finished, whenever the `treePolicy` of the next iteration
calls `uctBestChild(node, 1.4)`, the node is not terminal and is fully expanded,
every child of the node has `n ≥ 1`, and when the node has a child its `n` is
positive; so the score of every child is the number
`q/n + 1.4 * Sqrt(2 * Log(node.n) / n)`: the logarithm is defined and the branch
for `n == 0` is not taken. -/
theorem sequential_selection_sees_visited_nodes (g : Game S A) (m : GoMath) (state : S)
    (rolloutPolicy : S → A) (rt : Runtime) (k : Nat) (st : Search S A) (hseq : sequential rt)
    (hloop : searchLoop g m state rolloutPolicy rt k = Except.ok st)
    (hall : st.done.length = st.leaves.length) (node : Nat) (x : Node S A)
    (hcall : node ∈ treePolicyCalls g m st.h.length (rt.rnd k) st.h 0)
    (hx : st.h[node]? = some x) :
    isTerminal g x = false ∧ isFullyExpanded x = true ∧
    (x.children ≠ [] → 0 < x.n) ∧
    (∀ c ∈ x.children, 1 ≤ visitsOf st.h c) ∧
    (∀ c ∈ x.children, ∀ y, st.h[c]? = some y →
      uctScore m (14 / 10) x.n y
        = F64.fin (y.q / y.n + 14 / 10 * m.sqrtNonneg (2 * m.logPos x.n / y.n))) := by
  obtain ⟨x', hx', hterm, hfull⟩ := treePolicyCalls_mem g m st.h _ _ _ _ hcall
  rw [hx] at hx'
  cases hx'
  obtain ⟨hinv, _⟩ := searchLoop_inv g m state rolloutPolicy rt k st hloop
  have hdone : st.done = st.leaves := by
    rcases sequential_done g m state rolloutPolicy rt hseq k st hloop with heq | hlt
    · exact heq
    · omega
  have hleaves := searchLoop_leaves g m state rolloutPolicy rt k st hloop
  have hchildren : ∀ c ∈ x.children, 1 ≤ visitsOf st.h c := by
    intro c hc
    obtain ⟨_, hlt, hcl⟩ := child_below hinv.wf hx hc
    obtain ⟨y, hy⟩ := get_of_lt hcl
    have hcons := hinv.cons c y hy
    rw [hdone] at hcons
    have hcount : 0 < st.leaves.count c :=
      List.count_pos_iff.mpr (hleaves c (by omega) hcl)
    simp only [visitsOf, hy]
    omega
  have hnode : x.children ≠ [] → 0 < x.n := by
    intro hne
    obtain ⟨c, rest, hc⟩ := List.exists_cons_of_ne_nil hne
    have hmem : c ∈ x.children := by rw [hc]; exact List.mem_cons_self _ _
    have hle : visitsOf st.h c ≤ (x.children.map (visitsOf st.h)).sum :=
      List.le_sum_of_mem (List.mem_map_of_mem _ hmem)
    have := hinv.cons node x hx
    have := hchildren c hmem
    omega
  refine ⟨hterm, hfull, hnode, hchildren, ?_⟩
  intro c hc y hy
  have hyn : 0 < y.n := by
    have := hchildren c hc
    simpa [visitsOf, hy] using this
  have hxn : 0 < x.n := hnode (List.ne_nil_of_mem hc)
  exact (uctScore_visited m (14 / 10) hyn hxn).1

/-- C17 (amended) on the countdown game after four iterations without
concurrency: the fifth `treePolicy` calls `uctBestChild` on the root, which has
`n = 4`. -/
theorem sequential_selection_sees_visited_nodes_witness :
    sequential lockstep ∧
    searchLoop countdown sampleMath 3 takeOne lockstep 4 = Except.ok lockstepRun ∧
    lockstepRun.done.length = lockstepRun.leaves.length ∧
    0 ∈ treePolicyCalls countdown sampleMath lockstepRun.h.length (lockstep.rnd 4)
      lockstepRun.h 0 ∧
    lockstepRun.h[0]? = some lockstepRoot ∧
    isTerminal countdown lockstepRoot = false ∧ isFullyExpanded lockstepRoot = true ∧
    (lockstepRoot.children ≠ [] → 0 < lockstepRoot.n) ∧
    (∀ c ∈ lockstepRoot.children, 1 ≤ visitsOf lockstepRun.h c) ∧
    (∀ c ∈ lockstepRoot.children, ∀ y, lockstepRun.h[c]? = some y →
      uctScore sampleMath (14 / 10) lockstepRoot.n y
        = F64.fin (y.q / y.n
          + 14 / 10 * sampleMath.sqrtNonneg (2 * sampleMath.logPos lockstepRoot.n / y.n))) :=
  ⟨fun _ => rfl, lockstepRun_eq, rfl, by decide!, rfl,
    sequential_selection_sees_visited_nodes countdown sampleMath 3 takeOne lockstep 4
      lockstepRun (fun _ => rfl) lockstepRun_eq rfl 0 lockstepRoot (by decide!) rfl⟩

end SequentialSelection

/-! ## Rounding to float64 -/

namespace F64

end F64

/-! ## Backpropagation in float64 -/

namespace Binary64

section Heap64

variable {S A : Type}

theorem load_ok_iff64 {h : Heap S A} {p : Nat} {x : Node S A} :
    load h p = Except.ok x ↔ h[p]? = some x := by
  unfold load
  cases hp : h[p]? <;> simp

theorem load_of_get64 {h : Heap S A} {p : Nat} {x : Node S A} (hx : h[p]? = some x) :
    load h p = Except.ok x :=
  load_ok_iff64.mpr hx

theorem load_none64 {h : Heap S A} {p : Nat} (hx : h[p]? = none) :
    load h p = Except.error Fault.nilDeref := by
  unfold load
  rw [hx]

theorem store_length64 (h : Heap S A) (p : Nat) (x : Node S A) :
    (store h p x).length = h.length := by
  simp [store]

theorem store_get_same64 {h : Heap S A} {p : Nat} (x : Node S A) (hp : p < h.length) :
    (store h p x)[p]? = some x := by
  simp [store, List.getElem?_set, hp]

theorem store_get_other64 {h : Heap S A} {p i : Nat} (x : Node S A) (hpi : i ≠ p) :
    (store h p x)[i]? = h[i]? := by
  simp [store, List.getElem?_set, Ne.symm hpi]

theorem get_lt64 {h : Heap S A} {p : Nat} {x : Node S A} (hx : h[p]? = some x) :
    p < h.length :=
  (List.getElem?_eq_some.mp hx).1

theorem get_of_lt64 {h : Heap S A} {p : Nat} (hp : p < h.length) : ∃ x, h[p]? = some x :=
  ⟨h[p], List.getElem?_eq_getElem hp⟩

theorem parentOf_eq64 {h : Heap S A} {i : Nat} {x : Node S A} (hx : h[i]? = some x) :
    parentOf h i = x.parent := by
  simp [parentOf, hx]

theorem parentOf_store64 {h : Heap S A} {node : Nat} {x y : Node S A} (hx : h[node]? = some x)
    (hp : y.parent = x.parent) : parentOf (store h node y) = parentOf h := by
  funext i
  by_cases hi : i = node
  · subst hi
    rw [parentOf_eq64 (store_get_same64 y (get_lt64 hx)), parentOf_eq64 hx, hp]
  · simp [parentOf, store_get_other64 y hi]

theorem childrenOf_eq64 {h : Heap S A} {i : Nat} {x : Node S A} (hx : h[i]? = some x) :
    childrenOf h i = x.children := by
  simp [childrenOf, hx]

end Heap64

section Backpropagate64

variable {S A : Type}

theorem backpropagateStep_root (g : Game S A) (result : F64) {h : Heap S A} {node : Nat}
    {x : Node S A} (hx : h[node]? = some x) (hpar : x.parent = none) :
    backpropagateStep g result h node
      = Except.ok (store h node { x with n := x.n + 1 }, none) := by
  simp [backpropagateStep, load_of_get64 hx, isRoot, hpar, bind, Except.bind, pure, Except.pure]

theorem backpropagateStep_inner (g : Game S A) (result : F64) {h : Heap S A} {node p : Nat}
    {x px : Node S A} (hx : h[node]? = some x) (hpar : x.parent = some p)
    (hpx : h[p]? = some px) :
    backpropagateStep g result h node
      = Except.ok (store h node
          { x with q := add x.q (mul result (F64.round (g.NextToMove px.value : ℚ))),
                   n := x.n + 1 }, some p) := by
  simp [backpropagateStep, load_of_get64 hx, isRoot, hpar, load_of_get64 hpx, bind, Except.bind,
    pure, Except.pure]

theorem backpropagateLoop_spec64 (g : Game S A) (result : F64) :
    ∀ (fuel : Nat) (h : Heap S A) (node : Nat), ParentsBelow h → node < h.length →
      node < fuel →
      ∃ h', backpropagateLoop g result fuel h node = Except.ok h' ∧ h'.length = h.length ∧
        ∀ i x, h[i]? = some x →
          (OnPath (parentOf h) i node →
            (x.parent = none → h'[i]? = some { x with n := x.n + 1 }) ∧
            (∀ p px, x.parent = some p → h[p]? = some px →
              h'[i]? = some
                { x with q := add x.q (mul result (F64.round (g.NextToMove px.value : ℚ))),
                         n := x.n + 1 })) ∧
          (¬ OnPath (parentOf h) i node → h'[i]? = some x) := by
  intro fuel
  induction fuel with
  | zero => intro h node _ _ hf; omega
  | succ f ih =>
    intro h node hpb hnode hfuel
    obtain ⟨x, hx⟩ := get_of_lt64 hnode
    cases hpar : x.parent with
    | none =>
      refine ⟨store h node { x with n := x.n + 1 }, ?_, store_length64 _ _ _, ?_⟩
      · simp [backpropagateLoop, backpropagateStep_root g result hx hpar, bind, Except.bind, pure,
          Except.pure]
      · intro i y hy
        have hroot : parentOf h node = none := by rw [parentOf_eq64 hx, hpar]
        by_cases hi : i = node
        · subst hi
          rw [hx] at hy
          cases hy
          refine ⟨fun _ => ⟨fun _ => store_get_same64 _ hnode, ?_⟩, fun hno => ?_⟩
          · intro p px hp _
            rw [hpar] at hp
            cases hp
          · exact absurd (OnPath.self _) hno
        · refine ⟨fun hon => absurd (hon.of_root hroot) hi, fun _ => ?_⟩
          rw [store_get_other64 _ hi, hy]
    | some p =>
      have hpn : parentOf h node = some p := by rw [parentOf_eq64 hx, hpar]
      have hplt : p < node := hpb node p hpn
      obtain ⟨px, hpx⟩ := get_of_lt64 (Nat.lt_trans hplt hnode)
      obtain ⟨x', hx'⟩ : ∃ x' : Node S A,
          x' = { x with q := add x.q (mul result (F64.round (g.NextToMove px.value : ℚ))),
                        n := x.n + 1 } :=
        ⟨_, rfl⟩
      have hloop : backpropagateLoop g result (f + 1) h node
          = backpropagateLoop g result f (store h node x') p := by
        simp [backpropagateLoop, backpropagateStep_inner g result hx hpar hpx, bind, Except.bind,
          hx']
      have hx'par : x'.parent = x.parent := by rw [hx']
      have hx'val : x'.value = x.value := by rw [hx']
      have hshape : parentOf (store h node x') = parentOf h := parentOf_store64 hx hx'par
      obtain ⟨h', hrun, hlen, hspec⟩ := ih (store h node x') p
        (by intro i q hq; rw [hshape] at hq; exact hpb i q hq)
        (by rw [store_length64]; exact Nat.lt_trans hplt hnode) (by omega)
      rw [hshape] at hspec
      refine ⟨h', by rw [hloop]; exact hrun, by rw [hlen, store_length64], ?_⟩
      intro i y hy
      by_cases hi : i = node
      · subst hi
        rw [hx] at hy
        cases hy
        have hoff : ¬ OnPath (parentOf h) i p := fun hon =>
          absurd (hon.le hpb) (by omega)
        have hkeep := (hspec i _ (store_get_same64 x' hnode)).2 hoff
        refine ⟨fun _ => ⟨fun hnone => ?_, ?_⟩, fun hno => absurd (OnPath.self _) hno⟩
        · rw [hpar] at hnone
          cases hnone
        · intro p' px' hp' hpx'
          rw [hpar] at hp'
          cases hp'
          rw [hpx] at hpx'
          cases hpx'
          rw [hkeep, hx']
      · have hy1 := hy
        rw [← store_get_other64 x' hi] at hy1
        obtain ⟨hon, hoff⟩ := hspec i y hy1
        rw [OnPath.step_iff hpn hi]
        refine ⟨fun hp => ⟨(hon hp).1, ?_⟩, hoff⟩
        intro p' px' hp' hpx'
        by_cases hpnode : p' = node
        · subst hpnode
          rw [hx] at hpx'
          cases hpx'
          have hthis := (hon hp).2 p' x' hp' (store_get_same64 x' hnode)
          rw [hx'val] at hthis
          exact hthis
        · exact (hon hp).2 p' px' hp' (by rw [store_get_other64 x' hpnode]; exact hpx')

theorem add_mul_exact {q0 r0 : ℚ} {s : ℤ} (hs : F64.round (s : ℚ) = F64.fin s)
    (hp : F64.round (r0 * s) = F64.fin (r0 * s))
    (hsum : F64.round (q0 + r0 * s) = F64.fin (q0 + r0 * s)) :
    add (F64.fin q0) (mul (F64.fin r0) (F64.round (s : ℚ))) = F64.fin (q0 + r0 * s) := by
  simp [add, mul, F64.add, F64.mul, F64.rounded, hs, hp, hsum]

/-- C5 as stated fails: the child of this tree has `q = 10000000000000000`;
backpropagating the result `1` from it, with `NextToMove` of the state of its
parent equal to `1`, leaves its `q` as it was, not increased by `1`: the sum is
rounded to `float64`. -/
theorem backpropagate_absorbs_small_result :
    countdown.NextToMove 2 = 1 ∧
    backpropagate countdown heavyTree 1 (F64.fin 1) = Except.ok
      [ { parent := none, children := [1], value := 2, untriedActions := [2],
          causingAction := none, q := F64.fin 0, n := 2 },
        { parent := some 0, children := [], value := 1, untriedActions := [1],
          causingAction := some 1, q := F64.fin 10000000000000000, n := 2 } ] ∧
    (10000000000000000 : ℚ) + 1 * 1 ≠ 10000000000000000 :=
  ⟨rfl, by decide!, by norm_num⟩

/-- C5, amended: in a tree whose nodes were all allocated after their
parents, `backpropagate(node, result)` returns, and it changes exactly the
nodes on the path from `node` up to the root: a node of the path that has a
parent gets as `q` the `float64` sum of its `q` and the `float64` product of
`result` and `NextToMove` of the state of its parent, which is `q` increased by
exactly that product when the product and the sum are `float64` numbers, and
`n` increased by one; the root (the node of the path without a parent) gets `n`
increased by one and keeps its `q`; every node off the path is left as it
was. -/
theorem backpropagate_adds_rounded_along_the_path (g : Game S A) (h : Heap S A) (node : Nat)
    (result : F64) (hpb : ParentsBelow h) (hnode : node < h.length) :
    ∃ h', backpropagate g h node result = Except.ok h' ∧ h'.length = h.length ∧
      ∀ i x, h[i]? = some x →
        (OnPath (parentOf h) i node →
          (x.parent = none → h'[i]? = some { x with n := x.n + 1 }) ∧
          (∀ p px, x.parent = some p → h[p]? = some px →
            h'[i]? = some
              { x with q := add x.q (mul result (F64.round (g.NextToMove px.value : ℚ))),
                       n := x.n + 1 } ∧
            ∀ q0 r0 : ℚ, x.q = F64.fin q0 → result = F64.fin r0 →
              F64.round (g.NextToMove px.value : ℚ) = F64.fin (g.NextToMove px.value) →
              F64.round (r0 * g.NextToMove px.value) = F64.fin (r0 * g.NextToMove px.value) →
              F64.round (q0 + r0 * g.NextToMove px.value)
                = F64.fin (q0 + r0 * g.NextToMove px.value) →
              h'[i]? = some
                { x with q := F64.fin (q0 + r0 * g.NextToMove px.value), n := x.n + 1 })) ∧
        (¬ OnPath (parentOf h) i node → h'[i]? = some x) := by
  obtain ⟨h', hrun, hlen, hspec⟩ := backpropagateLoop_spec64 g result h.length h node hpb hnode
    hnode
  refine ⟨h', hrun, hlen, ?_⟩
  intro i x hx
  obtain ⟨hon, hoff⟩ := hspec i x hx
  refine ⟨fun hp => ⟨(hon hp).1, ?_⟩, hoff⟩
  intro p px hpar hpx
  have hmain := (hon hp).2 p px hpar hpx
  refine ⟨hmain, ?_⟩
  intro q0 r0 hq hr hs hprod hsum
  rw [hmain, hq, hr, add_mul_exact hs hprod hsum]

theorem sampleTree_parentsBelow64 : ParentsBelow sampleTree := by
  intro i p hp
  rcases i with _ | _ | _ | _ | i <;> simp [parentOf, sampleTree] at hp <;> omega

/-- C5 (amended) on the sample tree, from the grandchild at address `3`
with result `1`. -/
theorem backpropagate_adds_rounded_along_the_path_witness :
    ParentsBelow sampleTree ∧ 3 < sampleTree.length ∧
    ∃ h', backpropagate countdown sampleTree 3 (F64.fin 1) = Except.ok h' ∧
      h'.length = sampleTree.length ∧
      ∀ i x, sampleTree[i]? = some x →
        (OnPath (parentOf sampleTree) i 3 →
          (x.parent = none → h'[i]? = some { x with n := x.n + 1 }) ∧
          (∀ p px, x.parent = some p → sampleTree[p]? = some px →
            h'[i]? = some
              { x with q := add x.q (mul (F64.fin 1)
                              (F64.round (countdown.NextToMove px.value : ℚ))),
                       n := x.n + 1 } ∧
            ∀ q0 r0 : ℚ, x.q = F64.fin q0 → F64.fin 1 = F64.fin r0 →
              F64.round (countdown.NextToMove px.value : ℚ)
                = F64.fin (countdown.NextToMove px.value) →
              F64.round (r0 * countdown.NextToMove px.value)
                = F64.fin (r0 * countdown.NextToMove px.value) →
              F64.round (q0 + r0 * countdown.NextToMove px.value)
                = F64.fin (q0 + r0 * countdown.NextToMove px.value) →
              h'[i]? = some
                { x with q := F64.fin (q0 + r0 * countdown.NextToMove px.value),
                         n := x.n + 1 })) ∧
        (¬ OnPath (parentOf sampleTree) i 3 → h'[i]? = some x) :=
  ⟨sampleTree_parentsBelow64, by decide,
    backpropagate_adds_rounded_along_the_path countdown sampleTree 3 (F64.fin 1)
      sampleTree_parentsBelow64 (by decide)⟩

end Backpropagate64

end Binary64

/-! ## Comparisons of float64 -/

namespace F64

theorem gt_ne_nan {a b : F64} (h : gt a b = true) : a ≠ NaN ∧ b ≠ NaN := by
  cases a <;> cases b <;> simp [gt] at h ⊢

theorem gt_irrefl (a : F64) : gt a a = false := by
  cases a <;> simp [gt]

theorem gt_trans {a b c : F64} (hab : gt a b = true) (hbc : gt b c = true) : gt a c = true := by
  cases a <;> cases b <;> cases c <;> simp [gt] at hab hbc ⊢
  exact lt_trans hbc hab

theorem gt_asymm {a b : F64} (hab : gt a b = true) : gt b a = false := by
  cases a <;> cases b <;> simp [gt] at hab ⊢
  exact hab.le

theorem eq_iff_eq {a b : F64} (hb : b ≠ NaN) : eq a b = true ↔ a = b := by
  cases a <;> cases b <;> simp [eq] at hb ⊢

theorem eq_self {a : F64} (ha : a ≠ NaN) : eq a a = true :=
  (eq_iff_eq ha).mpr rfl

theorem gt_total {a b : F64} (ha : a ≠ NaN) (hb : b ≠ NaN) :
    gt a b = true ∨ a = b ∨ gt b a = true := by
  cases a <;> cases b <;> simp [gt] at ha hb ⊢
  rename_i x y
  rcases lt_trichotomy x y with h | h | h
  · exact Or.inr (Or.inr h)
  · exact Or.inr (Or.inl h)
  · exact Or.inl h

end F64

/-! ## The candidates of a selection in float64 -/

namespace Binary64

section Candidates64

variable {S A : Type}

theorem scoreOf_eq64 (m : GoMath) {h : Heap S A} (c : F64) (nodeN : Nat) {d : Nat}
    {y : Node S A} (hy : h[d]? = some y) : scoreOf m h c nodeN d = uctScore m c nodeN y := by
  simp [scoreOf, hy]

theorem uctLoop_filter64 (m : GoMath) (h : Heap S A) (c : F64) (nodeN : Nat) :
    ∀ (cs : List Nat) (mv : F64) (best : List Nat), mv ≠ F64.NaN →
      (∀ d ∈ cs, ∃ y, h[d]? = some y) →
      ∃ mv', uctLoop m h c nodeN cs (mv, best) = Except.ok (mv',
          (if mv' = mv then best else [])
            ++ cs.filter (fun d => F64.eq (scoreOf m h c nodeN d) mv')) ∧
        mv' ≠ F64.NaN ∧ (mv' = mv ∨ F64.gt mv' mv = true) ∧
        (∀ d ∈ cs, F64.gt (scoreOf m h c nodeN d) mv' = false) ∧
        (mv' = mv ∨ ∃ d ∈ cs, scoreOf m h c nodeN d = mv') := by
  intro cs
  induction cs with
  | nil =>
    intro mv best hmv _
    refine ⟨mv, by simp [uctLoop], hmv, Or.inl rfl, ?_, Or.inl rfl⟩
    intro d hd
    cases hd
  | cons d rest ih =>
    intro mv best hmv hall
    obtain ⟨y, hy⟩ := hall d (List.mem_cons_self _ _)
    have hrest : ∀ e ∈ rest, ∃ y, h[e]? = some y := fun e he =>
      hall e (List.mem_cons_of_mem _ he)
    have hsc := scoreOf_eq64 m c nodeN hy
    obtain ⟨v, hv⟩ : ∃ v, v = uctScore m c nodeN y := ⟨_, rfl⟩
    rw [← hv] at hsc
    by_cases hgt : F64.gt v mv = true
    · have hvn := (F64.gt_ne_nan hgt).1
      obtain ⟨mv', hrun, hnan, hord, hmax, hwho⟩ := ih v [d] hvn hrest
      have hgt' : F64.gt mv' mv = true := by
        rcases hord with heq | hg
        · rw [heq]
          exact hgt
        · exact F64.gt_trans hg hgt
      have hne : mv' ≠ mv := fun hcon => by
        rw [hcon, F64.gt_irrefl] at hgt'
        cases hgt'
      refine ⟨mv', ?_, hnan, Or.inr hgt', ?_, Or.inr ?_⟩
      · simp only [uctLoop, load_of_get64 hy, ← hv, hgt, bind, Except.bind, if_true]
        rw [hrun, if_neg hne, List.nil_append, List.filter_cons, hsc]
        by_cases hvm : mv' = v
        · simp [hvm, F64.eq_self hvn]
        · have : F64.eq v mv' = false := by
            cases hq : F64.eq v mv' with
            | false => rfl
            | true => exact absurd ((F64.eq_iff_eq hnan).mp hq).symm hvm
          simp [hvm, this]
      · intro e he
        rcases List.mem_cons.mp he with rfl | he
        · rw [hsc]
          rcases hord with heq | hg
          · rw [heq]
            exact F64.gt_irrefl _
          · exact F64.gt_asymm hg
        · exact hmax e he
      · rcases hwho with heq | ⟨e, he, hes⟩
        · exact ⟨d, List.mem_cons_self _ _, by rw [hsc, heq]⟩
        · exact ⟨e, List.mem_cons_of_mem _ he, hes⟩
    · have hgtf : F64.gt v mv = false := by
        cases hq : F64.gt v mv with
        | false => rfl
        | true => exact absurd hq hgt
      by_cases heq : F64.eq v mv = true
      · have hvmv : v = mv := (F64.eq_iff_eq hmv).mp heq
        obtain ⟨mv', hrun, hnan, hord, hmax, hwho⟩ := ih mv (best ++ [d]) hmv hrest
        refine ⟨mv', ?_, hnan, hord, ?_, ?_⟩
        · simp only [uctLoop, load_of_get64 hy, ← hv, hgtf, heq, bind, Except.bind, if_true]
          rw [hrun, List.filter_cons, hsc]
          by_cases hvm : mv' = mv
          · simp [hvm, hvmv, F64.eq_self hmv]
          · have : F64.eq v mv' = false := by
              cases hq : F64.eq v mv' with
              | false => rfl
              | true =>
                have := (F64.eq_iff_eq hnan).mp hq
                exact absurd (this.symm.trans hvmv) hvm
            simp [hvm, this]
        · intro e he
          rcases List.mem_cons.mp he with rfl | he
          · rw [hsc, hvmv]
            rcases hord with h0 | hg
            · rw [h0]
              exact F64.gt_irrefl _
            · exact F64.gt_asymm hg
          · exact hmax e he
        · rcases hwho with h0 | ⟨e, he, hes⟩
          · exact Or.inl h0
          · exact Or.inr ⟨e, List.mem_cons_of_mem _ he, hes⟩
      · have heqf : F64.eq v mv = false := by
          cases hq : F64.eq v mv with
          | false => rfl
          | true => exact absurd hq heq
        obtain ⟨mv', hrun, hnan, hord, hmax, hwho⟩ := ih mv best hmv hrest
        have hbelow : F64.gt v mv' = false ∧ F64.eq v mv' = false := by
          by_cases hvn : v = F64.NaN
          · rw [hvn]
            constructor
            · cases mv' <;> rfl
            · cases mv' <;> rfl
          · have hlt : F64.gt mv v = true := by
              rcases F64.gt_total hvn hmv with h1 | h1 | h1
              · rw [h1] at hgtf
                cases hgtf
              · rw [h1, F64.eq_self hmv] at heqf
                cases heqf
              · exact h1
            have hlt' : F64.gt mv' v = true := by
              rcases hord with h0 | hg
              · rw [h0]
                exact hlt
              · exact F64.gt_trans hg hlt
            refine ⟨F64.gt_asymm hlt', ?_⟩
            cases hq : F64.eq v mv' with
            | false => rfl
            | true =>
              have := (F64.eq_iff_eq hnan).mp hq
              rw [this, F64.gt_irrefl] at hlt'
              cases hlt'
        refine ⟨mv', ?_, hnan, hord, ?_, ?_⟩
        · simp only [uctLoop, load_of_get64 hy, ← hv, hgtf, heqf, bind, Except.bind]
          rw [hrun, List.filter_cons, hsc]
          simp [hbelow.2]
        · intro e he
          rcases List.mem_cons.mp he with rfl | he
          · rw [hsc]
            exact hbelow.1
          · exact hmax e he
        · rcases hwho with h0 | ⟨e, he, hes⟩
          · exact Or.inl h0
          · exact Or.inr ⟨e, List.mem_cons_of_mem _ he, hes⟩

theorem uctBestChild_candidates64 (m : GoMath) {h : Heap S A} {node : Nat} {x : Node S A}
    (c : F64) (hx : h[node]? = some x) (hvalid : ∀ d ∈ x.children, ∃ y, h[d]? = some y)
    (hsome : ∃ d ∈ x.children, ge (scoreOf m h c x.n d) (F64.fin (-MaxFloat64)) = true) :
    ∃ M, M ≠ F64.NaN ∧
      uctLoop m h c x.n x.children (F64.fin (-MaxFloat64), [])
        = Except.ok (M, x.children.filter (fun d => F64.eq (scoreOf m h c x.n d) M)) ∧
      (∃ d ∈ x.children, scoreOf m h c x.n d = M) ∧
      (∀ d ∈ x.children, F64.gt (scoreOf m h c x.n d) M = false) ∧
      x.children.filter (fun d => F64.eq (scoreOf m h c x.n d) M) ≠ [] ∧
      ∀ r, ∃ best,
        (x.children.filter (fun d => F64.eq (scoreOf m h c x.n d) M))[r %
          (x.children.filter (fun d => F64.eq (scoreOf m h c x.n d) M)).length]?
          = some best ∧
        uctBestChild m h node c r = Except.ok best := by
  obtain ⟨M, hrun, hnan, _, hmax, hwho⟩ :=
    uctLoop_filter64 m h c x.n x.children (F64.fin (-MaxFloat64)) [] (by simp) hvalid
  have hrun' : uctLoop m h c x.n x.children (F64.fin (-MaxFloat64), [])
      = Except.ok (M, x.children.filter (fun d => F64.eq (scoreOf m h c x.n d) M)) := by
    rw [hrun]
    by_cases hM : M = F64.fin (-MaxFloat64) <;> simp [hM]
  have hattained : ∃ d ∈ x.children, scoreOf m h c x.n d = M := by
    rcases hwho with hM | hd
    · obtain ⟨d, hd, hge⟩ := hsome
      refine ⟨d, hd, ?_⟩
      simp only [ge, Bool.or_eq_true] at hge
      rcases hge with hg | he
      · have := hmax d hd
        rw [hM, hg] at this
        cases this
      · rw [hM]
        exact (F64.eq_iff_eq (by simp)).mp he
    · exact hd
  have hne : x.children.filter (fun d => F64.eq (scoreOf m h c x.n d) M) ≠ [] := by
    obtain ⟨d, hd, hdM⟩ := hattained
    intro hnil
    have hmem : d ∈ x.children.filter (fun d => F64.eq (scoreOf m h c x.n d) M) := by
      rw [List.mem_filter]
      exact ⟨hd, by rw [hdM]; exact F64.eq_self hnan⟩
    rw [hnil] at hmem
    cases hmem
  refine ⟨M, hnan, hrun', hattained, hmax, hne, ?_⟩
  intro r
  have hpos := List.length_pos.mpr hne
  have hidx := Nat.mod_lt r hpos
  refine ⟨_, List.getElem?_eq_getElem hidx, ?_⟩
  simp only [uctBestChild, load_of_get64 hx, hrun', bind, Except.bind]
  rw [if_neg (by omega), List.getElem?_eq_getElem hidx]
  rfl

end Candidates64

end Binary64

/-! ## The final choice in float64 -/

namespace Binary64

section Zero64

variable {S A : Type}

end Zero64

end Binary64

namespace Binary64

section Selection64

variable {S A : Type}

/-- C16 as stated fails: the root of this tree has a child, but with
`n = 0` at the root the score of the visited child is `NaN`; the loop ends with
no candidate and `uctBestChild(1.4)` returns no node. -/
theorem uctBestChild_no_candidate_for_nan_scores :
    ∃ x : Node Nat Nat, racedTree[0]? = some x ∧ x.children = [1] ∧
      scoreOf sampleMath racedTree (F64.round (14 / 10)) x.n 1 = F64.NaN ∧
      uctLoop sampleMath racedTree (F64.round (14 / 10)) x.n x.children
        (F64.fin (-MaxFloat64), []) = Except.ok (F64.fin (-MaxFloat64), []) ∧
      uctBestChild sampleMath racedTree 0 (F64.round (14 / 10)) 0
        = Except.error Fault.randIntArg :=
  ⟨_, rfl, rfl, by decide!, by decide!, by decide!⟩

/-- C16, amended: for every node one of whose children has a score that is
a number not below `-MaxFloat64`, and every `c`, the candidate list the loop of
`uctBestChild` builds is exactly the children whose `float64` score equals the
greatest score, in child order: that score is a number, a child has it, and no
child has a greater one (a `NaN` score is no candidate).  The returned node is
the element of that list at the drawn index, so it is a child with the greatest
score; for each of the `K` indices below the length of the list the call
returns the element at that index, and the elements are pairwise distinct when
the children are. -/
theorem uctBestChild_draws_among_greatest_scores (m : GoMath) (h : Heap S A) (node : Nat)
    (x : Node S A) (c : F64) (hx : h[node]? = some x)
    (hvalid : ∀ d ∈ x.children, ∃ y, h[d]? = some y)
    (hsome : ∃ d ∈ x.children, ge (scoreOf m h c x.n d) (F64.fin (-MaxFloat64)) = true) :
    ∃ M cands, M ≠ F64.NaN ∧
      cands = x.children.filter (fun d => F64.eq (scoreOf m h c x.n d) M) ∧
      uctLoop m h c x.n x.children (F64.fin (-MaxFloat64), []) = Except.ok (M, cands) ∧
      (∃ d ∈ x.children, scoreOf m h c x.n d = M) ∧
      (∀ d ∈ x.children, F64.gt (scoreOf m h c x.n d) M = false) ∧
      0 < cands.length ∧
      (∀ r, ∃ best, cands[r % cands.length]? = some best ∧
        uctBestChild m h node c r = Except.ok best ∧ best ∈ x.children ∧
        scoreOf m h c x.n best = M) ∧
      (∀ j, j < cands.length → ∃ best, cands[j]? = some best ∧
        uctBestChild m h node c j = Except.ok best) ∧
      (x.children.Nodup → cands.Nodup) := by
  obtain ⟨M, hnan, hrun, hatt, hmax, hne, hdraw⟩ := uctBestChild_candidates64 m c hx hvalid hsome
  refine ⟨M, _, hnan, rfl, hrun, hatt, hmax, List.length_pos.mpr hne, ?_, ?_, ?_⟩
  · intro r
    obtain ⟨best, hb, hres⟩ := hdraw r
    have hmem := List.getElem?_mem hb
    rw [List.mem_filter] at hmem
    exact ⟨best, hb, hres, hmem.1, (F64.eq_iff_eq hnan).mp hmem.2⟩
  · intro j hj
    obtain ⟨best, hb, hres⟩ := hdraw j
    rw [Nat.mod_eq_of_lt hj] at hb
    exact ⟨best, hb, hres⟩
  · intro hnd
    exact hnd.filter _

theorem tieTree_valid : ∀ d ∈ tieRoot.children, ∃ y, tieTree[d]? = some y ∧ 0 < y.n := by
  intro d hd
  have hd' : d ∈ [1, 2] := hd
  simp only [List.mem_cons, List.mem_singleton, List.not_mem_nil, or_false] at hd'
  rcases hd' with rfl | rfl
  · exact ⟨_, rfl, by decide⟩
  · exact ⟨_, rfl, by decide⟩

/-- C16 (amended) at the root of the tree with two children of which one
has the quotient `1 / 3` and the other `q = 1/3` rounded, with `c = 0`: the two
scores are the same `float64`, and both children are candidates. -/
theorem uctBestChild_draws_among_greatest_scores_witness :
    tieTree[0]? = some tieRoot ∧
    (∀ d ∈ tieRoot.children, ∃ y, tieTree[d]? = some y) ∧
    (∃ d ∈ tieRoot.children,
      ge (scoreOf sampleMath tieTree (F64.fin 0) tieRoot.n d) (F64.fin (-MaxFloat64)) = true) ∧
    ∃ M cands, M ≠ F64.NaN ∧
      cands = tieRoot.children.filter
        (fun d => F64.eq (scoreOf sampleMath tieTree (F64.fin 0) tieRoot.n d) M) ∧
      uctLoop sampleMath tieTree (F64.fin 0) tieRoot.n tieRoot.children
          (F64.fin (-MaxFloat64), []) = Except.ok (M, cands) ∧
      (∃ d ∈ tieRoot.children, scoreOf sampleMath tieTree (F64.fin 0) tieRoot.n d = M) ∧
      (∀ d ∈ tieRoot.children,
        F64.gt (scoreOf sampleMath tieTree (F64.fin 0) tieRoot.n d) M = false) ∧
      0 < cands.length ∧
      (∀ r, ∃ best, cands[r % cands.length]? = some best ∧
        uctBestChild sampleMath tieTree 0 (F64.fin 0) r = Except.ok best ∧
        best ∈ tieRoot.children ∧
        scoreOf sampleMath tieTree (F64.fin 0) tieRoot.n best = M) ∧
      (∀ j, j < cands.length → ∃ best, cands[j]? = some best ∧
        uctBestChild sampleMath tieTree 0 (F64.fin 0) j = Except.ok best) ∧
      (tieRoot.children.Nodup → cands.Nodup) :=
  have hvalid : ∀ d ∈ tieRoot.children, ∃ y, tieTree[d]? = some y := fun d hd => by
    obtain ⟨y, hy, _⟩ := tieTree_valid d hd
    exact ⟨y, hy⟩
  have hsome : ∃ d ∈ tieRoot.children,
      ge (scoreOf sampleMath tieTree (F64.fin 0) tieRoot.n d) (F64.fin (-MaxFloat64)) = true :=
    ⟨1, by decide, by decide!⟩
  ⟨rfl, hvalid, hsome,
    uctBestChild_draws_among_greatest_scores sampleMath tieTree 0 tieRoot (F64.fin 0) rfl
      hvalid hsome⟩

end Selection64

end Binary64

/-! ## Termination of the tree policy in float64 -/

namespace Binary64

section Descent64

variable {S A : Type}

theorem expand_eq64 (g : Game S A) {h : Heap S A} {node : Nat} {x : Node S A} {a : A}
    {rest : List A} (hx : h[node]? = some x) (hu : x.untriedActions = a :: rest) :
    expand g h node = Except.ok
      (store h node { x with untriedActions := rest, children := x.children ++ [h.length] }
        ++ [newMCTSNode g (some node) (g.ApplyTo a x.value) (some a)], h.length) := by
  have hlt := get_lt64 hx
  have h1 : (store h node { x with untriedActions := rest }
      ++ [newMCTSNode g (some node) (g.ApplyTo a x.value) (some a)])[node]?
      = some { x with untriedActions := rest } := by
    rw [List.getElem?_append_left (by rw [store_length64]; exact hlt)]
    exact store_get_same64 _ hlt
  simp only [expand, load_of_get64 hx, popFirstUntriedAction, hu, bind, Except.bind, pure,
    Except.pure, load_of_get64 h1, addChild]
  congr 2
  simp [store, List.set_append, hlt]

theorem expand_ok_child64 (g : Game S A) {h h' : Heap S A} {node child : Nat}
    (he : expand g h node = Except.ok (h', child)) :
    ∃ x a rest, h[node]? = some x ∧ x.untriedActions = a :: rest ∧ child = h.length ∧
      h'[h.length]? = some (newMCTSNode g (some node) (g.ApplyTo a x.value) (some a)) := by
  cases hx : h[node]? with
  | none => simp [expand, load_none64 hx, bind, Except.bind] at he
  | some x =>
    cases hu : x.untriedActions with
    | nil =>
      simp [expand, load_of_get64 hx, popFirstUntriedAction, hu, bind, Except.bind] at he
    | cons a rest =>
      rw [expand_eq64 g hx hu] at he
      simp only [Except.ok.injEq, Prod.mk.injEq] at he
      obtain ⟨hh, hc⟩ := he
      refine ⟨x, a, rest, rfl, hu, hc.symm, ?_⟩
      rw [← hh, List.getElem?_append_right (by rw [store_length64])]
      simp [store_length64]

theorem uctLoop_subset64 (m : GoMath) (h : Heap S A) (c : F64) (nodeN : Nat) :
    ∀ (cs : List Nat) (acc res : F64 × List Nat),
      uctLoop m h c nodeN cs acc = Except.ok res → ∀ b ∈ res.2, b ∈ acc.2 ∨ b ∈ cs := by
  intro cs
  induction cs with
  | nil =>
    intro acc res hrun b hb
    simp only [uctLoop, Except.ok.injEq] at hrun
    rw [← hrun] at hb
    exact Or.inl hb
  | cons d rest ih =>
    intro acc res hrun b hb
    obtain ⟨mv, best⟩ := acc
    cases hy : h[d]? with
    | none => simp [uctLoop, load_none64 hy, bind, Except.bind] at hrun
    | some y =>
      simp only [uctLoop, load_of_get64 hy, bind, Except.bind] at hrun
      by_cases hgt : F64.gt (uctScore m c nodeN y) mv = true
      · rw [if_pos hgt] at hrun
        rcases ih _ res hrun b hb with h1 | h1
        · simp only [List.mem_singleton] at h1
          exact Or.inr (h1 ▸ List.mem_cons_self _ _)
        · exact Or.inr (List.mem_cons_of_mem _ h1)
      · rw [if_neg hgt] at hrun
        by_cases heq : F64.eq (uctScore m c nodeN y) mv = true
        · rw [if_pos heq] at hrun
          rcases ih _ res hrun b hb with h1 | h1
          · rcases List.mem_append.mp h1 with h2 | h2
            · exact Or.inl h2
            · simp only [List.mem_singleton] at h2
              exact Or.inr (h2 ▸ List.mem_cons_self _ _)
          · exact Or.inr (List.mem_cons_of_mem _ h1)
        · rw [if_neg heq] at hrun
          rcases ih _ res hrun b hb with h1 | h1
          · exact Or.inl h1
          · exact Or.inr (List.mem_cons_of_mem _ h1)

theorem uctLoop_not_outOfFuel64 (m : GoMath) (h : Heap S A) (c : F64) (nodeN : Nat) :
    ∀ (cs : List Nat) (acc : F64 × List Nat),
      uctLoop m h c nodeN cs acc ≠ Except.error Fault.outOfFuel := by
  intro cs
  induction cs with
  | nil => intro acc; simp [uctLoop]
  | cons d rest ih =>
    intro acc
    obtain ⟨mv, best⟩ := acc
    cases hy : h[d]? with
    | none => simp [uctLoop, load_none64 hy, bind, Except.bind]
    | some y =>
      simp only [uctLoop, load_of_get64 hy, bind, Except.bind]
      split
      · exact ih _
      · split
        · exact ih _
        · exact ih _

theorem uctBestChild_ok_mem64 (m : GoMath) {h : Heap S A} {node best : Nat} {x : Node S A}
    {c : F64} {r : Nat} (hx : h[node]? = some x)
    (hrun : uctBestChild m h node c r = Except.ok best) : best ∈ x.children := by
  cases hloop : uctLoop m h c x.n x.children (F64.fin (-MaxFloat64), []) with
  | error e => simp [uctBestChild, load_of_get64 hx, hloop, bind, Except.bind] at hrun
  | ok res =>
    obtain ⟨mv, cands⟩ := res
    simp only [uctBestChild, load_of_get64 hx, hloop, bind, Except.bind] at hrun
    by_cases hlen : cands.length ≤ 0
    · simp [hlen] at hrun
    · rw [if_neg hlen] at hrun
      cases hget : cands[r % cands.length]? with
      | none => simp [hget] at hrun
      | some b =>
        simp only [hget, pure, Except.pure, Except.ok.injEq] at hrun
        subst hrun
        rcases uctLoop_subset64 m h c x.n _ _ _ hloop b (List.getElem?_mem hget) with h1 | h1
        · cases h1
        · exact h1

theorem uctBestChild_not_outOfFuel64 (m : GoMath) (h : Heap S A) (node : Nat) (c : F64)
    (r : Nat) : uctBestChild m h node c r ≠ Except.error Fault.outOfFuel := by
  cases hx : h[node]? with
  | none => simp [uctBestChild, load_none64 hx, bind, Except.bind]
  | some x =>
    cases hloop : uctLoop m h c x.n x.children (F64.fin (-MaxFloat64), []) with
    | error e =>
      have hne := uctLoop_not_outOfFuel64 m h c x.n x.children (F64.fin (-MaxFloat64), [])
      rw [hloop] at hne
      have he : e ≠ Fault.outOfFuel := fun hcon => hne (by rw [hcon])
      simp [uctBestChild, load_of_get64 hx, hloop, bind, Except.bind, he]
    | ok res =>
      obtain ⟨mv, cands⟩ := res
      simp only [uctBestChild, load_of_get64 hx, hloop, bind, Except.bind]
      split
      · simp
      · split <;> simp [pure, Except.pure]

theorem parentOf_lt_length64 {h : Heap S A} {i p : Nat} (hp : parentOf h i = some p) :
    i < h.length := by
  cases hi : h[i]? with
  | none => simp [parentOf, hi] at hp
  | some x => exact get_lt64 hi

theorem child_below64 {h : Heap S A} (hw : WellFormed h) {node c : Nat} {x : Node S A}
    (hx : h[node]? = some x) (hc : c ∈ x.children) :
    parentOf h c = some node ∧ node < c ∧ c < h.length := by
  have hmem : c ∈ childrenOf h node := by rw [childrenOf_eq64 hx]; exact hc
  have hp := hw.child_parent node c hmem
  exact ⟨hp, hw.parents_below c node hp, parentOf_lt_length64 hp⟩

theorem treePolicyLoop_fuel64 (g : Game S A) (m : GoMath) {h : Heap S A} (hw : WellFormed h) :
    ∀ (fuel : Nat) (rnd : Nat → Nat) (node : Nat), node < h.length → h.length ≤ node + fuel →
      treePolicyLoop g m fuel rnd h node ≠ Except.error Fault.outOfFuel ∧
      ∀ extra, treePolicyLoop g m (fuel + extra) rnd h node
        = treePolicyLoop g m fuel rnd h node := by
  intro fuel
  induction fuel with
  | zero => intro rnd node h1 h2; omega
  | succ f ih =>
    intro rnd node hnode hfuel
    obtain ⟨x, hx⟩ := get_of_lt64 hnode
    have hshift : ∀ extra, f + 1 + extra = (f + extra) + 1 := fun extra => by omega
    cases hterm : isTerminal g x with
    | true =>
      refine ⟨?_, fun extra => ?_⟩
      · simp [treePolicyLoop, load_of_get64 hx, hterm, bind, Except.bind, pure, Except.pure]
      · rw [hshift]
        simp [treePolicyLoop, load_of_get64 hx, hterm, bind, Except.bind]
    | false =>
      cases hfull : isFullyExpanded x with
      | false =>
        refine ⟨?_, fun extra => ?_⟩
        · cases hu : x.untriedActions with
          | nil => simp [isFullyExpanded, hu] at hfull
          | cons a rest =>
            simp [treePolicyLoop, load_of_get64 hx, hterm, hfull, bind, Except.bind,
              expand_eq64 g hx hu]
        · rw [hshift]
          simp [treePolicyLoop, load_of_get64 hx, hterm, hfull, bind, Except.bind]
      | true =>
        cases hbest : uctBestChild m h node (F64.round (14 / 10)) (rnd 0) with
        | error e =>
          have hne := uctBestChild_not_outOfFuel64 m h node (F64.round (14 / 10)) (rnd 0)
          rw [hbest] at hne
          have he : e ≠ Fault.outOfFuel := fun hcon => hne (by rw [hcon])
          refine ⟨?_, fun extra => ?_⟩
          · simp [treePolicyLoop, load_of_get64 hx, hterm, hfull, hbest, bind, Except.bind, he]
          · rw [hshift]
            simp [treePolicyLoop, load_of_get64 hx, hterm, hfull, hbest, bind, Except.bind]
        | ok next =>
          obtain ⟨_, hlt, hnext⟩ := child_below64 hw hx (uctBestChild_ok_mem64 m hx hbest)
          obtain ⟨hne, hsame⟩ := ih (fun k => rnd (k + 1)) next hnext (by omega)
          refine ⟨?_, fun extra => ?_⟩
          · simp only [treePolicyLoop, load_of_get64 hx, hterm, hfull, hbest, bind, Except.bind]
            simpa using hne
          · rw [hshift]
            simp only [treePolicyLoop, load_of_get64 hx, hterm, hfull, hbest, bind, Except.bind]
            simpa using hsame extra

theorem treePolicyLoop_path64 (g : Game S A) (m : GoMath) {h : Heap S A} (hw : WellFormed h) :
    ∀ (fuel : Nat) (rnd : Nat → Nat) (node : Nat) (h' : Heap S A) (leaf : Nat),
      treePolicyLoop g m fuel rnd h node = Except.ok (h', leaf) →
      ∃ stop, OnPath (parentOf h) node stop ∧
        (∀ a, OnPath (parentOf h) a stop → a ≠ stop →
          (∃ y, h[a]? = some y ∧ isTerminal g y = false ∧ isFullyExpanded y = true) ∨
          (OnPath (parentOf h) a node ∧ a ≠ node)) ∧
        ((h' = h ∧ leaf = stop ∧ ∃ y, h[stop]? = some y ∧ isTerminal g y = true) ∨
          (∃ y, h[stop]? = some y ∧ isTerminal g y = false ∧ isFullyExpanded y = false ∧
            expand g h stop = Except.ok (h', leaf))) := by
  intro fuel
  induction fuel with
  | zero => intro rnd node h' leaf ht; simp [treePolicyLoop] at ht
  | succ f ih =>
    intro rnd node h' leaf ht
    cases hx : h[node]? with
    | none => simp [treePolicyLoop, load_none64 hx, bind, Except.bind] at ht
    | some x =>
      cases hterm : isTerminal g x with
      | true =>
        simp [treePolicyLoop, load_of_get64 hx, hterm, bind, Except.bind, pure, Except.pure]
          at ht
        obtain ⟨rfl, rfl⟩ := ht
        exact ⟨node, OnPath.self node, fun a ha hne => Or.inr ⟨ha, hne⟩,
          Or.inl ⟨rfl, rfl, x, hx, hterm⟩⟩
      | false =>
        cases hfull : isFullyExpanded x with
        | false =>
          simp [treePolicyLoop, load_of_get64 hx, hterm, hfull, bind, Except.bind] at ht
          exact ⟨node, OnPath.self node, fun a ha hne => Or.inr ⟨ha, hne⟩,
            Or.inr ⟨x, hx, hterm, hfull, ht⟩⟩
        | true =>
          cases hbest : uctBestChild m h node (F64.round (14 / 10)) (rnd 0) with
          | error e =>
            simp [treePolicyLoop, load_of_get64 hx, hterm, hfull, hbest, bind, Except.bind]
              at ht
          | ok next =>
            simp only [treePolicyLoop, load_of_get64 hx, hterm, hfull, hbest, bind,
              Except.bind] at ht
            obtain ⟨hpar, _, _⟩ := child_below64 hw hx (uctBestChild_ok_mem64 m hx hbest)
            obtain ⟨stop, hon, hmid, hend⟩ := ih _ next h' leaf (by simpa using ht)
            refine ⟨stop, hon.parent_on hpar, ?_, hend⟩
            intro a ha hne
            rcases hmid a ha hne with hP | ⟨hanext, hnen⟩
            · exact Or.inl hP
            · have hanode := (OnPath.step_iff hpar hnen).mp hanext
              by_cases han : a = node
              · subst han
                exact Or.inl ⟨x, hx, hterm, hfull⟩
              · exact Or.inr ⟨hanode, han⟩

theorem treePolicyLoop_returns64 (g : Game S A) (m : GoMath) {h : Heap S A}
    (hw : WellFormed h)
    (hscore : ∀ (i : Nat) (y : Node S A), h[i]? = some y → isTerminal g y = false →
      isFullyExpanded y = true → ∃ d ∈ y.children,
        ge (scoreOf m h (F64.round (14 / 10)) y.n d) (F64.fin (-MaxFloat64)) = true) :
    ∀ (fuel : Nat) (rnd : Nat → Nat) (node : Nat), node < h.length → h.length ≤ node + fuel →
      ∃ h' leaf, treePolicyLoop g m fuel rnd h node = Except.ok (h', leaf) := by
  intro fuel
  induction fuel with
  | zero => intro rnd node h1 h2; omega
  | succ f ih =>
    intro rnd node hnode hfuel
    obtain ⟨x, hx⟩ := get_of_lt64 hnode
    cases hterm : isTerminal g x with
    | true =>
      exact ⟨h, node, by
        simp [treePolicyLoop, load_of_get64 hx, hterm, bind, Except.bind, pure, Except.pure]⟩
    | false =>
      cases hfull : isFullyExpanded x with
      | false =>
        cases hu : x.untriedActions with
        | nil => simp [isFullyExpanded, hu] at hfull
        | cons a rest =>
          have he := expand_eq64 g hx hu
          exact ⟨_, _, by
            simp only [treePolicyLoop, load_of_get64 hx, hterm, hfull, bind, Except.bind]
            exact he⟩
      | true =>
        have hvalid : ∀ d ∈ x.children, ∃ y, h[d]? = some y := fun d hd =>
          get_of_lt64 (child_below64 hw hx hd).2.2
        obtain ⟨_, _, _, _, _, _, hdraw⟩ := uctBestChild_candidates64 m (F64.round (14 / 10)) hx
          hvalid (hscore node x hx hterm hfull)
        obtain ⟨next, _, hbest⟩ := hdraw (rnd 0)
        obtain ⟨_, hlt, hnext⟩ := child_below64 hw hx (uctBestChild_ok_mem64 m hx hbest)
        obtain ⟨h', leaf, hrec⟩ := ih (fun k => rnd (k + 1)) next hnext (by omega)
        exact ⟨h', leaf, by
          simp [treePolicyLoop, load_of_get64 hx, hterm, hfull, bind, Except.bind, hbest,
            hrec]⟩

theorem stalledTree_wellFormed : WellFormed stalledTree := by
  refine ⟨⟨by decide, rfl⟩, ?_, ?_, ?_, ?_, ?_⟩
  · intro i p hp
    rcases i with _ | _ | i <;> simp [parentOf, stalledTree] at hp
    omega
  · intro i hi hp
    rcases i with _ | _ | i
    · rfl
    · simp [parentOf, stalledTree] at hp
    · have hlen : (stalledTree : Heap Nat Nat).length = 2 := rfl
      omega
  · intro i p hp
    rcases i with _ | _ | i <;> simp [parentOf, stalledTree] at hp
    subst hp
    simp [childrenOf, stalledTree]
  · intro p c hc
    rcases p with _ | _ | p <;> simp [childrenOf, stalledTree] at hc
    subst hc
    simp [parentOf, stalledTree]
  · intro p
    rcases p with _ | _ | p <;> simp [childrenOf, stalledTree]

/-- C15 as stated fails: this heap holds a finite tree whose root is not
terminal, is fully expanded and has a child, and whose other node is terminal;
the root has `n = 0` and its child `n = 1`, so the score of the child is `NaN`,
`uctBestChild(1.4)` finds no candidate, and `treePolicy(root)` returns no
node. -/
theorem treePolicy_stalls_under_unvisited_root :
    WellFormed stalledTree ∧
    (∀ (i : Nat) (y : Node Nat Nat), stalledTree[i]? = some y → isTerminal countdown y = false →
      isFullyExpanded y = true → y.children ≠ []) ∧
    scoreOf sampleMath stalledTree (F64.round (14 / 10)) 0 1 = F64.NaN ∧
    treePolicy countdown sampleMath (fun k => k) stalledTree 0
      = Except.error Fault.randIntArg := by
  refine ⟨stalledTree_wellFormed, ?_, by decide!, by decide!⟩
  intro i y hy hterm _
  rcases i with _ | _ | i
  · simp [stalledTree] at hy
    subst hy
    simp
  · simp [stalledTree] at hy
    subst hy
    simp [isTerminal, countdown] at hterm
  · simp [stalledTree] at hy

/-- C15, amended: on a heap that holds one tree, `treePolicy(root)` does
not descend forever: the descent, which goes from a node to one of its
children, ends within as many steps as the heap has nodes, and more steps
change nothing.  A node it returns is reached from the root through nodes that
are not terminal and fully expanded, and it is either a terminal node of the
tree, the heap being left as it was, or a node created by this call, with
`n = 0`, `q = 0` and no children, the new child of a node that was not terminal
and not fully expanded.  The call returns when each node that is not terminal
and is fully expanded has a child whose score for `c = 1.4` is a number not
below `-MaxFloat64`. -/
theorem treePolicy_ends_at_fresh_or_terminal (g : Game S A) (m : GoMath) (h : Heap S A)
    (rnd : Nat → Nat) (hw : WellFormed h) :
    (treePolicy g m rnd h 0 ≠ Except.error Fault.outOfFuel ∧
      ∀ fuel, h.length ≤ fuel → treePolicyLoop g m fuel rnd h 0 = treePolicy g m rnd h 0) ∧
    (∀ (h' : Heap S A) (leaf : Nat), treePolicy g m rnd h 0 = Except.ok (h', leaf) →
      ∃ stop, OnPath (parentOf h) 0 stop ∧
        (∀ a, OnPath (parentOf h) a stop → a ≠ stop →
          ∃ y, h[a]? = some y ∧ isTerminal g y = false ∧ isFullyExpanded y = true) ∧
        ((h' = h ∧ leaf = stop ∧ ∃ y, h[stop]? = some y ∧ isTerminal g y = true) ∨
          (leaf = h.length ∧
            (∃ y, h[stop]? = some y ∧ isTerminal g y = false ∧ isFullyExpanded y = false) ∧
            ∃ z, h'[leaf]? = some z ∧ z.parent = some stop ∧ z.n = 0 ∧ z.q = F64.fin 0 ∧
              z.children = []))) ∧
    ((∀ (i : Nat) (y : Node S A), h[i]? = some y → isTerminal g y = false →
        isFullyExpanded y = true → ∃ d ∈ y.children,
          ge (scoreOf m h (F64.round (14 / 10)) y.n d) (F64.fin (-MaxFloat64)) = true) →
      ∃ h' leaf, treePolicy g m rnd h 0 = Except.ok (h', leaf)) := by
  obtain ⟨hne, hsame⟩ := treePolicyLoop_fuel64 g m hw h.length rnd 0 hw.root.1 (by omega)
  refine ⟨⟨hne, ?_⟩, ?_, ?_⟩
  · intro fuel hfuel
    obtain ⟨extra, rfl⟩ : ∃ extra, fuel = h.length + extra := ⟨fuel - h.length, by omega⟩
    exact hsame extra
  · intro h' leaf ht
    obtain ⟨stop, hon, hmid, hend⟩ := treePolicyLoop_path64 g m hw _ _ _ _ _ ht
    refine ⟨stop, hon, ?_, ?_⟩
    · intro a ha hane
      rcases hmid a ha hane with hP | ⟨ha0, hne0⟩
      · exact hP
      · exact absurd (ha0.of_root hw.root.2) hne0
    · rcases hend with hterm | ⟨y, hy, hnt, hnf, he⟩
      · exact Or.inl hterm
      · right
        obtain ⟨x, a, rest, hx, _, hleaf, hchild⟩ := expand_ok_child64 g he
        refine ⟨hleaf, ⟨y, hy, hnt, hnf⟩, _, by rw [hleaf]; exact hchild, ?_⟩
        simp [newMCTSNode]
  · intro hscore
    exact treePolicyLoop_returns64 g m hw hscore h.length rnd 0 hw.root.1 (by omega)

theorem grownTree_wellFormed : WellFormed grownTree := by
  refine ⟨⟨by decide, rfl⟩, ?_, ?_, ?_, ?_, ?_⟩
  · intro i p hp
    rcases i with _ | _ | _ | _ | _ | i <;> simp [parentOf, grownTree] at hp <;> omega
  · intro i hi hp
    rcases i with _ | _ | _ | _ | _ | i
    · rfl
    · simp [parentOf, grownTree] at hp
    · simp [parentOf, grownTree] at hp
    · simp [parentOf, grownTree] at hp
    · simp [parentOf, grownTree] at hp
    · have hlen : (grownTree : Heap Nat Nat).length = 5 := rfl
      omega
  · intro i p hp
    rcases i with _ | _ | _ | _ | _ | i <;> simp [parentOf, grownTree] at hp <;> subst hp <;>
      simp [childrenOf, grownTree]
  · intro p c hc
    rcases p with _ | _ | _ | _ | _ | p <;> simp [childrenOf, grownTree] at hc
    · rcases hc with rfl | rfl <;> simp [parentOf, grownTree]
    · subst hc
      simp [parentOf, grownTree]
    · subst hc
      simp [parentOf, grownTree]
  · intro p
    rcases p with _ | _ | _ | _ | _ | p <;> simp [childrenOf, grownTree]

theorem grownTree_scores : ∀ (i : Nat) (y : Node Nat Nat), grownTree[i]? = some y →
    isTerminal countdown y = false → isFullyExpanded y = true → ∃ d ∈ y.children,
      ge (scoreOf sampleMath grownTree (F64.round (14 / 10)) y.n d) (F64.fin (-MaxFloat64))
        = true := by
  intro i y hy hterm hfull
  rcases i with _ | _ | _ | _ | _ | i
  · simp [grownTree] at hy
    subst hy
    exact ⟨1, by decide, by decide!⟩
  · simp [grownTree] at hy
    subst hy
    simp [isFullyExpanded] at hfull
  · simp [grownTree] at hy
    subst hy
    exact ⟨4, by decide, by decide!⟩
  · simp [grownTree] at hy
    subst hy
    simp [isFullyExpanded] at hfull
  · simp [grownTree] at hy
    subst hy
    simp [isTerminal, countdown] at hterm
  · simp [grownTree] at hy

/-- C15 (amended) on the tree of the countdown game after four
simulations: every node that is not terminal and is fully expanded has a child
with a score that is a number, and the call, which draws `1` and goes down to
the second child, returns the terminal node below it. -/
theorem treePolicy_ends_at_fresh_or_terminal_witness :
    WellFormed grownTree ∧
    (∀ (i : Nat) (y : Node Nat Nat), grownTree[i]? = some y →
      isTerminal countdown y = false → isFullyExpanded y = true → ∃ d ∈ y.children,
        ge (scoreOf sampleMath grownTree (F64.round (14 / 10)) y.n d)
          (F64.fin (-MaxFloat64)) = true) ∧
    treePolicy countdown sampleMath (fun _ => 1) grownTree 0 = Except.ok (grownTree, 4) ∧
    ((treePolicy countdown sampleMath (fun _ => 1) grownTree 0
        ≠ Except.error Fault.outOfFuel ∧
      ∀ fuel, grownTree.length ≤ fuel →
        treePolicyLoop countdown sampleMath fuel (fun _ => 1) grownTree 0
          = treePolicy countdown sampleMath (fun _ => 1) grownTree 0) ∧
    (∀ (h' : Heap Nat Nat) (leaf : Nat),
      treePolicy countdown sampleMath (fun _ => 1) grownTree 0 = Except.ok (h', leaf) →
      ∃ stop, OnPath (parentOf grownTree) 0 stop ∧
        (∀ a, OnPath (parentOf grownTree) a stop → a ≠ stop →
          ∃ y, grownTree[a]? = some y ∧ isTerminal countdown y = false ∧
            isFullyExpanded y = true) ∧
        ((h' = grownTree ∧ leaf = stop ∧
            ∃ y, grownTree[stop]? = some y ∧ isTerminal countdown y = true) ∨
          (leaf = grownTree.length ∧
            (∃ y, grownTree[stop]? = some y ∧ isTerminal countdown y = false ∧
              isFullyExpanded y = false) ∧
            ∃ z, h'[leaf]? = some z ∧ z.parent = some stop ∧ z.n = 0 ∧ z.q = F64.fin 0 ∧
              z.children = []))) ∧
    ((∀ (i : Nat) (y : Node Nat Nat), grownTree[i]? = some y →
        isTerminal countdown y = false → isFullyExpanded y = true → ∃ d ∈ y.children,
          ge (scoreOf sampleMath grownTree (F64.round (14 / 10)) y.n d)
            (F64.fin (-MaxFloat64)) = true) →
      ∃ h' leaf,
        treePolicy countdown sampleMath (fun _ => 1) grownTree 0 = Except.ok (h', leaf))) :=
  ⟨grownTree_wellFormed, grownTree_scores, by decide!,
    treePolicy_ends_at_fresh_or_terminal countdown sampleMath grownTree (fun _ => 1)
      grownTree_wellFormed⟩

end Descent64

end Binary64

/-! ## A choice in the middle of a backpropagation -/

namespace Binary64

section Preemption

/-- C1 fails in the code: the functions that select read `q` and `n`
without the lock.  In the game of two states, whose states have the one legal
action `7`: when the function evaluates the final `uctBestChild(0.0)` of a call
with one simulation while the goroutine is between the increment of the child
and that of the root, the root has `n = 0` and its only child `n = 1`, the score
of the child is `NaN`, no child is a candidate, and the call ends in the panic
of `rand.Int` instead of returning the action; with two simulations the same
panic ends the `treePolicy` of the second iteration; when the goroutine has
finished before, the call returns the action. -/
theorem MonteCarloTreeSearch_single_action_panics_between_increments :
    (∀ s, twoState.GetLegalActions s = [7]) ∧
    searchLoop twoState sampleMath false (fun _ => 7) preempted 1 = Except.ok preemptedRun ∧
    scoreOf sampleMath preemptedRun.h (F64.fin 0) 0 1 = F64.NaN ∧
    uctBestChild sampleMath preemptedRun.h 0 (F64.fin 0) preempted.rndFinal
      = Except.error Fault.randIntArg ∧
    MonteCarloTreeSearch twoState sampleMath preempted false (fun _ => 7) 1
      = Except.error Fault.randIntArg ∧
    treePolicy twoState sampleMath (preempted.rnd 1) preemptedRun.h 0
      = Except.error Fault.randIntArg ∧
    searchLoop twoState sampleMath false (fun _ => 7) preempted 2
      = Except.error Fault.randIntArg ∧
    MonteCarloTreeSearch twoState sampleMath completed false (fun _ => 7) 1
      = Except.ok (some 7) ∧
    MonteCarloTreeSearch twoState sampleMath completed false (fun _ => 7) 2
      = Except.ok (some 7) :=
  ⟨fun _ => rfl, by decide!, by decide!, by decide!, by decide!, by decide!, by decide!,
    by decide!, by decide!⟩

end Preemption

end Binary64

end Gomcts
